import Mathlib

/-!
ProdDevIQ catalog scripts.

A shallow embedding of the three index-maintenance scripts
(`scripts/add-masters-to-index.mjs`, `scripts/dedup-index.mjs`,
`scripts/bulk-import-pending.mjs`) and theorems about them.

JavaScript strings are modelled as `List Char`.  The scripts obtain every string
from a UTF-8 decoded file or from literals, so a string is a sequence of Unicode
scalar values; `jsLength` gives the UTF-16 length that `.length` reports.
-/

namespace ProdDevIQ

/-- A JavaScript string value. -/
abbrev Str := List Char

/-! ## String primitives -/

/-- The characters matched by `\s` and removed by `trim()` (WhiteSpace and LineTerminator). -/
def isJsSpace (c : Char) : Bool :=
  let n := c.toNat
  n == 9 || n == 10 || n == 11 || n == 12 || n == 13 || n == 32 || n == 160 ||
  n == 5760 || (8192 ≤ n && n ≤ 8202) || n == 8232 || n == 8233 || n == 8239 ||
  n == 8287 || n == 12288 || n == 65279

/-- The characters matched by `\w`. -/
def isWordChar (c : Char) : Bool :=
  let n := c.toNat
  (48 ≤ n && n ≤ 57) || (65 ≤ n && n ≤ 90) || n == 95 || (97 ≤ n && n ≤ 122)

/-- The characters matched by `\d`. -/
def isDigitChar (c : Char) : Bool :=
  let n := c.toNat
  48 ≤ n && n ≤ 57

/-- The line terminators, which `.` does not match. -/
def isLineTerminator (c : Char) : Bool :=
  let n := c.toNat
  n == 10 || n == 13 || n == 8232 || n == 8233

/-- UTF-16 length of a string, as `.length` reports it. -/
def jsLength (s : Str) : Nat :=
  (s.map (fun c => if c.toNat < 65536 then 1 else 2)).sum

/-- The method `trimStart()`. -/
def trimStart (s : Str) : Str := s.dropWhile isJsSpace

/-- The method `trimEnd()`. -/
def trimEnd (s : Str) : Str := s.rdropWhile isJsSpace

/-- The method `trim()`. -/
def trim (s : Str) : Str := trimEnd (trimStart s)

/-- The match of `/^\s*/`: the leading whitespace of a line. -/
def leadingWs (s : Str) : Str := s.takeWhile isJsSpace

/-- The method `startsWith(p)`. -/
def startsWith (s p : Str) : Bool := p.isPrefixOf s

/-- The method `includes(p)`. -/
def includes : Str → Str → Bool
  | [], p => p.isEmpty
  | c :: cs, p => p.isPrefixOf (c :: cs) || includes cs p

/-- The call `s.replace(p, r)` with a string pattern: the first occurrence of `p` is replaced. -/
def replaceFirst (p r : Str) : Str → Str
  | [] => if p.isEmpty then r else []
  | c :: cs => if p.isPrefixOf (c :: cs) then r ++ (c :: cs).drop p.length
               else c :: replaceFirst p r cs

/-- The call `s.replace(/^"|"$/g, '')`: one leading and one trailing double quote are removed. -/
def stripDq (s : Str) : Str :=
  let s1 := if s.head? = some '"' then s.tail else s
  if s1.getLast? = some '"' then s1.dropLast else s1

/-- The call `s.split('\n')`. -/
def splitLines : Str → List Str
  | [] => [[]]
  | c :: cs =>
    if c = '\n' then [] :: splitLines cs
    else match splitLines cs with
      | [] => [[c]]
      | l :: ls => (c :: l) :: ls

/-- The call `lines.join('\n')`. -/
def joinLines : List Str → Str
  | [] => []
  | [l] => l
  | l :: ls => l ++ '\n' :: joinLines ls

/-- Decimal rendering of a number in a template literal. -/
def natStr (n : Nat) : Str := Nat.toDigits 10 n

/-! ## add-masters-to-index.mjs -/

namespace AddMasters

/-- One element of the `MASTERS` table. -/
structure Master where
  name : Str
  replaces : Str
  category : Str
  desc : Str
deriving DecidableEq, Repr

/-- An entry object built by `parseYamlLines`; absent properties are `none`. -/
structure Entry where
  startLine : Nat
  endLine : Nat
  name : Str
  lines : List Str
  indent : Nat
  type : Option Str
  category : Option Str
  description : Option Str
  source : Option Str
deriving DecidableEq, Repr

/-- The local variables of the loop of `parseYamlLines`. -/
structure ParseState where
  entries : List Entry
  currentEntry : Option Entry
  currentIndent : Nat
  inSkillsSection : Bool
  headerEndIndex : Nat
deriving DecidableEq, Repr

/-- The test `line.match(/^\s*\w+:/)`. -/
def isPropertyLine (line : Str) : Bool :=
  let r := line.dropWhile isJsSpace
  let r2 := r.dropWhile isWordChar
  decide (r2.length < r.length) && r2.head? == some ':'

/-- The test `line.match(/^\s+\S/)`. -/
def isContinuationLine (line : Str) : Bool :=
  let r := line.dropWhile isJsSpace
  decide (r.length < line.length) && !r.isEmpty

/-- The property assignments made for a property line inside an entry. -/
def setProperty (e : Entry) (trimmed : Str) : Entry :=
  if startsWith trimmed "type:".toList then
    { e with type := some (trim (replaceFirst "type:".toList [] trimmed)) }
  else if startsWith trimmed "category:".toList then
    { e with category := some (trim (replaceFirst "category:".toList [] trimmed)) }
  else if startsWith trimmed "description:".toList then
    { e with description := some (stripDq (trim (replaceFirst "description:".toList [] trimmed))) }
  else if startsWith trimmed "source:".toList then
    { e with source := some (stripDq (trim (replaceFirst "source:".toList [] trimmed))) }
  else e

/-- Pushes the open entry, if any. -/
def pushCurrent (st : ParseState) : List Entry :=
  match st.currentEntry with
  | some e => st.entries ++ [e]
  | none => st.entries

/-- One iteration of the loop of `parseYamlLines` at index `i`. -/
def parseStep (st : ParseState) (i : Nat) (line : Str) : ParseState :=
  let trimmed := trim line
  if trimmed = "skills:".toList then
    { st with inSkillsSection := true, headerEndIndex := i }
  else if !st.inSkillsSection then st
  else if startsWith trimmed "- name:".toList then
    let ind := (leadingWs line).length
    { st with
      entries := pushCurrent st
      currentEntry := some {
        startLine := i, endLine := i
        name := trim (replaceFirst "- name:".toList [] trimmed)
        lines := [line], indent := ind
        type := none, category := none, description := none, source := none }
      currentIndent := ind }
  else
    match st.currentEntry with
    | some e =>
      if isPropertyLine line then
        if st.currentIndent < (leadingWs line).length then
          let e1 : Entry := { e with lines := e.lines ++ [line], endLine := i }
          { st with currentEntry := some (setProperty e1 trimmed) }
        else
          { st with entries := st.entries ++ [e], currentEntry := none }
      else if trim line = [] then
        { st with currentEntry := some { e with lines := e.lines ++ [line], endLine := i } }
      else if isContinuationLine line then
        { st with currentEntry := some { e with lines := e.lines ++ [line], endLine := i } }
      else if startsWith trimmed "#".toList then
        { st with entries := st.entries ++ [e], currentEntry := none }
      else st
    | none => st

/-- The loop of `parseYamlLines` from index `i` on. -/
def parseLoop : List Str → Nat → ParseState → ParseState
  | [], _, st => st
  | l :: ls, i, st => parseLoop ls (i + 1) (parseStep st i l)

/-- The initial values of the locals of `parseYamlLines`. -/
def initState : ParseState :=
  { entries := [], currentEntry := none, currentIndent := 0,
    inSkillsSection := false, headerEndIndex := 0 }

/-- The result object of `parseYamlLines`. -/
structure Parsed where
  entries : List Entry
  lines : List Str
  headerEndIndex : Nat
deriving DecidableEq, Repr

/-- The function `parseYamlLines`. -/
def parseYamlLines (content : Str) : Parsed :=
  let lines := splitLines content
  let st := parseLoop lines 0 initState
  { entries := pushCurrent st, lines := lines, headerEndIndex := st.headerEndIndex }

/-- The function `createEntryLines`. -/
def createEntryLines (master : Master) (indent : Nat) : List Str :=
  let spaces := List.replicate indent ' '
  [ spaces ++ "- name: ".toList ++ master.name,
    spaces ++ "  type: skill".toList,
    spaces ++ "  category: ".toList ++ master.category,
    spaces ++ "  description: \"".toList ++ master.desc ++ "\"".toList,
    spaces ++ "  source: IDETOOLS/skills/".toList ++ master.name ]

/-- The lookup `entryMap.get(name)`: the map is filled in entry order, later entries
overwrite earlier ones of the same name. -/
def entryMapGet (entries : List Entry) (name : Str) : Option Entry :=
  entries.foldl (fun acc e => if e.name = name then some e else acc) none

/-- The line array and the three counters of `main`. -/
structure MainState where
  lines : List Str
  addedCount : Nat
  updatedCount : Nat
  redirectCount : Nat
deriving DecidableEq, Repr

/-- The call `lines.splice(at, 0, ...items)`. -/
def spliceIn (lines : List Str) (pos : Nat) (items : List Str) : List Str :=
  lines.take pos ++ items ++ lines.drop pos

/-- The overwrite loop of the update branch: `lines[start + i] = updated[i]` for
`i < min(updated.length, n)`.  Every index written lies inside the array, since the
array never shrinks and `start + i` is at most the entry's `endLine`. -/
def overwriteAt (lines : List Str) (start : Nat) (updated : List Str) (n : Nat) : List Str :=
  (List.range (min updated.length n)).foldl
    (fun ls i => ls.set (start + i) (updated.getD i [])) lines

/-- The search loop of the redirect: the first index `i` of `start, start+1, ...` (`count`
indices) with `lines[i].trim().startsWith('source:')`.  Every index read lies inside the
array, since the array never shrinks and the indices are at most the entry's `endLine`. -/
def findSourceLine (lines : List Str) : Nat → Nat → Option Nat
  | _, 0 => none
  | start, count + 1 =>
    if startsWith (trim (lines.getD start [])) "source:".toList then some start
    else findSourceLine lines (start + 1) count

/-- The value `IDETOOLS/skills/${master.name}`. -/
def targetSource (master : Master) : Str := "IDETOOLS/skills/".toList ++ master.name

/-- The redirect block of the `forEach` body. -/
def redirectStep (replacedEntry : Option Entry) (master : Master) (st : MainState) : MainState :=
  match replacedEntry with
  | some r =>
    if r.source ≠ some (targetSource master) then
      match findSourceLine st.lines r.startLine (r.endLine + 1 - r.startLine) with
      | some i =>
        { st with
          lines := st.lines.set i
            (leadingWs (st.lines.getD i []) ++ "source: ".toList ++ targetSource master)
          redirectCount := st.redirectCount + 1 }
      | none => st
    else st
  | none => st

/-- The update-or-insert block of the `forEach` body. -/
def upsertStep (existingMaster replacedEntry : Option Entry) (master : Master)
    (st : MainState) : MainState :=
  match existingMaster with
  | some ex =>
    let updatedLines := createEntryLines master ex.indent
    let lines1 := overwriteAt st.lines ex.startLine updatedLines ex.lines.length
    let lines2 :=
      if ex.lines.length < updatedLines.length then
        spliceIn lines1 (ex.startLine + ex.lines.length) (updatedLines.drop ex.lines.length)
      else lines1
    { st with lines := lines2, updatedCount := st.updatedCount + 1 }
  | none =>
    match replacedEntry with
    | some r =>
      { st with
        lines := spliceIn st.lines (r.endLine + 1) ([] :: createEntryLines master r.indent)
        addedCount := st.addedCount + 1 }
    | none => st

/-- The body of `MASTERS.forEach`. -/
def processMaster (entries : List Entry) (st : MainState) (master : Master) : MainState :=
  let existingMaster := entryMapGet entries master.name
  let replacedEntry := entryMapGet entries master.replaces
  redirectStep replacedEntry master (upsertStep existingMaster replacedEntry master st)

/-- The header update: the first line of indices `0..headerEndIndex` whose trimmed text
starts with `total_skills:` is replaced. -/
def updateHeader (lines : List Str) (headerEndIndex totalSkills : Nat) : List Str :=
  match (List.range (headerEndIndex + 1)).find?
      (fun i => startsWith (trim (lines.getD i [])) "total_skills:".toList) with
  | some i => lines.set i ("total_skills: ".toList ++ natStr totalSkills)
  | none => lines

/-- The value `totalSkills` of `main`. -/
def totalSkills (entries : List Entry) (st : MainState) : Nat :=
  (entries.filter (fun e => e.type = some "skill".toList)).length + st.addedCount

/-- The state after `MASTERS.forEach` for a given table. -/
def runMasters (masters : List Master) (p : Parsed) : MainState :=
  masters.foldl (processMaster p.entries)
    { lines := p.lines, addedCount := 0, updatedCount := 0, redirectCount := 0 }

/-- The text that `main` writes, for a given table of masters. -/
def mainWith (masters : List Master) (content : Str) : Str :=
  let p := parseYamlLines content
  let st := runMasters masters p
  joinLines (updateHeader st.lines p.headerEndIndex (totalSkills p.entries st))

/-- The table `MASTERS`. -/
def MASTERS : List Master := [
  { name := "testing-master".toList, replaces := "testing-patterns".toList, category := "testing".toList,
    desc := "Comprehensive testing guide: TDD, unit/integration/E2E with Playwright, patterns across JS/Python/Bash. Consolidates 15 testing skills.".toList },
  { name := "database-master".toList, replaces := "databases".toList, category := "database".toList,
    desc := "Comprehensive database guide: schema design, PostgreSQL, migrations, NoSQL, query optimization, Neon/Supabase. Consolidates 13 skills.".toList },
  { name := "security-master".toList, replaces := "security-best-practices".toList, category := "security".toList,
    desc := "Comprehensive security guide: OWASP Top 10, threat modeling, secure coding, API security, dependency auditing, compliance. Consolidates 12 skills.".toList },
  { name := "python-master".toList, replaces := "python-patterns".toList, category := "python".toList,
    desc := "Comprehensive Python guide: design patterns, async programming, type safety, project structure, error handling, performance. Consolidates 11 skills.".toList },
  { name := "prompt-master".toList, replaces := "prompt-engineering".toList, category := "ai-llm".toList,
    desc := "Comprehensive prompt engineering guide: techniques, structured output (DSPy/Instructor/Outlines), caching, prompt library. Consolidates 10 skills.".toList },
  { name := "agentdb-master".toList, replaces := "agentdb-advanced".toList, category := "ai-llm".toList,
    desc := "Comprehensive AgentDB guide: vector search, memory patterns, QUIC sync, learning plugins, ReasoningBank. Consolidates 12 skills.".toList },
  { name := "react-master".toList, replaces := "react-best-practices".toList, category := "frontend-design".toList,
    desc := "Comprehensive React guide: component patterns, hooks, state management, React Native, Server Components. Consolidates 8 skills.".toList },
  { name := "api-master".toList, replaces := "api-design-principles".toList, category := "backend-api".toList,
    desc := "Comprehensive API guide: REST design, GraphQL, OpenAPI specs, type-safe clients, security, testing. Consolidates 8 skills.".toList },
  { name := "backend-master".toList, replaces := "backend-development".toList, category := "backend-api".toList,
    desc := "Comprehensive backend guide: Node.js/Python/.NET patterns, architecture, auth, error handling, frontend handoff. Consolidates 7 skills.".toList },
  { name := "ui-design-master".toList, replaces := "ui-ux-pro-max".toList, category := "frontend-design".toList,
    desc := "Comprehensive UI/UX guide: design systems, Tailwind CSS, component libraries, accessibility, responsive design. Consolidates 7 skills.".toList },
  { name := "rag-master".toList, replaces := "rag-implementation".toList, category := "ai-llm".toList,
    desc := "Comprehensive RAG guide: vector databases (Chroma/FAISS/Pinecone/Qdrant), embeddings, chunking, retrieval strategies. Consolidates 7 skills.".toList },
  { name := "performance-master".toList, replaces := "performance-analysis".toList, category := "general".toList,
    desc := "Comprehensive performance guide: Web Vitals, JS/Python optimization, database tuning, profiling tools, monitoring. Consolidates 6 skills.".toList },
  { name := "ml-master".toList, replaces := "ml-pipeline-workflow".toList, category := "data-science-ml".toList,
    desc := "Comprehensive ML/MLOps guide: pipeline workflows, experiment tracking (MLflow/TensorBoard/W&B), deployment, paper writing. Consolidates 5 skills.".toList },
  { name := "github-master".toList, replaces := "github-automation".toList, category := "git-vcs".toList,
    desc := "Comprehensive GitHub guide: Actions CI/CD, release management, multi-repo workflows, project management, automation. Consolidates 5 skills.".toList },
  { name := "pdf-master".toList, replaces := "pdf-anthropic".toList, category := "document-processing".toList,
    desc := "Comprehensive PDF guide: text extraction, Claude integration, generation, OCR, manipulation, RAG pipelines. Consolidates 5 skills.".toList },
  { name := "game-master".toList, replaces := "game-development".toList, category := "general".toList,
    desc := "Comprehensive game development guide: design, art pipelines, audio, engines (Godot/Phaser/Pygame), web games. Consolidates 5 skills.".toList },
  { name := "frontend-master".toList, replaces := "frontend-development".toList, category := "frontend-design".toList,
    desc := "Comprehensive frontend guide: architecture, state management, build tooling, accessibility, modern CSS. Consolidates 4 skills.".toList },
  { name := "code-review-master".toList, replaces := "code-review-excellence".toList, category := "code-review".toList,
    desc := "Comprehensive code review guide: checklists, giving/receiving feedback, automated checks, AI-assisted review. Consolidates 4 skills.".toList },
  { name := "documentation-master".toList, replaces := "technical-documentation".toList, category := "general".toList,
    desc := "Comprehensive documentation guide: README templates, API docs, ADRs, tech specs, quality management, tools. Consolidates 4 skills.".toList },
  { name := "mobile-master".toList, replaces := "mobile-design".toList, category := "frontend-design".toList,
    desc := "Comprehensive mobile guide: React Native/Expo, iOS/Android design, UX patterns, performance, app store submission. Consolidates 4 skills.".toList },
  { name := "seo-master".toList, replaces := "seo-fundamentals".toList, category := "frontend-design".toList,
    desc := "Comprehensive SEO guide: technical SEO, content optimization, Core Web Vitals, structured data, Next.js SEO. Consolidates 3 skills.".toList } ]

/-- The text that `main` writes for catalog text `content`. -/
def main (content : Str) : Str := mainWith MASTERS content

/-- The redirect block of `main` applied on its own to a catalog text: the text is parsed,
the record replaced by `master` is redirected, and the lines are joined again.  The second
component is the value of `redirectCount`. -/
def redirectOnly (master : Master) (content : Str) : Str × Nat :=
  let p := parseYamlLines content
  let st := redirectStep (entryMapGet p.entries master.replaces) master
    { lines := p.lines, addedCount := 0, updatedCount := 0, redirectCount := 0 }
  (joinLines st.lines, st.redirectCount)

/-- A catalog with the anchors of the first two masters, `testing-patterns` above `databases`. -/
def catalogTwoAnchors : Str :=
  ("total_skills: 2\nskills:\n" ++
   "  - name: testing-patterns\n    type: skill\n    category: testing\n" ++
   "    description: \"Testing patterns\"\n    source: IDETOOLS/skills/testing-patterns\n" ++
   "  - name: databases\n    type: skill\n    category: database\n" ++
   "    description: \"Databases\"\n    source: IDETOOLS/skills/databases").toList

/-- A catalog with the same two anchors as two-line records. -/
def catalogShortAnchors : Str :=
  ("total_skills: 2\nskills:\n" ++
   "  - name: testing-patterns\n    type: skill\n" ++
   "  - name: databases\n    type: skill").toList

/-- A catalog in which the master `testing-master` already exists with a six-line record
(its description is wrapped onto a second line). -/
def catalogLongMaster : Str :=
  ("total_skills: 1\nskills:\n" ++
   "  - name: testing-master\n    type: skill\n    category: testing\n" ++
   "    description: >\n      Old text\n    source: old/path").toList

/-- A catalog whose anchor `testing-patterns` has a quoted source value. -/
def catalogQuotedSource : Str :=
  ("total_skills: 1\nskills:\n" ++
   "  - name: testing-patterns\n    type: skill\n" ++
   "    source: \"skills/testing-patterns\"").toList

/-- A catalog with one record, `databases`, and none of `testing-master`, `testing-patterns`. -/
def catalogOneAnchor : Str :=
  ("total_skills: 1\nskills:\n" ++
   "  - name: databases\n    type: skill\n    source: skills/databases").toList

/-- The part of an entry that fixes its place in the file: the properties and the collected
lines are erased. -/
def shapeE (e : Entry) : Entry :=
  { e with lines := [], type := none, category := none, description := none, source := none }

/-- The parser state with every entry reduced by `shapeE`. -/
def shapeS (s : ParseState) : ParseState :=
  { s with entries := s.entries.map shapeE, currentEntry := s.currentEntry.map shapeE }

/-- The test `line.trim().startsWith('source:')` of the redirect loop. -/
def isSourceLine (l : Str) : Bool := startsWith (trim l) "source:".toList

/-- What C14 says of an entry: the index of its first line, its name and its indentation. -/
def Entry.start (e : Entry) : Nat × Str × Nat := (e.startLine, e.name, e.indent)

/-- The record starts of a text in the words of the specification: of the lines after the
first line whose trimmed text is `skills:`, those whose trimmed text starts with `- name:`,
each with its index, the trimmed text after `- name:` and its number of leading whitespace
characters. -/
def recordStarts (lines : List Str) : List (Nat × Str × Nat) :=
  (((lines.enum.dropWhile (fun p => trim p.2 != "skills:".toList)).drop 1).filter
    (fun p => startsWith (trim p.2) "- name:".toList)).map
    (fun p => (p.1, trim ((trim p.2).drop 7), (leadingWs p.2).length))

/-- A catalog with a header, two records after the marker `skills:` and a line of the shape
of a record start above the marker. -/
def catalogWithHeader : Str :=
  ("  - name: above\nskills:\n  - name: alpha\n    type: skill\n" ++
   "\t- name:   beta  \n    type: skill").toList

/-- The shapes of line that the loop collects into an open entry of indentation `indent`: a
record start, a property line indented deeper, a blank line, or a continuation line. -/
def Collected (indent : Nat) (l : Str) : Prop :=
  startsWith (trim l) "- name:".toList = true ∨
  (isPropertyLine l = true ∧ indent < (leadingWs l).length) ∨
  trim l = [] ∨
  (isPropertyLine l = false ∧ isContinuationLine l = true)

/-- The invariant of the loop of `parseYamlLines` before index `i`: every entry found so far
ends below `i`, the entries lie one after the other, and an open entry has the current
indentation and holds collected lines only. -/
def ParseInv (i : Nat) (st : ParseState) : Prop :=
  (∀ e ∈ pushCurrent st, e.startLine ≤ e.endLine ∧ e.endLine < i) ∧
  (pushCurrent st).Pairwise (fun a b => a.endLine < b.startLine) ∧
  ∀ e, st.currentEntry = some e →
    st.inSkillsSection = true ∧ st.currentIndent = e.indent ∧
    ∀ l ∈ e.lines, Collected e.indent l

/-- A catalog whose record `alpha` is followed by a blank line, a comment indented as the
record, an unindented line without a colon, and then a property line. -/
def catalogLooseLines : Str :=
  "skills:\n  - name: alpha\n\n  # note\norphan\n    type: skill".toList

/-- A catalog whose record `alpha` is followed by the top-level key `agents:`. -/
def catalogTwoSections : Str :=
  "skills:\n  - name: alpha\n    type: skill\nagents:\n  - name: omega".toList

/-- The entry of `alpha` as it stands open after the first three lines of
`catalogTwoSections`. -/
def alphaOpen : Entry :=
  { startLine := 1, endLine := 2, name := "alpha".toList,
    lines := ["  - name: alpha".toList, "    type: skill".toList], indent := 2,
    type := some "skill".toList, category := none, description := none, source := none }

/-- A catalog whose record writes every value between quote characters: double quotes for
`type`, `category` and `source`, single quotes for `description`. -/
def catalogQuotedValues : Str :=
  ("skills:\n  - name: alpha\n    type: \"skill\"\n    category: \"testing\"\n" ++
   "    description: 'Single quoted'\n    source: \"skills/alpha\"").toList

/-- The entry of `alpha` as it stands open after the lines `skills:` and `  - name: alpha`. -/
def alphaStart : Entry :=
  { startLine := 1, endLine := 1, name := "alpha".toList,
    lines := ["  - name: alpha".toList], indent := 2,
    type := none, category := none, description := none, source := none }

/-- A parsed source value comes from a line of the entry's own span: for the lines `L` of the
text, every entry found so far that has a source has a line within `startLine..endLine`
whose trimmed text starts with `source:`. -/
def SourceInv (L : List Str) (st : ParseState) : Prop :=
  ∀ e ∈ pushCurrent st, ∀ s, e.source = some s →
    ∃ j, e.startLine ≤ j ∧ j ≤ e.endLine ∧ isSourceLine (L.getD j []) = true

/-- The entry of `testing-patterns` in the parse of `catalogQuotedSource`. -/
def quotedAnchor : Entry :=
  { startLine := 2, endLine := 4, name := "testing-patterns".toList,
    lines := ["  - name: testing-patterns".toList, "    type: skill".toList,
              "    source: \"skills/testing-patterns\"".toList],
    indent := 2, type := some "skill".toList, category := none, description := none,
    source := some "skills/testing-patterns".toList }

/-- The first master of the table, `testing-master`, which replaces `testing-patterns`. -/
def testingMaster : Master :=
  MASTERS.headD { name := [], replaces := [], category := [], desc := [] }

/-- A catalog in which the record `alpha` is followed by a section banner indented as the
record, the kind of line that bulk-import writes between the records of the list. -/
def catalogBannerAfterRecord : Str :=
  ("skills:\n  - name: alpha\n    type: skill\n  # --- godmodedev-new (0) ---\n" ++
   "  - name: beta\n    type: skill").toList

/-- A catalog with two skill records, the first of which writes its type and its source
between double quotes. -/
def catalogQuotedType : Str :=
  ("total_skills: 2\nskills:\n  - name: alpha\n    type: \"skill\"\n" ++
   "    source: \"skills/alpha\"\n  - name: beta\n    type: skill").toList

end AddMasters

/-! ## dedup-index.mjs -/

namespace Dedup

/-- The double quote character. -/
def dq : Char := Char.ofNat 34

/-- The single quote character. -/
def sq : Char := Char.ofNat 39

/-- One value of the table `CLUSTERS`; `exclude` is absent for most clusters. -/
structure Cluster where
  keep : Str
  patterns : List Str
  exclude : Option (List Str)
  type : Str
deriving DecidableEq, Repr

/-- The match of `/^\s*-\s*name:/`, returning the text after `name:`. -/
def matchEntryStart (line : Str) : Option Str :=
  match line.dropWhile isJsSpace with
  | c :: r1 =>
    if c = '-' then
      let r2 := r1.dropWhile isJsSpace
      if "name:".toList.isPrefixOf r2 then some (r2.drop 5) else none
    else none
  | [] => none

/-- The test whether a line matches the regular expression `^\s*#\s*---`. -/
def isSectionMarker (line : Str) : Bool :=
  match line.dropWhile isJsSpace with
  | c :: r1 => c == '#' && "---".toList.isPrefixOf (r1.dropWhile isJsSpace)
  | [] => false

/-- A text that `.+` can match to the end of the input. -/
def dotPlus (t : Str) : Bool := !t.isEmpty && t.all (fun c => !isLineTerminator c)

/-- The group of `\s*(.+)$` on `r`: `\s*` gives back whitespace, longest first, until
the rest is matched by `.+` up to the end of the input. -/
def captureToEnd (r : Str) : Option Str :=
  ((List.range ((r.takeWhile isJsSpace).length + 1)).reverse.map (fun j => r.drop j)).find? dotPlus

/-- The function `parseEntryName`: `null` is `none`. -/
def parseEntryName (line : Str) : Option Str :=
  match matchEntryStart line with
  | some r => (captureToEnd r).map trim
  | none => none

/-- Truthiness of the result of `parseEntryName` (`null` and the empty string are falsy). -/
def truthyName (line : Str) : Option Str :=
  match parseEntryName line with
  | some n => if n = [] then none else some n
  | none => none

/-- The group of `(.+?)["']?$` on `r`: the shortest nonempty prefix without a line
terminator that is followed by at most one quote character and the end of the input. -/
def lazyCapture (r : Str) : Option Str :=
  (((List.range r.length).map (fun k => k + 1)).find? (fun k =>
    (r.take k).all (fun c => !isLineTerminator c) &&
      (r.drop k == [] || r.drop k == [dq] || r.drop k == [sq]))).map (fun k => r.take k)

/-- The group of `/^\s*key\s*["']?(.+?)["']?$/` on a line, where `key` is `source:` or
`description:`.  Backtracking order: `\s*` longest first, the opening quote taken first. -/
def matchField (key line : Str) : Option Str :=
  let r0 := line.dropWhile isJsSpace
  if key.isPrefixOf r0 then
    let r := r0.drop key.length
    (List.range ((r.takeWhile isJsSpace).length + 1)).reverse.findSome? (fun j =>
      let t := r.drop j
      let quoted := match t with
        | c :: t1 => if c = dq ∨ c = sq then lazyCapture t1 else none
        | [] => none
      match quoted with
      | some g => some g
      | none => lazyCapture t)
  else none

/-- The result object of `parseEntryBlock`. -/
structure Block where
  source : Option Str
  description : Str
deriving DecidableEq, Repr

/-- The body of the loop of `parseEntryBlock` for a line that did not end the block. -/
def blockStep (b : Block) (line : Str) : Block :=
  let b1 := match matchField "source:".toList line with
    | some g => { b with source := some (trim g) }
    | none => b
  match matchField "description:".toList line with
  | some g => { b1 with description := trim g }
  | none => b1

/-- The loop of `parseEntryBlock` over the lines from the current index on; `first` says
whether the current index is `startIndex`. -/
def blockLoop : List Str → Bool → Block → Block
  | [], _, b => b
  | l :: ls, first, b =>
    if !first && (matchEntryStart l).isSome then b
    else if isSectionMarker l then b
    else blockLoop ls false (blockStep b l)

/-- The function `parseEntryBlock`, given the lines from `startIndex` on. -/
def parseEntryBlock (linesFrom : List Str) : Block :=
  blockLoop linesFrom true { source := none, description := [] }

/-- A value of the map `allEntries`; `type` is `null` before any section banner. -/
structure Entry where
  name : Str
  lineIndex : Nat
  type : Option Str
  source : Option Str
  description : Str
deriving DecidableEq, Repr

/-- The call `allEntries.set(e.name, e)`: an existing key keeps its position. -/
def mapSet : List Entry → Entry → List Entry
  | [], e => [e]
  | x :: xs, e => if x.name = e.name then e :: xs else x :: mapSet xs e

/-- The section tracking of the entry scan. -/
def nextSection (cur : Option Str) (line : Str) : Option Str :=
  let c1 := if includes line "# SKILLS".toList then some "skill".toList else cur
  if includes line "# AGENTS".toList then some "agent".toList else c1

/-- The entry scan from index `i` on: the map and the current section. -/
def scanEntries : List Str → Nat → Option Str → List Entry → List Entry
  | [], _, _, acc => acc
  | l :: ls, i, cur, acc =>
    let sec := nextSection cur l
    let acc1 := match truthyName l with
      | some name =>
        let b := parseEntryBlock (l :: ls)
        mapSet acc { name := name, lineIndex := i, type := sec,
                     source := b.source, description := b.description }
      | none => acc
    scanEntries ls (i + 1) sec acc1

/-- The call `new RegExp(pattern).test(name)` on a pattern of literal shape (`literalPattern`):
`^`, then characters that stand for themselves, then an optional final `$`.  Such a pattern
matches the names that start with the literal text, or that equal it when the `$` is there.
Every pattern of the table that starts with `^` has this shape (`clusters_literal`).  On a
pattern with other syntax characters, or on an invalid pattern, for which the constructor
throws, this definition is not the test of the code. -/
def regexTest (pattern name : Str) : Bool :=
  let body := pattern.drop 1
  if body.getLast? = some '$' then decide (name = body.dropLast)
  else body.isPrefixOf name

/-- The function `matchesPattern`. -/
def matchesPattern (name pattern : Str) : Bool :=
  if startsWith pattern "^".toList then regexTest pattern name
  else includes name pattern

/-- The function `shouldExclude`. -/
def shouldExclude (name : Str) (excludePatterns : Option (List Str)) : Bool :=
  match excludePatterns with
  | none => false
  | some ps => ps.any (fun p => matchesPattern name p)

/-- The function `isIdetoolsSource`, as a truth value. -/
def isIdetoolsSource (source : Option Str) : Bool :=
  match source with
  | some s => !s.isEmpty && startsWith s "IDETOOLS/".toList
  | none => false

/-- The entries collected in `matches` for a cluster. -/
def clusterMatches (allEntries : List Entry) (cluster : Cluster) : List Entry :=
  allEntries.filter (fun e =>
    decide (e.type = some cluster.type) &&
    cluster.patterns.any (fun p => matchesPattern e.name p) &&
    !shouldExclude e.name cluster.exclude)

/-- A value of `clusterResults`. -/
structure ClusterResult where
  kept : Option Str
  removed : List Str
  count : Nat
deriving DecidableEq, Repr

/-- The `reduce` that picks the entry with the longest description. -/
def bestOf (first : Entry) (rest : List Entry) : Entry :=
  rest.foldl (fun best current =>
    if jsLength best.description < jsLength current.description then current else best) first

/-- The result recorded for a cluster and the names it passes to `toRemove.add`, in order. -/
def processCluster (allEntries : List Entry) (cluster : Cluster) : ClusterResult × List Str :=
  let ms := clusterMatches allEntries cluster
  if ms.length = 0 then ({ kept := none, removed := [], count := 0 }, [])
  else
    match ms.find? (fun e => e.name = cluster.keep) with
    | none =>
      match ms.filter (fun e => isIdetoolsSource e.source) with
      | first :: rest =>
        let bestEntry := bestOf first rest
        let removed := (ms.filter (fun e => e.name ≠ bestEntry.name)).map (fun e => e.name)
        ({ kept := some bestEntry.name, removed := removed, count := ms.length }, removed)
      | [] => ({ kept := none, removed := [], count := ms.length }, [])
    | some keeper =>
      let removed := (ms.filter (fun e => e.name ≠ keeper.name)).map (fun e => e.name)
      ({ kept := some keeper.name, removed := removed, count := ms.length }, removed)

/-- The call `toRemove.add(name)` on a set kept in insertion order. -/
def setAdd (s : List Str) (name : Str) : List Str :=
  if name ∈ s then s else s ++ [name]

/-- The body of the cluster loop: the names of a cluster are added to `toRemove` and its
result is stored in `clusterResults`. -/
def clusterStep (allEntries : List Entry) (acc : List Str × List (Str × ClusterResult))
    (c : Str × Cluster) : List Str × List (Str × ClusterResult) :=
  ((processCluster allEntries c.2).2.foldl setAdd acc.1,
    acc.2 ++ [(c.1, (processCluster allEntries c.2).1)])

/-- The cluster loop: the set `toRemove` and the object `clusterResults`. -/
def processClusters (allEntries : List Entry) (clusters : List (Str × Cluster)) :
    List Str × List (Str × ClusterResult) :=
  clusters.foldl (clusterStep allEntries) ([], [])

/-- The test `name && toRemove.has(name)` of the rebuild loop. -/
def markedForRemoval (toRemove : List Str) (line : Str) : Bool :=
  match truthyName line with
  | some name => decide (name ∈ toRemove)
  | none => false

/-- The rebuild loop from the current line on: `newLines` and `inRemovalBlock`. -/
def removeLoop (toRemove : List Str) : List Str → Bool → List Str → List Str
  | [], _, newLines => newLines
  | l :: ls, inRemovalBlock, newLines =>
    if markedForRemoval toRemove l then removeLoop toRemove ls true newLines
    else if inRemovalBlock then
      if (matchEntryStart l).isSome || isSectionMarker l then
        removeLoop toRemove ls false (newLines ++ [l])
      else removeLoop toRemove ls true newLines
    else removeLoop toRemove ls false (newLines ++ [l])

/-- The locals of the counting loop. -/
structure CountState where
  newSkillCount : Nat
  newAgentCount : Nat
  inSkills : Bool
  inAgents : Bool
deriving DecidableEq, Repr

/-- One iteration of the counting loop. -/
def countStep (st : CountState) (line : Str) : CountState :=
  let s1 := if includes line "# SKILLS".toList then { st with inSkills := true } else st
  let s2 := if includes line "# AGENTS".toList then { s1 with inSkills := false, inAgents := true }
            else s1
  if (truthyName line).isSome then
    let s3 := if s2.inSkills then { s2 with newSkillCount := s2.newSkillCount + 1 } else s2
    if s3.inAgents then { s3 with newAgentCount := s3.newAgentCount + 1 } else s3
  else s2

/-- The counting loop over `newLines`. -/
def countEntries (newLines : List Str) : CountState :=
  newLines.foldl countStep
    { newSkillCount := 0, newAgentCount := 0, inSkills := false, inAgents := false }

/-- The map that rewrites the two counter lines. -/
def updateCounts (newLines : List Str) (newSkillCount newAgentCount : Nat) : List Str :=
  newLines.map (fun line =>
    if startsWith line "total_skills:".toList then "total_skills: ".toList ++ natStr newSkillCount
    else if startsWith line "total_agents:".toList then
      "total_agents: ".toList ++ natStr newAgentCount
    else line)

/-- Everything `deduplicateIndex` computes from the text it read, for a given table. -/
structure Run where
  lines : List Str
  allEntries : List Entry
  toRemove : List Str
  clusterResults : List (Str × ClusterResult)
  newLines : List Str
  counts : CountState
  finalLines : List Str
deriving Repr

/-- The function `deduplicateIndex` on the text `content`, for a given table. -/
def runWith (clusters : List (Str × Cluster)) (content : Str) : Run :=
  let lines := splitLines content
  let allEntries := scanEntries lines 0 none []
  let pc := processClusters allEntries clusters
  let newLines := removeLoop pc.1 lines false []
  let counts := countEntries newLines
  { lines := lines, allEntries := allEntries, toRemove := pc.1, clusterResults := pc.2,
    newLines := newLines, counts := counts,
    finalLines := updateCounts newLines counts.newSkillCount counts.newAgentCount }

/-- The table `CLUSTERS`, in the order of `Object.entries`. -/
def CLUSTERS : List (Str × Cluster) := [
  ("testing-master".toList,
    { keep := "testing-patterns".toList,
      patterns := ["playwright".toList, "tdd".toList, "test-driven".toList, "testing-patterns".toList, "testing-anti".toList, "testing-skills".toList, "e2e-testing".toList, "test-fixing".toList, "qa-test".toList, "javascript-testing".toList, "python-testing".toList, "bats-testing".toList],
      exclude := none,
      type := "skill".toList }),
  ("database-master".toList,
    { keep := "databases".toList,
      patterns := ["database-design".toList, "database-migration".toList, "database-schema".toList, "databases".toList, "postgres-best".toList, "postgres-schema".toList, "postgresql".toList, "postgresql-table".toList, "neon-postgres".toList, "neon-instagres".toList, "nosql-expert".toList, "supabase-postgres".toList, "sql-optimization".toList],
      exclude := some ["sql-injection".toList, "sqlmap".toList],
      type := "skill".toList }),
  ("security-master".toList,
    { keep := "security-best-practices".toList,
      patterns := ["security-audit".toList, "security-best".toList, "security-compliance".toList, "security-ownership".toList, "security-requirement".toList, "security-threat".toList, "cc-skill-security".toList, "information-security".toList, "v3-security".toList, "api-security".toList, "k8s-security".toList],
      exclude := none,
      type := "skill".toList }),
  ("api-master".toList,
    { keep := "api-design-principles".toList,
      patterns := ["api-design".toList, "api-patterns".toList, "openapi-spec".toList, "openapi-to-typescript".toList, "api-documentation".toList, "api-integration".toList, "api-fuzzing".toList, "api-security-best".toList],
      exclude := some ["moodle".toList],
      type := "skill".toList }),
  ("python-master".toList,
    { keep := "python-patterns".toList,
      patterns := ["python-anti".toList, "python-background".toList, "python-code-style".toList, "python-design".toList, "python-error".toList, "python-patterns".toList, "python-project".toList, "python-resource".toList, "python-type-safety".toList, "async-python".toList, "python-performance".toList],
      exclude := none,
      type := "skill".toList }),
  ("prompt-master".toList,
    { keep := "prompt-engineering".toList,
      patterns := ["prompt-engineering".toList, "prompt-improver".toList, "prompt-library".toList, "prompt-caching".toList, "senior-prompt".toList],
      exclude := none,
      type := "skill".toList }),
  ("performance-master".toList,
    { keep := "performance-analysis".toList,
      patterns := ["performance-analysis".toList, "performance-profiling".toList, "python-performance".toList, "web-performance".toList, "v3-performance".toList],
      exclude := none,
      type := "skill".toList }),
  ("agentdb-master".toList,
    { keep := "agentdb-advanced".toList,
      patterns := ["agentdb-".toList, "AgentDB".toList, "reasoningbank-agentdb".toList],
      exclude := none,
      type := "skill".toList }),
  ("react-master".toList,
    { keep := "react-best-practices".toList,
      patterns := ["react-best".toList, "react-dev".toList, "react-native-arch".toList, "react-native-design".toList, "react-patterns".toList, "react-state".toList, "react-ui-patterns".toList, "react-useeffect".toList],
      exclude := some ["vercel-react".toList],
      type := "skill".toList }),
  ("ml-master".toList,
    { keep := "ml-pipeline-workflow".toList,
      patterns := ["ml-pipeline".toList, "ml-paper".toList, "mlops-mlflow".toList, "mlops-tensorboard".toList, "mlops-weights".toList],
      exclude := some ["html-injection".toList, "xss".toList],
      type := "skill".toList }),
  ("backend-master".toList,
    { keep := "backend-development".toList,
      patterns := ["backend-development".toList, "backend-dev-guidelines".toList, "cc-skill-backend".toList, "nodejs-backend".toList, "dotnet-backend".toList, "backend-to-frontend".toList, "frontend-to-backend".toList],
      exclude := none,
      type := "skill".toList }),
  ("documentation-master".toList,
    { keep := "technical-documentation".toList,
      patterns := ["documentation-templates".toList, "technical-documentation".toList, "quality-documentation".toList, "notion-research-documentation".toList],
      exclude := some ["api-documentation".toList, "claude-docs".toList, "docs-seeker".toList],
      type := "skill".toList }),
  ("pdf-master".toList,
    { keep := "pdf-anthropic".toList,
      patterns := ["^pdf$".toList, "pdf-anthropic".toList, "pdf-official".toList, "pdf-processing".toList, "pdf-processing-pro".toList],
      exclude := some ["data-export-pdf".toList],
      type := "skill".toList }),
  ("ui-design-master".toList,
    { keep := "ui-ux-pro-max".toList,
      patterns := ["ui-design-review".toList, "ui-design-system".toList, "ui-styling".toList, "ui-ux-pro".toList, "design-system-patterns".toList, "design-system-starter".toList, "tailwind-design".toList],
      exclude := some ["react-ui".toList],
      type := "skill".toList }),
  ("rag-master".toList,
    { keep := "rag-implementation".toList,
      patterns := ["rag-chroma".toList, "rag-faiss".toList, "rag-pinecone".toList, "rag-qdrant".toList, "rag-implementation".toList, "rag-engineer".toList, "rag-sentence".toList],
      exclude := none,
      type := "skill".toList }),
  ("github-master".toList,
    { keep := "github-automation".toList,
      patterns := ["github-multi-repo".toList, "github-project-management".toList, "github-release".toList, "github-automation".toList, "github-actions-templates".toList],
      exclude := none,
      type := "skill".toList }),
  ("frontend-master".toList,
    { keep := "frontend-development".toList,
      patterns := ["frontend-development".toList, "frontend-dev-guidelines".toList, "frontend-design".toList, "cc-skill-frontend".toList],
      exclude := some ["vercel-".toList],
      type := "skill".toList }),
  ("code-review-master".toList,
    { keep := "code-review-excellence".toList,
      patterns := ["code-review$".toList, "code-review-excellence".toList, "code-review-checklist".toList, "receiving-code".toList, "requesting-code".toList],
      exclude := none,
      type := "skill".toList }),
  ("mobile-master".toList,
    { keep := "mobile-design".toList,
      patterns := ["mobile-design".toList, "mobile-android".toList, "mobile-ios".toList, "mobile-games".toList],
      exclude := none,
      type := "skill".toList }),
  ("game-master".toList,
    { keep := "game-development".toList,
      patterns := ["game-development".toList, "game-design".toList, "game-art".toList, "game-audio".toList, "game-changing".toList],
      exclude := none,
      type := "skill".toList }),
  ("seo-master".toList,
    { keep := "seo-fundamentals".toList,
      patterns := ["seo-audit".toList, "seo-fundamentals".toList, "seo-optimizer".toList],
      exclude := none,
      type := "skill".toList }),
  ("agent-performance".toList,
    { keep := "agent-performance-optimizer".toList,
      patterns := ["agent-performance-analyzer".toList, "agent-performance-benchmarker".toList, "agent-performance-monitor".toList, "agent-performance-optimizer".toList, "agent-v3-performance".toList],
      exclude := none,
      type := "agent".toList }),
  ("agent-coordinator".toList,
    { keep := "agent-hierarchical-coordinator".toList,
      patterns := ["agent-coordinator-swarm".toList, "agent-consensus-coordinator".toList, "agent-hierarchical-coordinator".toList, "agent-mesh-coordinator".toList, "agent-queen-coordinator".toList, "agent-quorum-manager".toList, "agent-raft-manager".toList, "agent-v3-queen".toList],
      exclude := none,
      type := "agent".toList }) ]

/-- The text that `deduplicateIndex` writes for the text `content`. -/
def deduplicateIndex (content : Str) : Str :=
  joinLines (runWith CLUSTERS content).finalLines

/-- A catalog whose last skill record, `tdd-workflow`, is a duplicate of the keeper
`testing-patterns` and is followed by the banner and the top-level key of the agents. -/
def catalogLastSkillDuplicate : Str :=
  ("total_skills: 2\ntotal_agents: 1\n# SKILLS\nskills:\n" ++
   "  - name: testing-patterns\n    type: skill\n" ++
   "    source: IDETOOLS/skills/testing-patterns\n" ++
   "  - name: tdd-workflow\n    type: skill\n    source: IDETOOLS/skills/tdd-workflow\n" ++
   "\n# AGENTS\nagents:\n  - name: agent-one\n    type: agent").toList

/-- A catalog with the agents section above the skills section and nothing to remove. -/
def catalogAgentsFirst : Str :=
  ("total_skills: 1\ntotal_agents: 1\n# AGENTS\nagents:\n" ++
   "  - name: agent-one\n    type: agent\n# SKILLS\nskills:\n" ++
   "  - name: testing-patterns\n    type: skill").toList

/-- A catalog with three records of the cluster `testing-master`, none of them named as its
keeper, all with an `IDETOOLS/` source, and descriptions of length 10, 40 and 25. -/
def catalogThreeTdd : Str :=
  ("total_skills: 3\ntotal_agents: 0\n# SKILLS\nskills:\n" ++
   "  - name: tdd-basics\n    description: \"0123456789\"\n" ++
   "    source: IDETOOLS/skills/tdd-basics\n" ++
   "  - name: tdd-workflow\n" ++
   "    description: \"0123456789012345678901234567890123456789\"\n" ++
   "    source: IDETOOLS/skills/tdd-workflow\n" ++
   "  - name: tdd-advanced\n    description: \"0123456789012345678901234\"\n" ++
   "    source: IDETOOLS/skills/tdd-advanced").toList

/-- The cluster `testing-master` of the table. -/
def testingCluster : Cluster :=
  (CLUSTERS.headD ([], { keep := [], patterns := [], exclude := none, type := [] })).2

/-- A catalog with two records of the cluster `testing-master`, neither named as its keeper
and neither with a source under `IDETOOLS/`. -/
def catalogNoIdetools : Str :=
  ("total_skills: 2\ntotal_agents: 0\n# SKILLS\nskills:\n" ++
   "  - name: tdd-basics\n    source: vendor/tdd-basics\n" ++
   "  - name: tdd-workflow\n    description: \"A workflow\"\n").toList

/-- The entry of `testing-patterns` in the scan of `catalogLastSkillDuplicate`. -/
def keeperEntry : Entry :=
  { name := "testing-patterns".toList, lineIndex := 4, type := some "skill".toList,
    source := some "IDETOOLS/skills/testing-patterns".toList, description := [] }

/-- A catalog with one skill record, nothing to remove, and a skills counter that says 7. -/
def catalogStaleCounter : Str :=
  "total_skills: 7\n# SKILLS\nskills:\n  - name: alpha\n    type: skill\n".toList

/-- The line that the header map writes in place of `line`, for the two counts. -/
def counterLine (newSkillCount newAgentCount : Nat) (line : Str) : Str :=
  if startsWith line "total_skills:".toList then "total_skills: ".toList ++ natStr newSkillCount
  else if startsWith line "total_agents:".toList then
    "total_agents: ".toList ++ natStr newAgentCount
  else line

/-- A catalog with three records that match the patterns of the cluster `api-master`: its
keeper, a duplicate, and `moodle-api-integration`, which matches the exclude pattern
`moodle`. -/
def catalogExcluded : Str :=
  ("total_skills: 3\ntotal_agents: 0\n# SKILLS\nskills:\n" ++
   "  - name: api-design-principles\n    source: IDETOOLS/skills/api-design-principles\n" ++
   "  - name: api-patterns\n    source: IDETOOLS/skills/api-patterns\n" ++
   "  - name: moodle-api-integration\n    source: IDETOOLS/skills/moodle-api-integration\n").toList

/-- The cluster `api-master` of the table. -/
def apiCluster : Cluster :=
  (CLUSTERS.getD 3 ([], { keep := [], patterns := [], exclude := none, type := [] })).2

/-- A catalog with the record `python-performance`, a pattern of both `python-master` and
`performance-master`, the keeper of `performance-master`, and no keeper of `python-master`. -/
def catalogSharedPattern : Str :=
  ("total_skills: 2\ntotal_agents: 0\n# SKILLS\nskills:\n" ++
   "  - name: python-performance\n    description: \"Python speed\"\n" ++
   "    source: IDETOOLS/skills/python-performance\n" ++
   "  - name: performance-analysis\n    source: IDETOOLS/skills/performance-analysis\n").toList

/-- The characters that stand for themselves in a regular expression: every character other
than the syntax characters `^ $ \ . * + ? ( ) [ ] | ` and the two braces. -/
def isLiteralChar (c : Char) : Bool :=
  !([94, 36, 92, 46, 42, 43, 63, 40, 41, 91, 93, 123, 125, 124].contains c.toNat)

/-- A pattern of the shape on which `regexTest` is the test of the code: `^`, then literal
characters, then an optional final `$`. -/
def literalPattern (pattern : Str) : Bool :=
  startsWith pattern "^".toList &&
    (if (pattern.drop 1).getLast? = some '$' then (pattern.drop 1).dropLast
     else pattern.drop 1).all isLiteralChar

/-- Every pattern of the cluster that starts with `^`, in `patterns` and in `exclude`, is of
literal shape. -/
def Cluster.literal (c : Cluster) : Bool :=
  (c.patterns ++ c.exclude.getD []).all (fun p => !startsWith p "^".toList || literalPattern p)

end Dedup

/-! ## bulk-import-pending.mjs -/

namespace BulkImport

/-- The call `parts.join(sep)`. -/
def joinWith (sep : Str) : List Str → Str
  | [] => []
  | [l] => l
  | l :: ls => l ++ sep ++ joinWith sep ls

/-- The call `s.split(sep)` for a separator character. -/
def splitOnChar (sep : Char) : Str → List Str
  | [] => [[]]
  | c :: cs =>
    if c = sep then [] :: splitOnChar sep cs
    else match splitOnChar sep cs with
      | [] => [[c]]
      | l :: ls => (c :: l) :: ls

/-- The call `s.split(/\s+/)`: `pending` says whether the previous character was whitespace. -/
def splitWsAux : Str → Bool → List Str
  | [], _ => [[]]
  | c :: cs, pending =>
    if isJsSpace c then
      if pending then splitWsAux cs true else [] :: splitWsAux cs true
    else match splitWsAux cs false with
      | [] => [[c]]
      | l :: ls => (c :: l) :: ls

/-- The call `s.split(/\s+/)`. -/
def splitWs (s : Str) : List Str := splitWsAux s false

/-- The method `toLowerCase()` on ASCII letters; other characters are kept. -/
def asciiLower (s : Str) : Str :=
  s.map (fun c => if 65 ≤ c.toNat ∧ c.toNat ≤ 90 then Char.ofNat (c.toNat + 32) else c)

/-- The call `s.substring(0, n)` as it reaches the written file: `n` counts UTF-16 units, and
a surrogate pair cut in half is written as U+FFFD. -/
def substringTo : Nat → Str → Str
  | 0, _ => []
  | _, [] => []
  | n + 1, c :: cs =>
    if c.toNat < 65536 then c :: substringTo n cs
    else match n with
      | 0 => [Char.ofNat 65533]
      | m + 1 => c :: substringTo m cs

/-- A pending item: the object built by `parseSimpleYAML` that passed the test
`item.name && item.type`; absent keys are `none`. -/
structure Item where
  name : Str
  type : Str
  description : Option Str
  source_path : Option Str
deriving DecidableEq, Repr

/-- An entry object of `newSkills` or `newAgents`. -/
structure Entry where
  name : Str
  type : Str
  category : Str
  description : Str
  source : Str
  model : Option Str
deriving DecidableEq, Repr

/-- The table `SKILL_CATEGORIES`, in the order of `Object.entries`. -/
def SKILL_CATEGORIES : List (Str × List Str) := [
  ("scientific-biotech".toList,
    ["alphafold".toList, "biopython".toList, "pubchem".toList, "rdkit".toList, "uniprot".toList,
     "deepchem".toList, "esm".toList, "biotech".toList, "biology".toList]),
  ("data-science-ml".toList,
    ["scikit-learn".toList, "pytorch".toList, "plotly".toList, "statsmodels".toList,
     "machine-learning".toList, "ml-".toList, "training".toList, "fine-tuning".toList,
     "model".toList]),
  ("ai-llm".toList,
    ["prompt".toList, "rag".toList, "langchain".toList, "llm".toList, "agent".toList,
     "swarm".toList, "embedding".toList, "multimodal".toList, "agentic".toList]),
  ("testing".toList,
    ["test".toList, "tdd".toList, "playwright".toList, "e2e".toList, "bats".toList, "qa".toList,
     "testing".toList]),
  ("code-review".toList,
    ["code-review".toList, "lint".toList, "sast".toList, "verification".toList,
     "reviewer".toList]),
  ("document-processing".toList,
    ["pdf".toList, "docx".toList, "pptx".toList, "xlsx".toList, "document".toList]),
  ("frontend-design".toList,
    ["frontend".toList, "ui".toList, "canvas".toList, "brand".toList, "theme".toList,
     "landing".toList, "react".toList, "vue".toList, "angular".toList, "component".toList,
     "tailwind".toList, "css".toList, "design-system".toList]),
  ("devops-cicd".toList,
    ["github-actions".toList, "gitlab-ci".toList, "helm".toList, "k8s".toList, "deploy".toList,
     "cicd".toList, "pipeline".toList, "deployment".toList]),
  ("cloud-infrastructure".toList,
    ["terraform".toList, "cloud".toList, "aws".toList, "azure".toList, "infrastructure".toList,
     "kubernetes".toList, "k8s".toList, "istio".toList, "linkerd".toList, "mesh".toList,
     "multi-cloud".toList, "hybrid-cloud".toList]),
  ("security".toList,
    ["security".toList, "pci".toList, "secrets".toList, "defense".toList, "pentest".toList,
     "gdpr".toList, "compliance".toList, "solidity-security".toList]),
  ("database".toList,
    ["postgresql".toList, "database".toList, "sql".toList, "migration".toList, "postgres".toList,
     "neon".toList, "mongo".toList, "mysql".toList, "optimization".toList]),
  ("backend-api".toList,
    ["backend".toList, "fastapi".toList, "api".toList, "microservice".toList, "nodejs".toList,
     "express".toList, "hono".toList, "dotnet".toList, "architecture".toList]),
  ("javascript-typescript".toList,
    ["javascript".toList, "typescript".toList, "react-native".toList, "expo".toList,
     "nextjs".toList, "svelte".toList, "modern-javascript".toList]),
  ("python".toList,
    ["python".toList, "async-python".toList, "django".toList, "flask".toList,
     "temporal-python".toList]),
  ("git-vcs".toList,
    ["git".toList, "worktree".toList, "monorepo".toList, "branch".toList, "github".toList,
     "turborepo".toList, "nx-workspace".toList, "bazel".toList]),
  ("observability".toList,
    ["grafana".toList, "prometheus".toList, "tracing".toList, "slo".toList,
     "observability".toList, "kpi-dashboard".toList]),
  ("payment-commerce".toList,
    ["stripe".toList, "paypal".toList, "billing".toList, "shopify".toList, "nft".toList,
     "defi".toList, "commerce".toList, "web3".toList]),
  ("productivity".toList,
    ["brainstorm".toList, "planning".toList, "skill-creator".toList, "template".toList,
     "productivity".toList, "writing".toList, "content".toList, "blog".toList, "seo".toList,
     "changelog".toList, "context-driven".toList]),
  ("communication-media".toList,
    ["slack".toList, "email".toList, "video".toList, "image".toList, "media".toList,
     "gif".toList, "data-storytelling".toList]),
  ("problem-solving".toList,
    ["debugging".toList, "root-cause".toList, "problem-solving".toList, "error".toList]),
  ("plugin-development".toList,
    ["plugin".toList, "skill-develop".toList, "mcp".toList, "hook-develop".toList,
     "agent-development".toList, "command-development".toList]),
  ("research-search".toList,
    ["research".toList, "search".toList, "perplexity".toList, "brightdata".toList]),
  ("mobile-development".toList,
    ["mobile".toList, "react-native".toList, "flutter".toList, "ios".toList, "android".toList]),
  ("game-development".toList,
    ["game".toList, "unity".toList, "unreal".toList, "godot".toList]),
  ("business-product".toList,
    ["business".toList, "product".toList, "marketing".toList, "legal".toList, "sales".toList,
     "employment".toList, "incident".toList, "postmortem".toList, "on-call".toList]),
  ("integrations".toList,
    ["n8n".toList, "integration".toList, "automation".toList, "workflow".toList,
     "airflow".toList, "dag".toList, "dbt".toList, "spark".toList, "data-quality".toList]),
  ("design-ux".toList,
    ["design".toList, "ux".toList, "ui-design".toList, "figma".toList, "accessibility".toList,
     "wcag".toList]),
  ("workflows".toList,
    ["saga".toList, "cqrs".toList, "event-store".toList, "projection".toList,
     "orchestration".toList, "workflow-patterns".toList, "track-management".toList]) ]

/-- The table `AGENT_CATEGORIES`, in the order of `Object.entries`. -/
def AGENT_CATEGORIES : List (Str × List Str) := [
  ("orchestration".toList,
    ["orchestrat".toList, "coordinat".toList, "swarm".toList, "consensus".toList,
     "multi-agent".toList, "task-distributor".toList, "workflow".toList,
     "team-composition".toList, "team-communication".toList, "task-coordination".toList]),
  ("data-ai".toList,
    ["agentdb".toList, "vector".toList, "memory".toList, "data-".toList, "ml-".toList,
     "nlp".toList]),
  ("development".toList,
    ["dev".toList, "code".toList, "frontend".toList, "backend".toList, "architect".toList,
     "explorer".toList, "simplifier".toList, "creator".toList]),
  ("quality-security".toList,
    ["security".toList, "pentest".toList, "audit".toList, "review".toList, "test".toList,
     "analyzer".toList, "wcag".toList, "screen-reader".toList, "multi-reviewer".toList,
     "validator".toList]),
  ("infrastructure".toList,
    ["infra".toList, "cloud".toList, "deploy".toList, "devops".toList]),
  ("business-product".toList,
    ["business".toList, "product".toList, "marketing".toList]) ]

/-- The function `categorizeItem`; `lower` is the method `toLowerCase()`. -/
def categorizeItem (lower : Str → Str) (name description type : Str) : Str :=
  let searchText := lower (name ++ " ".toList ++ description)
  let table := if type = "agent".toList then AGENT_CATEGORIES else SKILL_CATEGORIES
  match table.find? (fun row => row.2.any (fun kw => includes searchText kw)) with
  | some row => row.1
  | none => "general".toList

/-- The function `truncateDescription`. -/
def truncateDescription (desc : Str) (maxLength : Nat) : Str :=
  if jsLength desc ≤ maxLength then desc
  else substringTo (maxLength - 3) desc ++ "...".toList

/-- The list `genericNames` of `fixGenericName`. -/
def genericNames : List Str :=
  ["skill".toList, "agent".toList, "readme".toList, "index".toList, "main".toList]

/-- The directory names that `fixGenericName` passes over. -/
def skippedDirs : List Str :=
  ["skills".toList, "agents".toList, "plugins".toList, ".agents".toList,
   "components".toList, "cli-tool".toList]

/-- The value `derived` computed for index `i` of `parts`, when `parts[i]` is not passed over
and the value is longer than two characters. -/
def derivedAt (lower : Str → Str) (parts : List Str) (i : Nat) : Option Str :=
  if lower (parts.getD i []) ∈ skippedDirs then none
  else
    let js := if i = 0 then [0] else [i - 1, i]
    let parentParts := (js.map (fun j => lower (parts.getD j []))).filter (fun p => p ∉ skippedDirs)
    let derived := (joinWith "-".toList parentParts).filter
      (fun c => (97 ≤ c.toNat && c.toNat ≤ 122) || (48 ≤ c.toNat && c.toNat ≤ 57) || c == '-')
    if 2 < jsLength derived then some derived else none

/-- The words that `fixGenericName` takes from a description. -/
def descriptionWords (lower : Str → Str) (description : Str) : List Str :=
  (((splitWs (lower description)).take 3).map (fun w => w.filter
    (fun c => (97 ≤ c.toNat && c.toNat ≤ 122) || (48 ≤ c.toNat && c.toNat ≤ 57)))).filter
    (fun w => 2 < jsLength w)

/-- The function `fixGenericName`; `lower` is the method `toLowerCase()`. -/
def fixGenericName (lower : Str → Str) (item : Item) : Str :=
  let name := trim (lower item.name)
  if name ∉ genericNames then item.name
  else
    let srcPath := item.source_path.getD []
    let parts := (splitOnChar '/' (srcPath.map (fun c => if c = Char.ofNat 92 then '/' else c))).filter
      (fun p => p ≠ [])
    match (List.range (parts.length - 1)).reverse.findSome? (derivedAt lower parts) with
    | some derived => derived
    | none =>
      match item.description with
      | some d =>
        if d ≠ [] ∧ 2 ≤ (descriptionWords lower d).length then
          joinWith "-".toList (descriptionWords lower d)
        else item.name
      | none => item.name

/-- The match of `/^\s*-\s+name:\s+(.+)$/m` tried at a line start: the group and the text
after the match.  The last `\s+` gives back whitespace, longest first. -/
def matchNameAt (t : Str) : Option (Str × Str) :=
  match t.dropWhile isJsSpace with
  | c :: r1 =>
    if c = '-' then
      let r2 := r1.dropWhile isJsSpace
      if r2.length < r1.length ∧ "name:".toList.isPrefixOf r2 then
        let r3 := r2.drop 5
        ((List.range (r3.takeWhile isJsSpace).length).reverse.map (fun j => j + 1)).findSome?
          (fun j =>
            let u := r3.drop j
            let cap := u.takeWhile (fun c => !isLineTerminator c)
            if cap ≠ [] then some (cap, u.dropWhile (fun c => !isLineTerminator c)) else none)
      else none
    else none
  | [] => none

/-- The `exec` loop that fills `existingNames`: `atStart` says whether the current position
is a line start, `skip` counts the characters left of the match just found. -/
def scanNames : Str → Bool → Nat → List Str
  | [], _, _ => []
  | c :: cs, atStart, skip =>
    match skip with
    | k + 1 => scanNames cs (isLineTerminator c) k
    | 0 =>
      match (if atStart then matchNameAt (c :: cs) else none) with
      | some m => trim m.1 :: scanNames cs (isLineTerminator c) ((c :: cs).length - m.2.length - 1)
      | none => scanNames cs (isLineTerminator c) 0

/-- The names collected in `existingNames`. -/
def existingNames (indexContent : Str) : List Str := scanNames indexContent true 0

/-- The values `category`, `description` and `entry` computed for a new item. -/
def makeEntry (lower : Str → Str) (name : Str) (item : Item) : Entry :=
  { name := name, type := item.type,
    category := categorizeItem lower name (item.description.getD []) item.type,
    description := truncateDescription
      (match item.description with
       | some d => if d = [] then "No description available".toList else d
       | none => "No description available".toList) 200,
    source := "PENDING/".toList ++ name,
    model := if item.type = "agent".toList then some "sonnet".toList else none }

/-- The lists `newSkills`, `newAgents` and `skipped`. -/
structure Sorted where
  newSkills : List Entry
  newAgents : List Entry
  skipped : List Str
deriving DecidableEq, Repr

/-- The body of the loop over `pendingItems`. -/
def sortStep (lower : Str → Str) (existing : List Str) (acc : Sorted) (item : Item) : Sorted :=
  let name := fixGenericName lower item
  if name ∈ existing then { acc with skipped := acc.skipped ++ [name] }
  else if item.type = "agent".toList then
    { acc with newAgents := acc.newAgents ++ [makeEntry lower name item] }
  else { acc with newSkills := acc.newSkills ++ [makeEntry lower name item] }

/-- The loop over `pendingItems`. -/
def sortItems (lower : Str → Str) (existing : List Str) (pendingItems : List Item) : Sorted :=
  pendingItems.foldl (sortStep lower existing) { newSkills := [], newAgents := [], skipped := [] }

/-- The function `generateYAMLEntry`. -/
def generateYAMLEntry (item : Entry) : Str :=
  joinLines
    ([ "  - name: ".toList ++ item.name,
       "    type: ".toList ++ item.type,
       "    category: ".toList ++ item.category ] ++
     (match item.model with
      | some m => if m = [] then [] else ["    model: ".toList ++ m]
      | none => []) ++
     [ "    description: ".toList ++ [Char.ofNat 34] ++ item.description ++ [Char.ofNat 34],
       "    source: ".toList ++ item.source ])

/-- The text of a `pending-imports` banner line without its line break. -/
def bannerLine (count : Nat) (date : Str) : Str :=
  "  # --- pending-imports (".toList ++ natStr count ++ ") --- Imported ".toList ++ date

/-- The value `skillsSection`. -/
def skillsSection (newSkills : List Entry) (date : Str) : Str :=
  bannerLine newSkills.length date ++ "\n".toList ++
    joinWith "\n\n".toList (newSkills.map generateYAMLEntry) ++ "\n\n".toList

/-- The value `agentsSection`. -/
def agentsSection (newAgents : List Entry) (date : Str) : Str :=
  "\n".toList ++ bannerLine newAgents.length date ++ "\n".toList ++
    joinWith "\n\n".toList (newAgents.map generateYAMLEntry) ++ "\n".toList

/-- The constant `skillMarker`. -/
def skillMarker : Str := "  # --- godmodedev-new".toList

/-- The insertion of `ins` at `indexOf(marker)`; `none` when the marker does not occur. -/
def insertBefore (marker ins : Str) : Str → Option Str
  | [] => if marker.isEmpty then some ins else none
  | c :: cs =>
    if marker.isPrefixOf (c :: cs) then some (ins ++ c :: cs)
    else (insertBefore marker ins cs).map (fun r => c :: r)

/-- The match of `/^key\s+(\d+)/m` tried at a line start, `key` being `total_skills:` or
`total_agents:`: the digits and the text after the match. -/
def matchCounter (key t : Str) : Option (Str × Str) :=
  if key.isPrefixOf t then
    let r := t.drop key.length
    let r1 := r.dropWhile isJsSpace
    if r1.length < r.length ∧ r1.takeWhile isDigitChar ≠ [] then
      some (r1.takeWhile isDigitChar, r1.dropWhile isDigitChar)
    else none
  else none

/-- The digits of the first match of `/^key\s+(\d+)/m`; `atStart` says whether the current
position is a line start. -/
def findCounter (key : Str) : Str → Bool → Option Str
  | [], _ => none
  | c :: cs, atStart =>
    match (if atStart then matchCounter key (c :: cs) else none) with
    | some m => some m.1
    | none => findCounter key cs (isLineTerminator c)

/-- The call `content.replace(/^key\s+\d+/m, replacement)`. -/
def replaceCounter (key replacement : Str) : Str → Bool → Str
  | [], _ => []
  | c :: cs, atStart =>
    match (if atStart then matchCounter key (c :: cs) else none) with
    | some m => replacement ++ m.2
    | none => c :: replaceCounter key replacement cs (isLineTerminator c)

/-- The call `parseInt(digits)` on a string of decimal digits, as a natural number (exact
below 2^53, where JavaScript numbers are). -/
def parseInt (digits : Str) : Nat :=
  digits.foldl (fun acc c => 10 * acc + (c.toNat - 48)) 0

/-- One counter update of step 7. -/
def bumpCounter (key : Str) (found : Option Str) (added : Nat) (content : Str) : Str :=
  match found with
  | some digits =>
    replaceCounter key (key ++ " ".toList ++ natStr (parseInt digits + added)) content true
  | none => content

/-- Step 6, skills: the section is inserted before the marker when there are new skills and
the marker occurs; otherwise the text is left as it is (the script only warns). -/
def insertSkills (indexContent : Str) (s : Sorted) (date : Str) : Str :=
  if 0 < s.newSkills.length then
    match insertBefore skillMarker (skillsSection s.newSkills date) indexContent with
    | some c => c
    | none => indexContent
  else indexContent

/-- Step 6, agents: the section is appended to the text trimmed at its end. -/
def appendAgents (content : Str) (s : Sorted) (date : Str) : Str :=
  if 0 < s.newAgents.length then trimEnd content ++ agentsSection s.newAgents date else content

/-- Step 7: both counters are read from the text first, then replaced one after the other. -/
def updateCounters (content : Str) (s : Sorted) : Str :=
  let currentSkillsMatch := findCounter "total_skills:".toList content true
  let currentAgentsMatch := findCounter "total_agents:".toList content true
  bumpCounter "total_agents:".toList currentAgentsMatch s.newAgents.length
    (bumpCounter "total_skills:".toList currentSkillsMatch s.newSkills.length content)

/-- Steps 6 and 7: the value of `updatedContent` at the write. -/
def updateContent (indexContent : Str) (s : Sorted) (date : Str) : Str :=
  updateCounters (appendAgents (insertSkills indexContent s date) s date) s

/-- The text without a leading byte-order mark, as the script keeps it in `indexContent`. -/
def stripBOM (raw : Str) : Str :=
  if raw.head? = some (Char.ofNat 65279) then raw.drop 1 else raw

/-- The script from step 3 on: the text written to the index, or `none` when the script
exits with nothing to import.  `raw` is the index text read, `date` the date string. -/
def importWith (lower : Str → Str) (date : Str) (raw : Str) (pendingItems : List Item) :
    Option Str :=
  let hasBOM := raw.head? = some (Char.ofNat 65279)
  let indexContent := stripBOM raw
  let s := sortItems lower (existingNames indexContent) pendingItems
  if s.newSkills.length = 0 ∧ s.newAgents.length = 0 then none
  else
    some ((if hasBOM then [Char.ofNat 65279] else []) ++ updateContent indexContent s date)

/-! ### Notions used in the statements and proofs about the import -/

/-- Whether a string is free of line terminators. -/
def noLT (s : Str) : Bool := s.all (fun c => !isLineTerminator c)

/-- Whether the fields of a pending item are free of line terminators. -/
def Item.singleLine (it : Item) : Bool :=
  noLT it.name && noLT it.type &&
    (match it.description with
     | some d => noLT d
     | none => true)

/-- The text `t` holds `l` as a complete line with a line break on both sides. -/
def HasLine (t l : Str) : Prop := ∃ a b, t = a ++ '\n' :: (l ++ '\n' :: b)

/-- Whether the position after the text `p` is a line start, `b` being the answer for the
position before `p`. -/
def flagAfter (p : Str) (b : Bool) : Bool :=
  match p.getLast? with
  | some c => isLineTerminator c
  | none => b

/-- No line start of the text holds the character `k`; `b` says whether the text begins
at a line start. -/
def quiet (k : Char) : Str → Bool → Bool
  | [], _ => true
  | c :: cs, b => (!b || c != k) && quiet k cs (isLineTerminator c)

/-- The first match of `/^key\s+(\d+)/m`: the text before it, its digits and the text
after it. -/
def firstMatch (key : Str) : Str → Bool → Option (Str × Str × Str)
  | [], _ => none
  | c :: cs, atStart =>
    match (if atStart then matchCounter key (c :: cs) else none) with
    | some m => some ([], m.1, m.2)
    | none => (firstMatch key cs (isLineTerminator c)).map (fun r => (c :: r.1, r.2.1, r.2.2))

/-- The number read from the first counter line of `key`, as step 7 reads it. -/
def counterValue (key content : Str) : Option Nat :=
  (findCounter key content true).map parseInt

/-- A text after which neither the `\s+` nor the `\d+` of a counter match goes on to a
digit. -/
def Barrier (x : Str) : Prop :=
  x.takeWhile isDigitChar = [] ∧ (x.dropWhile isJsSpace).takeWhile isDigitChar = []

/-- What the proofs need of a counter key: it starts with a character that is neither
whitespace nor a digit, and holds no whitespace. -/
def KeyOK (key : Str) : Prop :=
  (∃ k0 ks, key = k0 :: ks ∧ isJsSpace k0 = false ∧ isDigitChar k0 = false) ∧
  ∀ c ∈ key, isJsSpace c = false

/-- The fields of a new entry are free of line terminators. -/
def Entry.singleLine (e : Entry) : Prop :=
  noLT e.name = true ∧ noLT e.type = true ∧ noLT e.category = true ∧
  noLT e.description = true ∧ noLT e.source = true ∧
  (e.model = none ∨ e.model = some "sonnet".toList)

/-- A line that starts with a space and holds no line terminator. -/
def Indented (l : Str) : Prop := ∃ l', l = ' ' :: l' ∧ noLT l' = true

/-- The lines that `generateYAMLEntry` joins. -/
def entryLines (item : Entry) : List Str :=
  [ "  - name: ".toList ++ item.name,
    "    type: ".toList ++ item.type,
    "    category: ".toList ++ item.category ] ++
  (match item.model with
   | some m => if m = [] then [] else ["    model: ".toList ++ m]
   | none => []) ++
  [ "    description: ".toList ++ [Char.ofNat 34] ++ item.description ++ [Char.ofNat 34],
    "    source: ".toList ++ item.source ]

/-- The record-start line written for an entry. -/
def nameLine (e : Entry) : Str := "  - name: ".toList ++ e.name

/-- The key `total_skills:`. -/
def keyS : Str := "total_skills:".toList

/-- The key `total_agents:`. -/
def keyA : Str := "total_agents:".toList

/-- An index with both counters and the skills marker. -/
def indexWithMarker : Str :=
  ("total_skills: 1\ntotal_agents: 1\nskills:\n  - name: alpha\n    type: skill\n\n" ++
   "  # --- godmodedev-new (0) ---\n\nagents:\n  - name: omega\n    type: agent\n").toList

/-- An index with both counters and without the skills marker. -/
def indexWithoutMarker : Str :=
  ("total_skills: 1\ntotal_agents: 0\nskills:\n  - name: alpha\n    type: skill\n").toList

/-- Two pending items: a new skill `beta` and a new agent `gamma`. -/
def pendingTwo : List Item :=
  [ { name := "beta".toList, type := "skill".toList,
      description := some "A helper".toList, source_path := none },
    { name := "gamma".toList, type := "agent".toList,
      description := none, source_path := none } ]

/-- One pending item: a new skill `beta`. -/
def pendingOne : List Item :=
  [ { name := "beta".toList, type := "skill".toList,
      description := some "A helper".toList, source_path := none } ]

/-- An index with the skills marker and without counters. -/
def indexWithoutCounters : Str := "skills:\n  # --- godmodedev-new (0) ---\n".toList

/-- One pending item whose type holds a carriage return followed by the text of a counter. -/
def pendingWithReturn : List Item :=
  [ { name := "beta".toList, type := "skill\rtotal_skills: 5".toList,
      description := none, source_path := none } ]

/-- The text of `indexWithMarker` behind a byte-order mark. -/
def indexWithBOM : Str := Char.ofNat 65279 :: indexWithMarker

/-- What the script writes for `indexWithBOM` and `pendingTwo`. -/
def importedWithBOM : Str :=
  (importWith asciiLower "2026-01-01".toList indexWithBOM pendingTwo).getD []

/-- Three pending items: `alpha`, whose name is a record name of `indexWithMarker`, followed
by the two items of `pendingTwo`. -/
def pendingWithExisting : List Item :=
  { name := "alpha".toList, type := "skill".toList,
    description := some "Already there".toList, source_path := none } :: pendingTwo

/-- Two pending items with the same name `beta`, a name that `indexWithMarker` does not
hold. -/
def pendingSameName : List Item :=
  [ { name := "beta".toList, type := "skill".toList,
      description := some "A helper".toList, source_path := none },
    { name := "beta".toList, type := "skill".toList,
      description := some "Another helper".toList, source_path := none } ]

/-- A pending item named `SKILL` whose file lies in a directory named `main`. -/
def itemInMain : Item :=
  { name := "SKILL".toList, type := "skill".toList, description := none,
    source_path := some "main/SKILL.md".toList }

/-- A pending item named `readme` whose file lies in `agents/index`. -/
def itemInIndex : Item :=
  { name := "readme".toList, type := "agent".toList, description := none,
    source_path := some "agents/index/README.md".toList }

/-- The table that `categorizeItem` searches for a type. -/
def tableFor (type : Str) : List (Str × List Str) :=
  if type = "agent".toList then AGENT_CATEGORIES else SKILL_CATEGORIES

/-- The text in which `categorizeItem` looks for keywords. -/
def searchText (lower : Str → Str) (name description : Str) : Str :=
  lower (name ++ " ".toList ++ description)

/-- The text left after the first `n` UTF-16 units, as it reaches a written file: the second
half of a surrogate pair cut by the index is written as U+FFFD. -/
def dropUnits : Nat → Str → Str
  | 0, s => s
  | _, [] => []
  | n + 1, c :: cs =>
    if c.toNat < 65536 then dropUnits n cs
    else match n with
      | 0 => Char.ofNat 65533 :: cs
      | m + 1 => dropUnits m cs

/-- The call `s.substring(a, b)`: the units from the smaller index up to the larger one (the
two arguments are swapped when the first is the larger). -/
def substring (a b : Nat) (s : Str) : Str :=
  dropUnits (min a b) (substringTo (max a b) s)

/-- The method `endsWith(c)` for a one-character string. -/
def endsWithChar (s : Str) (c : Char) : Bool := s.getLast? == some c

/-- The quote removal of `parseSimpleYAML`: a value that starts and ends with `"`, or starts
and ends with `'`, is replaced by `value.substring(1, value.length - 1)`. -/
def unquote (value : Str) : Str :=
  if (startsWith value [Char.ofNat 34] && endsWithChar value (Char.ofNat 34)) ||
      (startsWith value [Char.ofNat 39] && endsWithChar value (Char.ofNat 39)) then
    substring 1 (jsLength value - 1) value
  else value

/-- The object built by `parseSimpleYAML`: its own properties in insertion order. -/
abbrev Obj := List (Str × Str)

/-- The own property `key` set to `value`: an existing property keeps its place, a new one
is added at the end. -/
def objPut (key value : Str) : Obj → Obj
  | [] => [(key, value)]
  | kv :: rest => if kv.1 = key then (kv.1, value) :: rest else kv :: objPut key value rest

/-- The assignment `obj[key] = value` of a string to an object created by `{}`: the key
`__proto__` reaches the inherited setter, which ignores a string; every other key becomes
or stays an own property. -/
def objSet (obj : Obj) (key value : Str) : Obj :=
  if key = "__proto__".toList then obj else objPut key value obj

/-- The own property `key` of the object, if there is one. -/
def objGet (obj : Obj) (key : Str) : Option Str :=
  (obj.find? (fun kv => kv.1 = key)).map (fun kv => kv.2)

/-- The key and the value that a line assigns, `none` for a line that is skipped: a comment
line or a line without a colon. -/
def lineEntry (line : Str) : Option (Str × Str) :=
  if startsWith (trim line) "#".toList || !includes line ":".toList then none
  else
    let key := trim (line.takeWhile (fun c => c != ':'))
    let value := trim ((line.dropWhile (fun c => c != ':')).drop 1)
    some (key, unquote value)

/-- The body of the loop of `parseSimpleYAML`. -/
def yamlStep (obj : Obj) (line : Str) : Obj :=
  match lineEntry line with
  | some kv => objSet obj kv.1 kv.2
  | none => obj

/-- The function `parseSimpleYAML`. -/
def parseSimpleYAML (content : Str) : Obj :=
  (splitLines content).foldl yamlStep []

/-- A pending file whose description value is a lone double quote, the opening quote of a
text that goes on in the next line. -/
def pendingOpenQuote : Str :=
  "name: beta\ntype: skill\ndescription: \"\n  A helper that spans lines\"\n".toList

end BulkImport

end ProdDevIQ

/-! # Theorems -/

set_option maxRecDepth 200000
set_option maxHeartbeats 4000000

namespace ProdDevIQ

/-! ## Lines and whitespace -/

theorem splitLines_ne_nil (s : Str) : splitLines s ≠ [] := by
  cases s with
  | nil => simp [splitLines]
  | cons c cs =>
    unfold splitLines
    split
    · simp
    · split <;> simp

theorem joinLines_cons_cons (c : Char) (x : Str) (xs : List Str) :
    joinLines ((c :: x) :: xs) = c :: joinLines (x :: xs) := by
  cases xs <;> simp [joinLines]

theorem joinLines_splitLines (s : Str) : joinLines (splitLines s) = s := by
  induction s with
  | nil => simp [splitLines, joinLines]
  | cons c cs ih =>
    obtain ⟨x, xs, hx⟩ := List.exists_cons_of_ne_nil (splitLines_ne_nil cs)
    unfold splitLines
    rw [hx] at ih
    by_cases hc : c = '\n'
    · simp [hc, hx, joinLines, ih]
    · simp only [hc, if_false, hx]
      rw [joinLines_cons_cons, ih]

theorem splitLines_of_no_newline (l : Str) (h : '\n' ∉ l) : splitLines l = [l] := by
  induction l with
  | nil => simp [splitLines]
  | cons c cs ih =>
    have hc : c ≠ '\n' := fun e => h (by simp [e])
    have hcs : '\n' ∉ cs := fun e => h (by simp [e])
    unfold splitLines
    simp [hc, ih hcs]

theorem splitLines_append_newline (l rest : Str) (h : '\n' ∉ l) :
    splitLines (l ++ '\n' :: rest) = l :: splitLines rest := by
  induction l with
  | nil => simp [splitLines]
  | cons c cs ih =>
    have hc : c ≠ '\n' := fun e => h (by simp [e])
    have hcs : '\n' ∉ cs := fun e => h (by simp [e])
    show splitLines (c :: (cs ++ '\n' :: rest)) = _
    rw [splitLines, if_neg hc, ih hcs]

theorem splitLines_joinLines (ls : List Str) (hne : ls ≠ []) (h : ∀ l ∈ ls, '\n' ∉ l) :
    splitLines (joinLines ls) = ls := by
  induction ls with
  | nil => exact absurd rfl hne
  | cons l rest ih =>
    cases rest with
    | nil => simpa [joinLines] using splitLines_of_no_newline l (h l (by simp))
    | cons l2 rest2 =>
      have h1 : '\n' ∉ l := h l (by simp)
      have h2 := ih (by simp) (fun x hx => h x (by simp [hx]))
      show splitLines (l ++ '\n' :: joinLines (l2 :: rest2)) = _
      rw [splitLines_append_newline l _ h1, h2]

theorem splitLines_no_newline (s : Str) : ∀ l ∈ splitLines s, '\n' ∉ l := by
  induction s with
  | nil => simp [splitLines]
  | cons c cs ih =>
    obtain ⟨x, xs, hx⟩ := List.exists_cons_of_ne_nil (splitLines_ne_nil cs)
    unfold splitLines
    rw [hx] at ih
    by_cases hc : c = '\n'
    · simp only [hc, if_true, hx]
      intro l hl
      rcases List.mem_cons.1 hl with h | h
      · simp [h]
      · exact ih l h
    · simp only [hc, if_false, hx]
      intro l hl
      rcases List.mem_cons.1 hl with h | h
      · subst h
        have := ih x (by simp)
        simp [this, Ne.symm hc]
      · exact ih l (by simp [h])

theorem rdropWhile_append_cons_of_neg {p : Char → Bool} (A B : Str) (c : Char)
    (hc : p c = false) : ∃ B', (A ++ c :: B).rdropWhile p = A ++ c :: B' := by
  induction B using List.reverseRecOn with
  | nil =>
    refine ⟨[], ?_⟩
    exact List.rdropWhile_concat_neg p A c (by simp [hc])
  | append_singleton B0 x ih =>
    have e : A ++ c :: (B0 ++ [x]) = (A ++ c :: B0) ++ [x] := by simp
    rw [e]
    by_cases hx : p x = true
    · rw [List.rdropWhile_concat_pos p _ x hx]
      exact ih
    · rw [List.rdropWhile_concat_neg p _ x hx]
      exact ⟨B0 ++ [x], by simp⟩

theorem dropWhile_takeWhile_append {p : Char → Bool} (l r : Str) :
    (l.takeWhile p ++ r).dropWhile p = r.dropWhile p :=
  List.dropWhile_append_of_pos (fun _ ha => List.mem_takeWhile_imp ha)

theorem splitLines_cons (c : Char) (cs : Str) :
    splitLines (c :: cs) =
      if c = '\n' then [] :: splitLines cs
      else match splitLines cs with
        | [] => [[c]]
        | l :: ls => (c :: l) :: ls := rfl

theorem mem_tail_splitLines_append (x y : Str) (h : x ∈ splitLines y) :
    ∀ a : Str, x ∈ (splitLines (a ++ '\n' :: y)).tail := by
  intro a
  induction a with
  | nil => simpa [splitLines] using h
  | cons c a ih =>
    obtain ⟨z, zs, hz⟩ := List.exists_cons_of_ne_nil (splitLines_ne_nil (a ++ '\n' :: y))
    rw [hz] at ih
    rw [List.cons_append, splitLines_cons, hz]
    simp only [List.tail_cons] at ih
    split_ifs
    · exact List.mem_cons_of_mem _ ih
    · exact ih

namespace AddMasters

/-- C1 (the code departs from the claim): on `catalogTwoAnchors` the first master inserts six
lines after `testing-patterns`; the second master then inserts at the unshifted index
`endLine + 1 = 12` of `databases`, which now lies inside the record of `testing-master`,
instead of after the last line of `databases` (index 17 at that moment). -/
theorem c1_insert_uses_unshifted_anchor_range :
    splitLines (main catalogTwoAnchors) =
      [ "total_skills: 4".toList,
        "skills:".toList,
        "  - name: testing-patterns".toList,
        "    type: skill".toList,
        "    category: testing".toList,
        "    description: \"Testing patterns\"".toList,
        "    source: IDETOOLS/skills/testing-master".toList,
        "".toList,
        "  - name: testing-master".toList,
        "    type: skill".toList,
        "    category: testing".toList,
        ("    description: \"Comprehensive testing guide: TDD, unit/integration/E2E with " ++
          "Playwright, patterns across JS/Python/Bash. Consolidates 15 testing skills.\"").toList,
        "".toList,
        "  - name: database-master".toList,
        "    type: skill".toList,
        "    category: database".toList,
        ("    description: \"Comprehensive database guide: schema design, PostgreSQL, " ++
          "migrations, NoSQL, query optimization, Neon/Supabase. Consolidates 13 skills.\"").toList,
        "    source: IDETOOLS/skills/database-master".toList,
        "    source: IDETOOLS/skills/testing-master".toList,
        "  - name: databases".toList,
        "    type: skill".toList,
        "    category: database".toList,
        "    description: \"Databases\"".toList,
        "    source: IDETOOLS/skills/databases".toList ] := by
  decide

/-- C3 (the code departs from the claim): on `catalogShortAnchors` the written header says
`total_skills: 4`, while parsing the written text finds three entries of type `skill`
(the record of `testing-master` lost its `type` line to the misplaced second insertion). -/
theorem c3_written_total_differs_from_reparsed_count :
    (splitLines (main catalogShortAnchors)).head? = some "total_skills: 4".toList ∧
    ((parseYamlLines (main catalogShortAnchors)).entries.filter
      (fun e => e.type = some "skill".toList)).length = 3 ∧
    (parseYamlLines (main catalogShortAnchors)).entries.map (fun e => (e.name, e.type)) =
      [ ("testing-patterns".toList, some "skill".toList),
        ("testing-master".toList, none),
        ("database-master".toList, some "skill".toList),
        ("databases".toList, some "skill".toList) ] := by
  decide

/-- C8 (the code departs from the claim): on `catalogLongMaster` the existing record of
`testing-master` spans six lines; the update overwrites the first five and the sixth line of
the old span, `source: old/path`, remains right after the new lines. -/
theorem c8_update_leaves_old_lines_of_long_span :
    (parseYamlLines catalogLongMaster).entries.map (fun e => (e.name, e.startLine, e.endLine)) =
      [("testing-master".toList, 2, 7)] ∧
    splitLines (main catalogLongMaster) =
      [ "total_skills: 1".toList,
        "skills:".toList,
        "  - name: testing-master".toList,
        "    type: skill".toList,
        "    category: testing".toList,
        ("    description: \"Comprehensive testing guide: TDD, unit/integration/E2E with " ++
          "Playwright, patterns across JS/Python/Bash. Consolidates 15 testing skills.\"").toList,
        "    source: IDETOOLS/skills/testing-master".toList,
        "    source: old/path".toList ] := by
  decide

/-- C6 counterexample: on `catalogQuotedSource` the source value of the replaced record is
written between double quotes; after the run the line holds the new value without quotes,
so the original quoting style is not kept. -/
theorem c6_redirect_drops_quotes :
    (splitLines catalogQuotedSource).getD 4 [] =
      "    source: \"skills/testing-patterns\"".toList ∧
    (splitLines (main catalogQuotedSource)).getD 4 [] =
      "    source: IDETOOLS/skills/testing-master".toList := by
  decide

theorem takeWhile_takeWhile_append {p : Char → Bool} (l r : Str) (c : Char) (hc : p c = false) :
    (l.takeWhile p ++ c :: r).takeWhile p = l.takeWhile p := by
  induction l with
  | nil => simp [List.takeWhile, hc]
  | cons a l ih =>
    by_cases ha : p a = true
    · simp [List.takeWhile_cons, ha, ih]
    · simp [List.takeWhile_cons, ha, hc]

theorem leadingWs_redirected (old : Str) (m : Master) :
    leadingWs (leadingWs old ++ "source: ".toList ++ targetSource m) = leadingWs old := by
  have h : leadingWs old ++ "source: ".toList ++ targetSource m =
      old.takeWhile isJsSpace ++ 's' :: ("ource: ".toList ++ targetSource m) := by
    simp [leadingWs]
  rw [h]
  exact takeWhile_takeWhile_append old _ 's' (by decide)

theorem findSourceLine_spec (lines : List Str) :
    ∀ (count start i : Nat), findSourceLine lines start count = some i →
      start ≤ i ∧ i < start + count ∧
      startsWith (trim (lines.getD i [])) "source:".toList = true ∧
      ∀ j, start ≤ j → j < i → startsWith (trim (lines.getD j [])) "source:".toList = false := by
  intro count
  induction count with
  | zero => intro start i h; simp [findSourceLine] at h
  | succ n ih =>
    intro start i h
    unfold findSourceLine at h
    by_cases hs : startsWith (trim (lines.getD start [])) "source:".toList = true
    · rw [if_pos hs] at h
      cases h
      refine ⟨le_refl _, by omega, hs, ?_⟩
      intro j h1 h2; omega
    · rw [if_neg hs] at h
      obtain ⟨h1, h2, h3, h4⟩ := ih (start + 1) i h
      refine ⟨by omega, by omega, h3, ?_⟩
      intro j hj1 hj2
      by_cases hj : j = start
      · subst hj; simpa using hs
      · exact h4 j (by omega) hj2

theorem findSourceLine_none (lines : List Str) :
    ∀ (count start : Nat), findSourceLine lines start count = none →
      ∀ j, start ≤ j → j < start + count →
        startsWith (trim (lines.getD j [])) "source:".toList = false := by
  intro count
  induction count with
  | zero => intro start _ j h1 h2; omega
  | succ n ih =>
    intro start h j h1 h2
    unfold findSourceLine at h
    by_cases hs : startsWith (trim (lines.getD start [])) "source:".toList = true
    · rw [if_pos hs] at h; cases h
    · rw [if_neg hs] at h
      by_cases hj : j = start
      · subst hj; simpa using hs
      · exact ih (start + 1) h j (by omega) (by omega)

theorem lt_length_of_source (lines : List Str) (i : Nat)
    (h : startsWith (trim (lines.getD i [])) "source:".toList = true) : i < lines.length := by
  by_contra hlt
  have : lines.getD i [] = [] := by
    simp [List.getD_eq_getElem?_getD, List.getElem?_eq_none (Nat.le_of_not_lt hlt)]
  rw [this] at h
  revert h; decide

/-- The redirect block changes at most one line of the line array.  Either
nothing changes (the parsed source already equals the target, or no line of the tracked range
`startLine..endLine` has trimmed text starting with `source:`), or exactly the first such
line `i` of the tracked range is replaced by its own leading whitespace followed by
`source: IDETOOLS/skills/<master>` written without quotes; every other line is unchanged,
the length of the array is unchanged and `redirectCount` rises by one. -/
theorem redirectStep_rewrites_first_source_line (r : Entry) (m : Master) (st : MainState) :
    ((r.source = some (targetSource m) ∨
        ∀ j, r.startLine ≤ j → j ≤ r.endLine →
          startsWith (trim (st.lines.getD j [])) "source:".toList = false) ∧
      redirectStep (some r) m st = st) ∨
    ∃ i, r.startLine ≤ i ∧ i ≤ r.endLine ∧ i < st.lines.length ∧
      r.source ≠ some (targetSource m) ∧
      startsWith (trim (st.lines.getD i [])) "source:".toList = true ∧
      (∀ j, r.startLine ≤ j → j < i →
        startsWith (trim (st.lines.getD j [])) "source:".toList = false) ∧
      (redirectStep (some r) m st).lines.getD i [] =
        leadingWs (st.lines.getD i []) ++ "source: ".toList ++ targetSource m ∧
      leadingWs ((redirectStep (some r) m st).lines.getD i []) = leadingWs (st.lines.getD i []) ∧
      (∀ j, j ≠ i → (redirectStep (some r) m st).lines.getD j [] = st.lines.getD j []) ∧
      (redirectStep (some r) m st).lines.length = st.lines.length ∧
      (redirectStep (some r) m st).redirectCount = st.redirectCount + 1 ∧
      (redirectStep (some r) m st).addedCount = st.addedCount ∧
      (redirectStep (some r) m st).updatedCount = st.updatedCount := by
  by_cases hsrc : r.source = some (targetSource m)
  · left
    exact ⟨Or.inl hsrc, by simp [redirectStep, hsrc]⟩
  · cases hf : findSourceLine st.lines r.startLine (r.endLine + 1 - r.startLine) with
    | none =>
      left
      refine ⟨Or.inr ?_, by simp [redirectStep, hsrc, hf]⟩
      intro j h1 h2
      exact findSourceLine_none st.lines _ _ hf j h1 (by omega)
    | some i =>
      right
      obtain ⟨h1, h2, h3, h4⟩ := findSourceLine_spec st.lines _ _ _ hf
      have hlt := lt_length_of_source st.lines i h3
      have hlines : (redirectStep (some r) m st).lines = st.lines.set i
          (leadingWs (st.lines.getD i []) ++ "source: ".toList ++ targetSource m) := by
        simp [redirectStep, hsrc, hf]
      have hnew : (redirectStep (some r) m st).lines.getD i [] =
          leadingWs (st.lines.getD i []) ++ "source: ".toList ++ targetSource m := by
        rw [hlines]
        simp [List.getD_eq_getElem?_getD, List.getElem?_set, hlt]
      refine ⟨i, h1, by omega, hlt, hsrc, h3, h4, hnew, ?_, ?_, ?_, ?_, ?_, ?_⟩
      · rw [hnew]; exact leadingWs_redirected _ m
      · intro j hj
        rw [hlines]
        simp [List.getD_eq_getElem?_getD, List.getElem?_set, Ne.symm hj]
      · rw [hlines]; simp
      · simp [redirectStep, hsrc, hf]
      · simp [redirectStep, hsrc, hf]
      · simp [redirectStep, hsrc, hf]

theorem foldl_processMaster_skip (entries : List Entry) (m : Master)
    (hstep : ∀ st, processMaster entries st m = st) (pre post : List Master) (st : MainState) :
    (pre ++ m :: post).foldl (processMaster entries) st =
      (pre ++ post).foldl (processMaster entries) st := by
  simp [List.foldl_append, hstep]

/-- C9: a master whose own record and whose anchor record are both absent from the parsed
catalog leaves the state of `main` (line array and the three counters) as it is, and the
run over a table containing it equals the run over the table without it, so the masters
after it are processed as usual; the written text is the same as well. -/
theorem c9_absent_master_changes_nothing (content : Str) (m : Master) (pre post : List Master)
    (hown : entryMapGet (parseYamlLines content).entries m.name = none)
    (hanchor : entryMapGet (parseYamlLines content).entries m.replaces = none) :
    (∀ st, processMaster (parseYamlLines content).entries st m = st) ∧
    runMasters (pre ++ m :: post) (parseYamlLines content) =
      runMasters (pre ++ post) (parseYamlLines content) ∧
    mainWith (pre ++ m :: post) content = mainWith (pre ++ post) content := by
  have hstep : ∀ st, processMaster (parseYamlLines content).entries st m = st := by
    intro st
    simp [processMaster, hown, hanchor, upsertStep, redirectStep]
  have hrun : runMasters (pre ++ m :: post) (parseYamlLines content) =
      runMasters (pre ++ post) (parseYamlLines content) := by
    unfold runMasters
    exact foldl_processMaster_skip _ m hstep pre post _
  refine ⟨hstep, hrun, ?_⟩
  unfold mainWith
  simp only [hrun]

/-- C9 witness: `catalogOneAnchor` has neither `testing-master` nor `testing-patterns`, so the
run over the whole table equals the run over the table without its first master. -/
theorem c9_absent_master_changes_nothing_witness :
    entryMapGet (parseYamlLines catalogOneAnchor).entries "testing-master".toList = none ∧
    entryMapGet (parseYamlLines catalogOneAnchor).entries "testing-patterns".toList = none ∧
    mainWith ([] ++ MASTERS.headD ⟨[], [], [], []⟩ :: MASTERS.tail) catalogOneAnchor =
      mainWith ([] ++ MASTERS.tail) catalogOneAnchor :=
  ⟨by decide, by decide,
   (c9_absent_master_changes_nothing catalogOneAnchor (MASTERS.headD ⟨[], [], [], []⟩) []
      MASTERS.tail (by decide) (by decide)).2.2⟩

/-! ### The parser sees the same records after a redirect -/

theorem shapeE_setProperty (e : Entry) (t : Str) : shapeE (setProperty e t) = shapeE e := by
  unfold setProperty
  split_ifs <;> rfl

theorem source_prefix_of_isSourceLine (l : Str) (h : isSourceLine l = true) :
    ∃ rest, l.dropWhile isJsSpace = "source:".toList ++ rest := by
  unfold isSourceLine startsWith trim trimEnd trimStart at h
  have h1 : "source:".toList <+: (l.dropWhile isJsSpace).rdropWhile isJsSpace :=
    List.isPrefixOf_iff_prefix.1 h
  have h2 : (l.dropWhile isJsSpace).rdropWhile isJsSpace <+: l.dropWhile isJsSpace :=
    List.rdropWhile_prefix _ _
  obtain ⟨rest, hr⟩ := h1.trans h2
  exact ⟨rest, hr.symm⟩

theorem trim_source_shape (l : Str) (h : isSourceLine l = true) :
    ∃ rest, trim l = "source:".toList ++ rest := by
  unfold isSourceLine startsWith at h
  obtain ⟨rest, hr⟩ := List.isPrefixOf_iff_prefix.1 h
  exact ⟨rest, hr.symm⟩

theorem isPropertyLine_of_isSourceLine (l : Str) (h : isSourceLine l = true) :
    isPropertyLine l = true := by
  obtain ⟨rest, hr⟩ := source_prefix_of_isSourceLine l h
  unfold isPropertyLine
  simp only [hr]
  have : ("source:".toList ++ rest).dropWhile isWordChar = ':' :: rest := by
    simp [List.dropWhile, isWordChar]
  rw [this]
  simp

theorem not_skills_of_isSourceLine (l : Str) (h : isSourceLine l = true) :
    trim l ≠ "skills:".toList := by
  intro e
  unfold isSourceLine at h
  rw [e] at h
  revert h; decide

theorem not_name_of_isSourceLine (l : Str) (h : isSourceLine l = true) :
    startsWith (trim l) "- name:".toList = false := by
  obtain ⟨rest, hr⟩ := trim_source_shape l h
  rw [hr]
  simp [startsWith, List.isPrefixOf]

/-- Closed form of one parser step on a line whose trimmed text starts with `source:`. -/
theorem parseStep_source (s : ParseState) (i : Nat) (l : Str) (h : isSourceLine l = true) :
    parseStep s i l =
      if !s.inSkillsSection then s
      else match s.currentEntry with
        | some e =>
          if s.currentIndent < (leadingWs l).length then
            let e1 : Entry := { e with lines := e.lines ++ [l], endLine := i }
            { s with currentEntry := some (setProperty e1 (trim l)) }
          else { s with entries := s.entries ++ [e], currentEntry := none }
        | none => s := by
  unfold parseStep
  simp only [not_skills_of_isSourceLine l h, not_name_of_isSourceLine l h,
    isPropertyLine_of_isSourceLine l h, if_false, if_true]
  rfl

theorem shapeS_eq_iff (s s' : ParseState) :
    shapeS s = shapeS s' ↔
      s.entries.map shapeE = s'.entries.map shapeE ∧
      s.currentEntry.map shapeE = s'.currentEntry.map shapeE ∧
      s.currentIndent = s'.currentIndent ∧ s.inSkillsSection = s'.inSkillsSection ∧
      s.headerEndIndex = s'.headerEndIndex := by
  cases s; cases s'
  simp [shapeS]

theorem shapeE_idem_fields (e : Entry) (ls : List Str) (i : Nat) :
    shapeE { e with lines := ls, endLine := i } = { shapeE e with endLine := i } := rfl

theorem shapeS_parseStep_source (s s' : ParseState) (i : Nat) (l l' : Str)
    (hl : isSourceLine l = true) (hl' : isSourceLine l' = true)
    (hw : leadingWs l = leadingWs l') (h : shapeS s = shapeS s') :
    shapeS (parseStep s i l) = shapeS (parseStep s' i l') := by
  rw [parseStep_source s i l hl, parseStep_source s' i l' hl']
  obtain ⟨h1, h2, h3, h4, h5⟩ := (shapeS_eq_iff s s').1 h
  cases s with
  | mk entries cur ind inS hdr =>
  cases s' with
  | mk entries' cur' ind' inS' hdr' =>
  simp only at h1 h2 h3 h4 h5
  subst h3 h4 h5
  cases inS with
  | false => simpa using h
  | true =>
    cases cur with
    | none =>
      cases cur' with
      | none => simpa using h
      | some e' => simp at h2
    | some e =>
      cases cur' with
      | none => simp at h2
      | some e' =>
        simp only [Option.map_some', Option.some.injEq] at h2
        simp only [Bool.not_true, Bool.false_eq_true, if_false, hw]
        split_ifs
        · rw [shapeS_eq_iff]
          refine ⟨h1, ?_, rfl, rfl, rfl⟩
          simp only [Option.map_some', Option.some.injEq, shapeE_setProperty, shapeE_idem_fields, h2]
        · rw [shapeS_eq_iff]
          refine ⟨?_, rfl, rfl, rfl, rfl⟩
          simp [h1, h2]



theorem shapeS_parseStep_same (s s' : ParseState) (i : Nat) (l : Str)
    (h : shapeS s = shapeS s') :
    shapeS (parseStep s i l) = shapeS (parseStep s' i l) := by
  obtain ⟨h1, h2, h3, h4, h5⟩ := (shapeS_eq_iff s s').1 h
  cases s with
  | mk entries cur ind inS hdr =>
  cases s' with
  | mk entries' cur' ind' inS' hdr' =>
  simp only at h1 h2 h3 h4 h5
  subst h3 h4 h5
  unfold parseStep
  cases cur with
  | none =>
    cases cur' with
    | some e' => simp at h2
    | none =>
      simp only
      split_ifs <;> simp [shapeS, pushCurrent, h1]
  | some e =>
    cases cur' with
    | none => simp at h2
    | some e' =>
      simp only [Option.map_some', Option.some.injEq] at h2
      simp only
      split_ifs <;>
        simp [shapeS, pushCurrent, h1, h2, shapeE_setProperty, shapeE_idem_fields]

theorem shapeS_parseLoop_same (ls : List Str) :
    ∀ (i : Nat) (s s' : ParseState), shapeS s = shapeS s' →
      shapeS (parseLoop ls i s) = shapeS (parseLoop ls i s') := by
  induction ls with
  | nil => intro i s s' h; simpa [parseLoop] using h
  | cons l ls ih =>
    intro i s s' h
    simp only [parseLoop]
    exact ih (i + 1) _ _ (shapeS_parseStep_same s s' i l h)

theorem shapeS_parseLoop_set (ls : List Str) (l' : Str) (hl' : isSourceLine l' = true) :
    ∀ (k i : Nat) (s s' : ParseState), shapeS s = shapeS s' →
      isSourceLine (ls.getD k []) = true → leadingWs (ls.getD k []) = leadingWs l' →
      shapeS (parseLoop (ls.set k l') i s') = shapeS (parseLoop ls i s) := by
  induction ls with
  | nil => intro k i s s' h _ _; simpa [parseLoop] using h.symm
  | cons l ls ih =>
    intro k i s s' h hk hw
    cases k with
    | zero =>
      simp only [List.set_cons_zero, parseLoop]
      simp only [List.getD_cons_zero] at hk hw
      apply shapeS_parseLoop_same
      exact (shapeS_parseStep_source s s' i l l' hk hl' hw h).symm
    | succ k =>
      simp only [List.set_cons_succ, parseLoop]
      simp only [List.getD_cons_succ] at hk hw
      exact ih k (i + 1) _ _ (shapeS_parseStep_same s s' i l h) hk hw

theorem map_shapeE_pushCurrent (s s' : ParseState) (h : shapeS s = shapeS s') :
    (pushCurrent s).map shapeE = (pushCurrent s').map shapeE := by
  obtain ⟨h1, h2, -, -, -⟩ := (shapeS_eq_iff s s').1 h
  unfold pushCurrent
  cases hc : s.currentEntry <;> cases hc' : s'.currentEntry <;> simp_all

theorem entryMapGet_map_aux (f : Entry → Entry) (hf : ∀ e, (f e).name = e.name) (name : Str)
    (es : List Entry) : ∀ acc : Option Entry,
    (es.foldl (fun acc e => if e.name = name then some e else acc) acc).map f =
      (es.map f).foldl (fun acc e => if e.name = name then some e else acc) (acc.map f) := by
  induction es with
  | nil => intro acc; rfl
  | cons e es ih =>
    intro acc
    simp only [List.foldl_cons, List.map_cons, hf]
    rw [ih]
    split_ifs <;> rfl

theorem entryMapGet_map (es : List Entry) (name : Str) :
    (entryMapGet es name).map shapeE = entryMapGet (es.map shapeE) name :=
  entryMapGet_map_aux shapeE (fun _ => rfl) name es none

theorem findSourceLine_congr (ls ls' : List Str)
    (h : ∀ j, isSourceLine (ls.getD j []) = isSourceLine (ls'.getD j [])) :
    ∀ count start, findSourceLine ls start count = findSourceLine ls' start count := by
  intro count
  induction count with
  | zero => intro start; rfl
  | succ n ih =>
    intro start
    have := h start
    unfold isSourceLine at this
    simp only [findSourceLine, this, ih]

theorem newline_not_mem_leadingWs (l : Str) (h : '\n' ∉ l) : '\n' ∉ leadingWs l := by
  intro hm
  exact h (List.takeWhile_subset _ hm)

theorem isSourceLine_redirected (old : Str) (m : Master) :
    isSourceLine (leadingWs old ++ "source: ".toList ++ targetSource m) = true := by
  unfold isSourceLine startsWith trim trimStart trimEnd leadingWs
  rw [List.append_assoc, dropWhile_takeWhile_append]
  have h1 : ("source: ".toList ++ targetSource m).dropWhile isJsSpace =
      "source".toList ++ ':' :: (" ".toList ++ targetSource m) := by
    simp [List.dropWhile, isJsSpace]
  rw [h1]
  obtain ⟨B', hB⟩ := rdropWhile_append_cons_of_neg (p := isJsSpace) "source".toList
    (" ".toList ++ targetSource m) ':' (by decide)
  rw [hB]
  simp [List.isPrefixOf]

theorem newline_not_mem_redirected (old : Str) (m : Master) (hold : '\n' ∉ old)
    (hname : '\n' ∉ m.name) :
    '\n' ∉ leadingWs old ++ "source: ".toList ++ targetSource m := by
  have h1 := newline_not_mem_leadingWs old hold
  simp only [List.mem_append, not_or, targetSource]
  refine ⟨⟨h1, by decide⟩, by decide, hname⟩

theorem parse_entries_set (lines : List Str) (i : Nat) (l' : Str)
    (hl' : isSourceLine l' = true) (hi : isSourceLine (lines.getD i []) = true)
    (hw : leadingWs (lines.getD i []) = leadingWs l') :
    (pushCurrent (parseLoop (lines.set i l') 0 initState)).map shapeE =
      (pushCurrent (parseLoop lines 0 initState)).map shapeE :=
  map_shapeE_pushCurrent _ _ (shapeS_parseLoop_set lines l' hl' i 0 initState initState rfl hi hw)

theorem isSourceLine_getD_set (lines : List Str) (i : Nat) (l' : Str)
    (hl' : isSourceLine l' = true) (hi : isSourceLine (lines.getD i []) = true) (j : Nat) :
    isSourceLine ((lines.set i l').getD j []) = isSourceLine (lines.getD j []) := by
  have hlt : i < lines.length := lt_length_of_source lines i hi
  by_cases hj : i = j
  · subst hj
    rw [hi]
    simpa [List.getD_eq_getElem?_getD, List.getElem?_set, hlt] using hl'
  · simp [List.getD_eq_getElem?_getD, List.getElem?_set, hj]

theorem redirectOnly_fst (m : Master) (content : Str) :
    (redirectOnly m content).1 =
      joinLines (redirectStep (entryMapGet (parseYamlLines content).entries m.replaces) m
        { lines := splitLines content, addedCount := 0, updatedCount := 0,
          redirectCount := 0 }).lines := rfl

theorem parseYamlLines_entries (content : Str) :
    (parseYamlLines content).entries = pushCurrent (parseLoop (splitLines content) 0 initState) :=
  rfl

/-- C7: redirecting the record replaced by `master` a second time, after the text has been
parsed again, gives the same text as redirecting it once; and a record whose parsed source
already equals `IDETOOLS/skills/<master>` leaves the text as it is with `redirectCount` 0. -/
theorem c7_redirect_twice_equals_once (m : Master) (content : Str) (hname : '\n' ∉ m.name) :
    (redirectOnly m (redirectOnly m content).1).1 = (redirectOnly m content).1 ∧
    (∀ r, entryMapGet (parseYamlLines content).entries m.replaces = some r →
      r.source = some (targetSource m) → redirectOnly m content = (content, 0)) := by
  constructor
  · -- idempotence
    cases hget : entryMapGet (parseYamlLines content).entries m.replaces with
    | none =>
      have h1 : (redirectOnly m content).1 = content := by
        rw [redirectOnly_fst, hget]
        simp [redirectStep, joinLines_splitLines]
      rw [h1, h1]
    | some r =>
      by_cases hsrc : r.source = some (targetSource m)
      · have h1 : (redirectOnly m content).1 = content := by
          rw [redirectOnly_fst, hget]
          simp [redirectStep, hsrc, joinLines_splitLines]
        rw [h1, h1]
      · cases hf : findSourceLine (splitLines content) r.startLine
            (r.endLine + 1 - r.startLine) with
        | none =>
          have h1 : (redirectOnly m content).1 = content := by
            rw [redirectOnly_fst, hget]
            simp [redirectStep, hsrc, hf, joinLines_splitLines]
          rw [h1, h1]
        | some i =>
          obtain ⟨-, -, hi, -⟩ := findSourceLine_spec _ _ _ _ hf
          have hlt := lt_length_of_source _ i hi
          generalize hL' : leadingWs ((splitLines content).getD i []) ++ "source: ".toList ++
            targetSource m = L' at *
          have h1 : (redirectOnly m content).1 = joinLines ((splitLines content).set i L') := by
            rw [redirectOnly_fst, hget]
            simp only [redirectStep, hsrc, hf, ne_eq, not_false_eq_true, if_true, hL']
          have hsrcL' : isSourceLine L' = true := by
            rw [← hL']; exact isSourceLine_redirected _ m
          have hwsL' : leadingWs ((splitLines content).getD i []) = leadingWs L' := by
            rw [← hL']; exact (leadingWs_redirected _ m).symm
          have hold : '\n' ∉ (splitLines content).getD i [] := by
            apply splitLines_no_newline content
            rw [List.getD_eq_getElem?_getD, List.getElem?_eq_getElem hlt]
            simp
          have hnl : '\n' ∉ L' := by
            rw [← hL']; exact newline_not_mem_redirected _ m hold hname
          have hsplit : splitLines (joinLines ((splitLines content).set i L')) =
              (splitLines content).set i L' := by
            apply splitLines_joinLines
            · intro e
              have := congrArg List.length e
              simp at this
              rw [this] at hlt
              exact Nat.not_lt_zero _ hlt
            · intro l hl
              rcases List.mem_or_eq_of_mem_set hl with h | h
              · exact splitLines_no_newline content l h
              · rw [h]; exact hnl
          have hshape := parse_entries_set (splitLines content) i L' hsrcL' hi hwsL'
          have hget' : (entryMapGet (parseYamlLines (joinLines ((splitLines content).set i L'))).entries
              m.replaces).map shapeE = some (shapeE r) := by
            rw [entryMapGet_map, parseYamlLines_entries, hsplit, hshape, ← parseYamlLines_entries,
              ← entryMapGet_map, hget]
            rfl
          rw [h1, redirectOnly_fst, hsplit]
          cases hg2 : entryMapGet (parseYamlLines (joinLines ((splitLines content).set i L'))).entries
              m.replaces with
          | none => rw [hg2] at hget'; simp at hget'
          | some r' =>
            rw [hg2] at hget'
            simp only [Option.map_some', Option.some.injEq] at hget'
            have hs : r'.startLine = r.startLine := congrArg (fun e => e.startLine) hget'
            have he : r'.endLine = r.endLine := congrArg (fun e => e.endLine) hget'
            by_cases hsrc' : r'.source = some (targetSource m)
            · simp [redirectStep, hsrc']
            · have hf' : findSourceLine ((splitLines content).set i L') r'.startLine
                  (r'.endLine + 1 - r'.startLine) = some i := by
                rw [hs, he, findSourceLine_congr _ (splitLines content)
                  (isSourceLine_getD_set _ i L' hsrcL' hi), hf]
              have hLi : ((splitLines content).set i L').getD i [] = L' := by
                simp [List.getD_eq_getElem?_getD, List.getElem?_set, hlt]
              simp only [redirectStep, hsrc', hf', ne_eq, not_false_eq_true, if_true, hLi]
              rw [← hwsL', hL', List.set_set]
  · intro r hget hsrc
    show (joinLines _, _) = _
    rw [hget]
    simp [redirectStep, hsrc, parseYamlLines, joinLines_splitLines]

/-- C7 witness: the master `testing-master` on `catalogQuotedSource`. -/
theorem c7_redirect_twice_equals_once_witness :
    '\n' ∉ "testing-master".toList ∧
    (redirectOnly (MASTERS.headD ⟨[], [], [], []⟩)
        (redirectOnly (MASTERS.headD ⟨[], [], [], []⟩) catalogQuotedSource).1).1 =
      (redirectOnly (MASTERS.headD ⟨[], [], [], []⟩) catalogQuotedSource).1 :=
  ⟨by decide,
   (c7_redirect_twice_equals_once (MASTERS.headD ⟨[], [], [], []⟩) catalogQuotedSource
      (by decide)).1⟩

theorem replaceFirst_of_startsWith (p t : Str) (hp : p ≠ []) (h : startsWith t p = true) :
    replaceFirst p [] t = t.drop p.length := by
  cases t with
  | nil =>
    cases p with
    | nil => exact absurd rfl hp
    | cons a p => simp [startsWith, List.isPrefixOf] at h
  | cons c cs =>
    have h' : p.isPrefixOf (c :: cs) = true := h
    rw [replaceFirst, if_pos h']
    rfl

theorem start_setProperty (e : Entry) (t : Str) : (setProperty e t).start = e.start := by
  unfold setProperty
  split_ifs <;> rfl

theorem pushCurrent_map_start_update (st : ParseState) (e e' : Entry)
    (h : st.currentEntry = some e) (he : e'.start = e.start) :
    (pushCurrent { st with currentEntry := some e' }).map Entry.start =
      (pushCurrent st).map Entry.start := by
  simp [pushCurrent, h, he]

theorem pushCurrent_close (st : ParseState) (e : Entry) (h : st.currentEntry = some e) :
    pushCurrent { st with entries := st.entries ++ [e], currentEntry := none } =
      pushCurrent st := by
  simp [pushCurrent, h]

/-- What one iteration of the loop adds to the starts of the entries found so far. -/
theorem parseStep_starts (st : ParseState) (i : Nat) (l : Str) :
    (pushCurrent (parseStep st i l)).map Entry.start =
      (pushCurrent st).map Entry.start ++
        (if trim l ≠ "skills:".toList ∧ st.inSkillsSection = true ∧
            startsWith (trim l) "- name:".toList = true
         then [(i, trim ((trim l).drop 7), (leadingWs l).length)] else []) ∧
    (parseStep st i l).inSkillsSection = (st.inSkillsSection || trim l == "skills:".toList) := by
  obtain ⟨entries, cur, ci, ins, hei⟩ := st
  unfold parseStep
  by_cases hm : trim l = "skills:".toList
  · simp [hm, pushCurrent]
  · have hb : (trim l == "skills:".toList) = false := by simpa using hm
    simp only [hm, if_false, hb, Bool.or_false, ne_eq, not_false_eq_true, true_and]
    cases ins with
    | false => simp
    | true =>
      simp only [Bool.not_true, Bool.false_eq_true, if_false, true_and]
      by_cases hn : startsWith (trim l) "- name:".toList = true
      · simp only [hn, if_true]
        refine ⟨?_, trivial⟩
        rw [replaceFirst_of_startsWith _ _ (by decide) hn]
        simp [pushCurrent, Entry.start]
      · simp only [hn, if_false, List.append_nil, Bool.false_eq_true]
        cases cur with
        | none => simp
        | some e =>
          simp only
          have hsp := start_setProperty
            { e with lines := e.lines ++ [l], endLine := i } (trim l)
          split_ifs <;> simp [pushCurrent, Entry.start] at hsp ⊢
          exact hsp

theorem parseLoop_starts_inside (ls : List Str) :
    ∀ (i : Nat) (st : ParseState), st.inSkillsSection = true →
      (pushCurrent (parseLoop ls i st)).map Entry.start =
        (pushCurrent st).map Entry.start ++
          ((ls.enumFrom i).filter (fun p => startsWith (trim p.2) "- name:".toList)).map
            (fun p => (p.1, trim ((trim p.2).drop 7), (leadingWs p.2).length)) := by
  induction ls with
  | nil => intro i st _; simp [parseLoop]
  | cons l ls ih =>
    intro i st hs
    obtain ⟨h1, h2⟩ := parseStep_starts st i l
    rw [parseLoop, ih (i + 1) _ (by rw [h2, hs]; rfl), h1, List.enumFrom_cons, List.filter_cons]
    by_cases hn : startsWith (trim l) "- name:".toList = true
    · have hm : trim l ≠ "skills:".toList := by
        intro h
        rw [h] at hn
        exact absurd hn (by decide)
      rw [if_pos ⟨hm, hs, hn⟩]
      simp only [hn, if_true, List.map_cons, List.append_assoc, List.singleton_append]
    · rw [if_neg (fun h => hn h.2.2)]
      simp only [hn, Bool.false_eq_true, if_false, List.append_nil]

theorem parseLoop_starts_outside (ls : List Str) :
    ∀ (i : Nat) (st : ParseState), st.inSkillsSection = false →
      (pushCurrent (parseLoop ls i st)).map Entry.start =
        (pushCurrent st).map Entry.start ++
          ((((ls.enumFrom i).dropWhile (fun p => trim p.2 != "skills:".toList)).drop 1).filter
            (fun p => startsWith (trim p.2) "- name:".toList)).map
            (fun p => (p.1, trim ((trim p.2).drop 7), (leadingWs p.2).length)) := by
  induction ls with
  | nil => intro i st _; simp [parseLoop]
  | cons l ls ih =>
    intro i st hs
    obtain ⟨h1, h2⟩ := parseStep_starts st i l
    rw [parseLoop, List.enumFrom_cons]
    by_cases hm : trim l = "skills:".toList
    · have hin : (parseStep st i l).inSkillsSection = true := by
        rw [h2, hm]; simp
      rw [parseLoop_starts_inside ls (i + 1) _ hin, h1, if_neg (fun h => h.1 hm)]
      have hd : ¬ (trim (i, l).2 != "skills:".toList) = true := by
        simp only [hm, bne_self_eq_false, Bool.false_eq_true, not_false_eq_true]
      rw [List.dropWhile_cons, if_neg hd, List.drop_one, List.tail_cons, List.append_nil]
    · have hout : (parseStep st i l).inSkillsSection = false := by
        rw [h2, hs]; simpa using hm
      rw [ih (i + 1) _ hout, h1, if_neg (fun h => by rw [hs] at h; exact absurd h.2.1 (by simp)),
        List.append_nil]
      have hd : (trim (i, l).2 != "skills:".toList) = true := by
        simpa using hm
      rw [List.dropWhile_cons, if_pos hd]

/-- C14: the entries that `parseYamlLines` returns are, in file order, exactly the lines after
the first line with trimmed text `skills:` whose trimmed text starts with `- name:`: the list
of their start indices, names and indentations is `recordStarts` of the lines.  No entry
stands for a line at or before the marker, none at all without a marker, and a record still
open at the end of the input is among them. -/
theorem c14_entries_are_the_record_starts (content : Str) :
    (parseYamlLines content).entries.map Entry.start = recordStarts (splitLines content) := by
  show (pushCurrent (parseLoop (splitLines content) 0 initState)).map Entry.start = _
  rw [parseLoop_starts_outside _ 0 initState rfl]
  simp [pushCurrent, initState, recordStarts, List.enum]

/-- On `catalogWithHeader` the line of the shape of a record start above the marker gives no
entry, and the two lines after it give the entries `alpha` and `beta`. -/
theorem parseYamlLines_catalogWithHeader :
    (parseYamlLines catalogWithHeader).entries.map Entry.start =
      [(2, "alpha".toList, 2), (4, "beta".toList, 1)] ∧
    recordStarts (splitLines catalogWithHeader) =
      [(2, "alpha".toList, 2), (4, "beta".toList, 1)] := by
  decide

theorem setProperty_fields (e : Entry) (t : Str) :
    (setProperty e t).startLine = e.startLine ∧ (setProperty e t).endLine = e.endLine ∧
    (setProperty e t).indent = e.indent ∧ (setProperty e t).lines = e.lines ∧
    (setProperty e t).name = e.name := by
  unfold setProperty
  split_ifs <;> exact ⟨rfl, rfl, rfl, rfl, rfl⟩

theorem parseInv_weaken (i : Nat) (entries : List Entry) (cur : Option Entry) (ci h h' : Nat)
    (ins ins' : Bool) (hins : ins = true → ins' = true)
    (hinv : ParseInv i ⟨entries, cur, ci, ins, h⟩) :
    ParseInv (i + 1) ⟨entries, cur, ci, ins', h'⟩ := by
  obtain ⟨h1, h2, h3⟩ := hinv
  refine ⟨?_, h2, ?_⟩
  · intro e he
    have := h1 e he
    exact ⟨this.1, by omega⟩
  · intro e he
    obtain ⟨a, b, c⟩ := h3 e he
    exact ⟨hins a, b, c⟩

theorem parseInv_close (i : Nat) (entries : List Entry) (e : Entry) (ci h : Nat) (ins : Bool)
    (hinv : ParseInv i ⟨entries, some e, ci, ins, h⟩) :
    ParseInv (i + 1) ⟨entries ++ [e], none, ci, ins, h⟩ := by
  obtain ⟨h1, h2, _⟩ := hinv
  refine ⟨?_, h2, ?_⟩
  · intro x hx
    have := h1 x hx
    exact ⟨this.1, by omega⟩
  · intro x hx
    cases hx

theorem parseInv_extend (i : Nat) (entries : List Entry) (e e' : Entry) (ci h : Nat)
    (ins : Bool) (l : Str) (hinv : ParseInv i ⟨entries, some e, ci, ins, h⟩)
    (hs : e'.startLine = e.startLine) (hend : e'.endLine = i) (hind : e'.indent = e.indent)
    (hlines : e'.lines = e.lines ++ [l]) (hl : Collected e.indent l) :
    ParseInv (i + 1) ⟨entries, some e', ci, ins, h⟩ := by
  obtain ⟨h1, h2, h3⟩ := hinv
  have h1' : ∀ x ∈ entries ++ [e], x.startLine ≤ x.endLine ∧ x.endLine < i := h1
  have h2' : (entries ++ [e]).Pairwise (fun a b => a.endLine < b.startLine) := h2
  obtain ⟨a, b, c⟩ := h3 e rfl
  rw [List.pairwise_append] at h2'
  refine ⟨?_, ?_, ?_⟩
  · intro x hx
    have hx' : x ∈ entries ++ [e'] := hx
    rcases List.mem_append.1 hx' with hx1 | hx1
    · have := h1' x (List.mem_append_left _ hx1)
      exact ⟨this.1, by omega⟩
    · rw [List.mem_singleton] at hx1
      subst hx1
      have := h1' e (by simp)
      omega
  · show (entries ++ [e']).Pairwise _
    rw [List.pairwise_append]
    refine ⟨h2'.1, List.pairwise_singleton _ _, ?_⟩
    intro x hx y hy
    rw [List.mem_singleton] at hy
    subst hy
    rw [hs]
    exact h2'.2.2 x hx e (by simp)
  · intro x hx
    cases hx
    refine ⟨a, by rw [hind]; exact b, ?_⟩
    intro l' hl'
    rw [hlines] at hl'
    rw [hind]
    rcases List.mem_append.1 hl' with h4 | h4
    · exact c l' h4
    · rw [List.mem_singleton] at h4
      rw [h4]; exact hl

theorem parseInv_open (i : Nat) (st : ParseState) (e' : Entry) (ci' h' : Nat)
    (hinv : ParseInv i st) (hs : e'.startLine = i) (hend : e'.endLine = i)
    (hci : ci' = e'.indent) (hl : ∀ l ∈ e'.lines, Collected e'.indent l) :
    ParseInv (i + 1) ⟨pushCurrent st, some e', ci', true, h'⟩ := by
  obtain ⟨h1, h2, _⟩ := hinv
  refine ⟨?_, ?_, ?_⟩
  · intro x hx
    have hx' : x ∈ pushCurrent st ++ [e'] := hx
    rcases List.mem_append.1 hx' with hx1 | hx1
    · have := h1 x hx1
      exact ⟨this.1, by omega⟩
    · rw [List.mem_singleton] at hx1
      subst hx1
      omega
  · show (pushCurrent st ++ [e']).Pairwise _
    rw [List.pairwise_append]
    refine ⟨h2, List.pairwise_singleton _ _, ?_⟩
    intro x hx y hy
    rw [List.mem_singleton] at hy
    subst hy
    rw [hs]
    exact (h1 x hx).2
  · intro x hx
    cases hx
    exact ⟨rfl, hci, hl⟩

/-- One iteration of the loop keeps the invariant. -/
theorem parseInv_step (st : ParseState) (i : Nat) (l : Str) (hinv : ParseInv i st) :
    ParseInv (i + 1) (parseStep st i l) := by
  obtain ⟨entries, cur, ci, ins, hei⟩ := st
  unfold parseStep
  by_cases hm : trim l = "skills:".toList
  · rw [if_pos hm]
    exact parseInv_weaken i entries cur ci hei i ins true (fun _ => rfl) hinv
  · rw [if_neg hm]
    cases ins with
    | false =>
      simp only [Bool.not_false, if_true]
      exact parseInv_weaken i entries cur ci hei hei false false id hinv
    | true =>
      simp only [Bool.not_true, Bool.false_eq_true, if_false]
      by_cases hn : startsWith (trim l) "- name:".toList = true
      · rw [if_pos hn]
        exact parseInv_open i ⟨entries, cur, ci, true, hei⟩ _ _ _ hinv rfl rfl rfl
          (by
            intro l' hl'
            rw [List.mem_singleton.1 hl']
            exact Or.inl hn)
      · rw [if_neg hn]
        cases cur with
        | none => exact parseInv_weaken i entries none ci hei hei true true id hinv
        | some e =>
          obtain ⟨_, hci, _⟩ := hinv.2.2 e rfl
          have hci' : ci = e.indent := hci
          simp only
          by_cases hp : isPropertyLine l = true
          · rw [if_pos hp]
            by_cases hd : ci < (leadingWs l).length
            · rw [if_pos hd]
              obtain ⟨f1, f2, f3, f4, _⟩ := setProperty_fields
                { e with lines := e.lines ++ [l], endLine := i } (trim l)
              exact parseInv_extend i entries e _ ci hei true l hinv f1 f2 f3 f4
                (Or.inr (Or.inl ⟨hp, by rw [← hci']; exact hd⟩))
            · rw [if_neg hd]
              exact parseInv_close i entries e ci hei true hinv
          · rw [if_neg hp]
            by_cases hb : trim l = []
            · rw [if_pos hb]
              exact parseInv_extend i entries e { e with lines := e.lines ++ [l], endLine := i }
                ci hei true l hinv rfl rfl rfl rfl (Or.inr (Or.inr (Or.inl hb)))
            · rw [if_neg hb]
              by_cases hc : isContinuationLine l = true
              · rw [if_pos hc]
                exact parseInv_extend i entries e
                  { e with lines := e.lines ++ [l], endLine := i }
                  ci hei true l hinv rfl rfl rfl rfl
                  (Or.inr (Or.inr (Or.inr ⟨by simpa using hp, hc⟩)))
              · rw [if_neg hc]
                split_ifs
                · exact parseInv_close i entries e ci hei true hinv
                · exact parseInv_weaken i entries (some e) ci hei hei true true id hinv

theorem parseInv_loop (ls : List Str) :
    ∀ (i : Nat) (st : ParseState), ParseInv i st → ParseInv (i + ls.length) (parseLoop ls i st) := by
  induction ls with
  | nil => intro i st h; exact h
  | cons l ls ih =>
    intro i st h
    have := ih (i + 1) _ (parseInv_step st i l h)
    rw [List.length_cons, show i + (ls.length + 1) = i + 1 + ls.length by omega]
    exact this

theorem parseInv_init : ParseInv 0 initState :=
  ⟨fun e he => (by cases he), List.Pairwise.nil, fun e he => (by cases he)⟩

/-- C17: the entries that `parseYamlLines` returns have line ranges in file order that never
overlap: every entry has `startLine <= endLine` and ends inside the text, for consecutive
entries the earlier `endLine` is below the later `startLine`, and the same holds for any two
entries in the order returned. -/
theorem c17_entry_ranges_ordered_and_disjoint (content : Str) :
    (∀ e ∈ (parseYamlLines content).entries,
      e.startLine ≤ e.endLine ∧ e.endLine < (splitLines content).length) ∧
    List.Chain' (fun a b : Entry => a.endLine < b.startLine) (parseYamlLines content).entries ∧
    List.Pairwise (fun a b : Entry => a.endLine < b.startLine) (parseYamlLines content).entries := by
  have h := parseInv_loop (splitLines content) 0 initState parseInv_init
  rw [Nat.zero_add] at h
  exact ⟨h.1, List.Pairwise.chain' h.2.1, h.2.1⟩

/-- In `catalogLooseLines` the record `alpha` (line 1, indentation 2) is
followed by a blank line (index 2), a comment of indentation 2 (index 3) and an unindented
line `orphan` (index 4), none of them a record start and none indented deeper than the
record.  The blank line and the comment are collected into the record, the line `orphan`
leaves it open, and the record ends at line 5. -/
theorem loose_lines_are_collected_or_ignored :
    (splitLines catalogLooseLines).drop 2 =
      ["".toList, "  # note".toList, "orphan".toList, "    type: skill".toList] ∧
    (parseLoop ((splitLines catalogLooseLines).take 2) 0 initState).currentEntry.map
        Entry.start = some (1, "alpha".toList, 2) ∧
    (parseLoop ((splitLines catalogLooseLines).take 3) 0 initState).currentEntry.map
        (fun e => (e.endLine, e.lines)) = some (2, ["  - name: alpha".toList, "".toList]) ∧
    (parseLoop ((splitLines catalogLooseLines).take 4) 0 initState).currentEntry.map
        (fun e => (e.endLine, e.lines)) =
      some (3, ["  - name: alpha".toList, "".toList, "  # note".toList]) ∧
    (parseLoop ((splitLines catalogLooseLines).take 5) 0 initState).currentEntry.map
        (fun e => (e.endLine, e.lines)) =
      some (3, ["  - name: alpha".toList, "".toList, "  # note".toList]) ∧
    (parseYamlLines catalogLooseLines).entries.map (fun e => (e.startLine, e.endLine, e.lines)) =
      [(1, 5, ["  - name: alpha".toList, "".toList, "  # note".toList,
               "    type: skill".toList])] := by
  decide

theorem parseLoop_append (a b : List Str) :
    ∀ (i : Nat) (st : ParseState),
      parseLoop (a ++ b) i st = parseLoop b (i + a.length) (parseLoop a i st) := by
  induction a with
  | nil => intro i st; rfl
  | cons l a ih =>
    intro i st
    rw [List.cons_append, parseLoop, ih, parseLoop, List.length_cons,
      show i + 1 + a.length = i + (a.length + 1) by omega]

theorem mem_pushCurrent_of_mem_entries (st : ParseState) (e : Entry) (h : e ∈ st.entries) :
    e ∈ pushCurrent st := by
  unfold pushCurrent
  cases st.currentEntry with
  | none => exact h
  | some c => exact List.mem_append_left _ h

theorem mem_entries_parseStep (st : ParseState) (i : Nat) (l : Str) (e : Entry)
    (h : e ∈ st.entries) : e ∈ (parseStep st i l).entries := by
  obtain ⟨entries, cur, ci, ins, hei⟩ := st
  have h' : e ∈ entries := h
  unfold parseStep
  by_cases hm : trim l = "skills:".toList
  · rw [if_pos hm]; exact h'
  · rw [if_neg hm]
    cases ins with
    | false => simp only [Bool.not_false, if_true]; exact h'
    | true =>
      simp only [Bool.not_true, Bool.false_eq_true, if_false]
      by_cases hn : startsWith (trim l) "- name:".toList = true
      · rw [if_pos hn]
        exact mem_pushCurrent_of_mem_entries ⟨entries, cur, ci, true, hei⟩ e h'
      · rw [if_neg hn]
        cases cur with
        | none => exact h'
        | some c =>
          simp only
          split_ifs <;> first | exact h' | exact List.mem_append_left _ h'

theorem mem_entries_parseLoop (ls : List Str) :
    ∀ (i : Nat) (st : ParseState) (e : Entry),
      e ∈ st.entries → e ∈ (parseLoop ls i st).entries := by
  induction ls with
  | nil => intro i st e h; exact h
  | cons l ls ih =>
    intro i st e h
    exact ih _ _ e (mem_entries_parseStep st i l e h)

theorem trimEnd_cons_head (c : Char) (t : Str) (hc : isJsSpace c = false) :
    ∃ t', trimEnd (c :: t) = c :: t' := by
  have hp : (c :: t).rdropWhile isJsSpace <+: c :: t := List.rdropWhile_prefix _ _
  have hne : (c :: t).rdropWhile isJsSpace ≠ [] := by
    intro h
    rw [List.rdropWhile_eq_nil_iff] at h
    have := h c (List.mem_cons_self _ _)
    rw [hc] at this
    exact absurd this (by simp)
  unfold trimEnd
  cases hr : (c :: t).rdropWhile isJsSpace with
  | nil => exact absurd hr hne
  | cons d t' =>
    rw [hr] at hp
    rw [List.cons_prefix_cons] at hp
    exact ⟨t', by rw [hp.1]⟩

theorem not_space_of_wordChar (c : Char) (h : isWordChar c = true) : isJsSpace c = false := by
  unfold isWordChar at h
  unfold isJsSpace
  simp only [Bool.or_eq_true, Bool.and_eq_true, decide_eq_true_eq, beq_iff_eq] at h
  simp only [Bool.or_eq_false_iff, Bool.and_eq_false_imp, beq_eq_false_iff_ne, ne_eq,
    decide_eq_true_eq, decide_eq_false_iff_not]
  omega

theorem trim_of_isPropertyLine (l : Str) (h : isPropertyLine l = true) :
    ∃ c t, trim l = c :: t ∧ isWordChar c = true := by
  unfold isPropertyLine at h
  simp only [Bool.and_eq_true, decide_eq_true_eq] at h
  cases hr : l.dropWhile isJsSpace with
  | nil => rw [hr] at h; simp at h
  | cons c t =>
    rw [hr] at h
    have hw : isWordChar c = true := by
      by_contra hw
      rw [List.dropWhile_cons_of_neg hw] at h
      exact absurd h.1 (lt_irrefl _)
    obtain ⟨t', ht'⟩ := trimEnd_cons_head c t (not_space_of_wordChar c hw)
    exact ⟨c, t', by unfold trim trimStart; rw [hr, ht'], hw⟩

theorem trim_of_head_hash (l : Str) (h : l.head? = some '#') :
    l.dropWhile isJsSpace = l ∧ ∃ t, trim l = '#' :: t := by
  cases l with
  | nil => cases h
  | cons c t =>
    simp only [List.head?_cons, Option.some.injEq] at h
    subst h
    have hd : ('#' :: t).dropWhile isJsSpace = '#' :: t :=
      List.dropWhile_cons_of_neg (by decide)
    obtain ⟨t', ht'⟩ := trimEnd_cons_head '#' t (by decide)
    exact ⟨hd, t', by unfold trim trimStart; rw [hd, ht']⟩

/-- A property line that is not indented deeper than the open entry is not a collected line. -/
theorem not_collected_low_property (indent : Nat) (l : Str) (hp : isPropertyLine l = true)
    (hind : (leadingWs l).length ≤ indent) : ¬ Collected indent l := by
  obtain ⟨c, t, ht, hw⟩ := trim_of_isPropertyLine l hp
  rintro (h | h | h | h)
  · rw [ht] at h
    have hc : c = '-' := by
      simp [startsWith, List.isPrefixOf] at h
      exact h.1.symm
    rw [hc] at hw
    exact absurd hw (by decide)
  · omega
  · rw [ht] at h; cases h
  · rw [hp] at h; cases h.1

/-- An unindented comment line is not a collected line. -/
theorem not_collected_hash (indent : Nat) (l : Str) (hh : l.head? = some '#') :
    isPropertyLine l = false ∧ isContinuationLine l = false ∧ ¬ Collected indent l := by
  obtain ⟨hd, t, ht⟩ := trim_of_head_hash l hh
  have hp : isPropertyLine l = false := by
    cases hpp : isPropertyLine l with
    | false => rfl
    | true =>
      obtain ⟨c, t2, ht2, hw⟩ := trim_of_isPropertyLine l hpp
      rw [ht] at ht2
      cases ht2
      exact absurd hw (by decide)
  have hc : isContinuationLine l = false := by
    unfold isContinuationLine
    rw [hd]
    simp
  refine ⟨hp, hc, ?_⟩
  rintro (h | h | h | h)
  · rw [ht] at h
    simp [startsWith, List.isPrefixOf] at h
  · rw [hp] at h; cases h.1
  · rw [ht] at h; cases h
  · rw [hc] at h; cases h.2

/-- The iteration on a line that closes the open entry. -/
theorem parseStep_closes (entries : List Entry) (e : Entry) (hei i : Nat) (l : Str)
    (hl : (isPropertyLine l = true ∧ trim l ≠ "skills:".toList ∧
            (leadingWs l).length ≤ e.indent) ∨ l.head? = some '#') :
    parseStep ⟨entries, some e, e.indent, true, hei⟩ i l =
      ⟨entries ++ [e], none, e.indent, true, hei⟩ := by
  rcases hl with ⟨hp, hm, hind⟩ | hh
  · obtain ⟨c, t, ht, hw⟩ := trim_of_isPropertyLine l hp
    have hn : ¬ startsWith (trim l) "- name:".toList = true := by
      intro h
      rw [ht] at h
      have hc : c = '-' := by
        simp [startsWith, List.isPrefixOf] at h
        exact h.1.symm
      rw [hc] at hw
      exact absurd hw (by decide)
    unfold parseStep
    rw [if_neg hm]
    simp only [Bool.not_true, Bool.false_eq_true, if_false]
    rw [if_neg hn, if_pos hp, if_neg (by omega)]
  · obtain ⟨hd, t, ht⟩ := trim_of_head_hash l hh
    obtain ⟨hp, hc, _⟩ := not_collected_hash e.indent l hh
    have hm : ¬ trim l = "skills:".toList := by
      rw [ht]; simp
    have hn : ¬ startsWith (trim l) "- name:".toList = true := by
      rw [ht]; simp [startsWith, List.isPrefixOf]
    have hb : ¬ trim l = [] := by rw [ht]; exact List.cons_ne_nil _ _
    have hs : startsWith (trim l) "#".toList = true := by
      rw [ht]; simp [startsWith, List.isPrefixOf]
    unfold parseStep
    rw [if_neg hm]
    simp only [Bool.not_true, Bool.false_eq_true, if_false]
    rw [if_neg hn, if_neg (by rw [hp]; exact Bool.false_ne_true), if_neg hb,
      if_neg (by rw [hc]; exact Bool.false_ne_true), if_pos hs]

/-- For a record that is open when the loop reaches a line, if the line is a
property line other than `skills:` whose indentation is at most the indentation of the
record, or a comment line without indentation, then the line closes the record and is not
collected into it: after the line no record is open, the record is returned as it stood,
its `endLine` is below the index of the line, and the line is not among its lines. -/
theorem low_property_or_comment_closes_record (content : Str) (before after : List Str)
    (line : Str) (e : Entry)
    (hsplit : splitLines content = before ++ line :: after)
    (hopen : (parseLoop before 0 initState).currentEntry = some e)
    (hline : (isPropertyLine line = true ∧ trim line ≠ "skills:".toList ∧
               (leadingWs line).length ≤ e.indent) ∨ line.head? = some '#') :
    (parseLoop (before ++ [line]) 0 initState).currentEntry = none ∧
    e ∈ (parseYamlLines content).entries ∧
    e.endLine < before.length ∧
    line ∉ e.lines := by
  have hinv := parseInv_loop before 0 initState parseInv_init
  rw [Nat.zero_add] at hinv
  rcases hst : parseLoop before 0 initState with ⟨entries, cur, ci, ins, hei⟩
  rw [hst] at hinv hopen
  have hcur : cur = some e := hopen
  subst hcur
  obtain ⟨h1, _, h3⟩ := hinv
  obtain ⟨hins, hci, hlines⟩ := h3 e rfl
  have hins' : ins = true := hins
  have hci' : ci = e.indent := hci
  subst hins' hci'
  have hstep := parseStep_closes entries e hei before.length line hline
  have hafter : parseLoop (before ++ [line]) 0 initState =
      ⟨entries ++ [e], none, e.indent, true, hei⟩ := by
    rw [parseLoop_append, hst, Nat.zero_add, parseLoop, parseLoop, hstep]
  refine ⟨by rw [hafter], ?_, (h1 e (by simp [pushCurrent])).2, ?_⟩
  · show e ∈ pushCurrent (parseLoop (splitLines content) 0 initState)
    apply mem_pushCurrent_of_mem_entries
    rw [hsplit, show before ++ line :: after = (before ++ [line]) ++ after by simp,
      parseLoop_append, hafter]
    exact mem_entries_parseLoop _ _ _ _ (by simp)
  · intro hmem
    have hcol := hlines line hmem
    rcases hline with ⟨hp, _, hind⟩ | hh
    · exact not_collected_low_property e.indent line hp hind hcol
    · exact (not_collected_hash e.indent line hh).2.2 hcol

/-- Example: in `catalogTwoSections` the record `alpha` (indentation 2) is open when the
loop reaches the line `agents:` at index 3, a property line without indentation. -/
theorem low_property_or_comment_closes_record_example :
    splitLines catalogTwoSections =
      ["skills:".toList, "  - name: alpha".toList, "    type: skill".toList] ++
        "agents:".toList :: ["  - name: omega".toList] ∧
    (parseLoop ["skills:".toList, "  - name: alpha".toList, "    type: skill".toList] 0
        initState).currentEntry = some alphaOpen ∧
    ((parseLoop (["skills:".toList, "  - name: alpha".toList, "    type: skill".toList] ++
        ["agents:".toList]) 0 initState).currentEntry = none ∧
      alphaOpen ∈ (parseYamlLines catalogTwoSections).entries ∧
      alphaOpen.endLine <
        ["skills:".toList, "  - name: alpha".toList, "    type: skill".toList].length ∧
      "agents:".toList ∉ alphaOpen.lines) :=
  ⟨by decide, by decide,
   low_property_or_comment_closes_record catalogTwoSections
     ["skills:".toList, "  - name: alpha".toList, "    type: skill".toList]
     ["  - name: omega".toList] "agents:".toList alphaOpen (by decide) (by decide)
     (Or.inl (by decide))⟩

/-- In `catalogQuotedValues` the line `type: "skill"` gives the type
`"skill"` with its quote characters, and so does `category`; the single quotes of the
description are kept as well.  Only the double quotes of `source` are removed. -/
theorem quotes_kept_for_type_and_category :
    (parseYamlLines catalogQuotedValues).entries.map
        (fun e => (e.name, e.type, e.category, e.description, e.source)) =
      [("alpha".toList, some "\"skill\"".toList, some "\"testing\"".toList,
        some "'Single quoted'".toList, some "skills/alpha".toList)] ∧
    (parseYamlLines catalogQuotedValues).entries.map (fun e => e.type) ≠
      [some "skill".toList] := by
  decide

theorem dropWhile_word_colon (w x : Str) (hw : ∀ c ∈ w, isWordChar c = true) :
    (w ++ ':' :: x).dropWhile isWordChar = ':' :: x := by
  induction w with
  | nil => exact List.dropWhile_cons_of_neg (by decide)
  | cons c w ih =>
    rw [List.cons_append, List.dropWhile_cons_of_pos (hw c (List.mem_cons_self _ _))]
    exact ih (fun d hd => hw d (List.mem_cons_of_mem _ hd))

/-- A line whose trimmed text is a word followed by a colon is a property line. -/
theorem isPropertyLine_of_trim (line w rest : Str) (hne : w ≠ [])
    (hw : ∀ c ∈ w, isWordChar c = true) (h : trim line = w ++ ':' :: rest) :
    isPropertyLine line = true := by
  have hp : (line.dropWhile isJsSpace).rdropWhile isJsSpace <+: line.dropWhile isJsSpace :=
    List.rdropWhile_prefix _ _
  have h' : (line.dropWhile isJsSpace).rdropWhile isJsSpace = w ++ ':' :: rest := h
  rw [h'] at hp
  obtain ⟨tl, htl⟩ := hp
  unfold isPropertyLine
  simp only
  rw [← htl, List.append_assoc, List.cons_append, dropWhile_word_colon w _ hw]
  cases w with
  | nil => exact absurd rfl hne
  | cons c w =>
    simp only [List.cons_append, List.length_cons, List.length_append, List.head?_cons,
      beq_self_eq_true, Bool.and_true, decide_eq_true_eq]
    omega

/-- The iteration on a property line indented deeper than the open entry. -/
theorem parseStep_property (entries : List Entry) (e : Entry) (hei i : Nat) (l : Str)
    (hp : isPropertyLine l = true) (hm : trim l ≠ "skills:".toList)
    (hind : e.indent < (leadingWs l).length) :
    parseStep ⟨entries, some e, e.indent, true, hei⟩ i l =
      ⟨entries, some (setProperty { e with lines := e.lines ++ [l], endLine := i } (trim l)),
        e.indent, true, hei⟩ := by
  obtain ⟨c, t, ht, hw⟩ := trim_of_isPropertyLine l hp
  have hn : ¬ startsWith (trim l) "- name:".toList = true := by
    intro h
    rw [ht] at h
    have hc : c = '-' := by
      simp [startsWith, List.isPrefixOf] at h
      exact h.1.symm
    rw [hc] at hw
    exact absurd hw (by decide)
  unfold parseStep
  rw [if_neg hm]
  simp only [Bool.not_true, Bool.false_eq_true, if_false]
  rw [if_neg hn, if_pos hp, if_pos hind]

theorem stripDq_quoted (v : Str) : stripDq ('"' :: v ++ ['"']) = v := by
  unfold stripDq
  simp

theorem setProperty_type (e : Entry) (rest : Str) :
    setProperty e ("type:".toList ++ rest) = { e with type := some (trim rest) } := by
  have h1 : startsWith ("type:".toList ++ rest) "type:".toList = true := by
    simp [startsWith, List.isPrefixOf]
  unfold setProperty
  rw [if_pos h1, replaceFirst_of_startsWith _ _ (by decide) h1]
  rfl

theorem setProperty_category (e : Entry) (rest : Str) :
    setProperty e ("category:".toList ++ rest) = { e with category := some (trim rest) } := by
  have h0 : ¬ startsWith ("category:".toList ++ rest) "type:".toList = true := by
    simp [startsWith, List.isPrefixOf]
  have h1 : startsWith ("category:".toList ++ rest) "category:".toList = true := by
    simp [startsWith, List.isPrefixOf]
  unfold setProperty
  rw [if_neg h0, if_pos h1, replaceFirst_of_startsWith _ _ (by decide) h1]
  rfl

theorem setProperty_description (e : Entry) (rest : Str) :
    setProperty e ("description:".toList ++ rest) =
      { e with description := some (stripDq (trim rest)) } := by
  have h0 : ¬ startsWith ("description:".toList ++ rest) "type:".toList = true := by
    simp [startsWith, List.isPrefixOf]
  have h0' : ¬ startsWith ("description:".toList ++ rest) "category:".toList = true := by
    simp [startsWith, List.isPrefixOf]
  have h1 : startsWith ("description:".toList ++ rest) "description:".toList = true := by
    simp [startsWith, List.isPrefixOf]
  unfold setProperty
  rw [if_neg h0, if_neg h0', if_pos h1, replaceFirst_of_startsWith _ _ (by decide) h1]
  rfl

theorem setProperty_source (e : Entry) (rest : Str) :
    setProperty e ("source:".toList ++ rest) =
      { e with source := some (stripDq (trim rest)) } := by
  have h0 : ¬ startsWith ("source:".toList ++ rest) "type:".toList = true := by
    simp [startsWith, List.isPrefixOf]
  have h0' : ¬ startsWith ("source:".toList ++ rest) "category:".toList = true := by
    simp [startsWith, List.isPrefixOf]
  have h0'' : ¬ startsWith ("source:".toList ++ rest) "description:".toList = true := by
    simp [startsWith, List.isPrefixOf]
  have h1 : startsWith ("source:".toList ++ rest) "source:".toList = true := by
    simp [startsWith, List.isPrefixOf]
  unfold setProperty
  rw [if_neg h0, if_neg h0', if_neg h0'', if_pos h1,
    replaceFirst_of_startsWith _ _ (by decide) h1]
  rfl

/-- The state after a property line `key ...` that is indented deeper than the open entry. -/
theorem parseLoop_property (before : List Str) (line w rest : Str) (e : Entry)
    (hopen : (parseLoop before 0 initState).currentEntry = some e)
    (hind : e.indent < (leadingWs line).length)
    (hne : w ≠ []) (hw : ∀ c ∈ w, isWordChar c = true) (hskills : w ≠ "skills".toList)
    (hline : trim line = w ++ ':' :: rest) :
    (parseLoop (before ++ [line]) 0 initState).currentEntry =
      some (setProperty { e with lines := e.lines ++ [line], endLine := before.length }
        (w ++ ':' :: rest)) := by
  have hinv := parseInv_loop before 0 initState parseInv_init
  rw [Nat.zero_add] at hinv
  rcases hst : parseLoop before 0 initState with ⟨entries, cur, ci, ins, hei⟩
  rw [hst] at hinv hopen
  have hcur : cur = some e := hopen
  subst hcur
  obtain ⟨hins, hci, _⟩ := hinv.2.2 e rfl
  have hins' : ins = true := hins
  have hci' : ci = e.indent := hci
  subst hins' hci'
  have hm : trim line ≠ "skills:".toList := by
    rw [hline]
    intro h
    have h2 : w ++ ':' :: rest = "skills".toList ++ ':' :: [] := h
    have hlen := List.append_inj h2 (by
      have h3 := congrArg (List.dropWhile isWordChar) h2
      rw [dropWhile_word_colon w rest hw, dropWhile_word_colon _ _ (by decide)] at h3
      have h4 := congrArg List.length h2
      simp only [List.cons.injEq, true_and] at h3
      rw [h3] at h4
      simp only [List.length_append, List.length_cons, List.length_nil] at h4
      omega)
    exact hskills hlen.1
  rw [parseLoop_append, hst, Nat.zero_add, parseLoop, parseLoop,
    parseStep_property entries e hei before.length line
      (isPropertyLine_of_trim line w rest hne hw hline) hm hind, hline]

/-- For a record that is open when the loop reaches a property line indented
deeper than the record, a value written between double quotes is stored without them for the
keys `description` and `source`, and with them, as the trimmed text after the key, for the
keys `type` and `category`.  The other fields of the record are unchanged, the line is added
to its lines and its `endLine` is the index of the line. -/
theorem double_quotes_stripped_for_description_and_source (before : List Str)
    (line rest v : Str) (e : Entry)
    (hopen : (parseLoop before 0 initState).currentEntry = some e)
    (hind : e.indent < (leadingWs line).length)
    (hval : trim rest = '"' :: v ++ ['"']) :
    (trim line = "description:".toList ++ rest →
      (parseLoop (before ++ [line]) 0 initState).currentEntry =
        some { e with lines := e.lines ++ [line], endLine := before.length,
                      description := some v }) ∧
    (trim line = "source:".toList ++ rest →
      (parseLoop (before ++ [line]) 0 initState).currentEntry =
        some { e with lines := e.lines ++ [line], endLine := before.length,
                      source := some v }) ∧
    (trim line = "type:".toList ++ rest →
      (parseLoop (before ++ [line]) 0 initState).currentEntry =
        some { e with lines := e.lines ++ [line], endLine := before.length,
                      type := some ('"' :: v ++ ['"']) }) ∧
    (trim line = "category:".toList ++ rest →
      (parseLoop (before ++ [line]) 0 initState).currentEntry =
        some { e with lines := e.lines ++ [line], endLine := before.length,
                      category := some ('"' :: v ++ ['"']) }) := by
  refine ⟨?_, ?_, ?_, ?_⟩
  · intro h
    have h' : trim line = "description".toList ++ ':' :: rest := h
    rw [parseLoop_property before line _ rest e hopen hind (by decide) (by decide) (by decide) h']
    have := setProperty_description
      { e with lines := e.lines ++ [line], endLine := before.length } rest
    rw [hval, stripDq_quoted] at this
    exact congrArg some this
  · intro h
    have h' : trim line = "source".toList ++ ':' :: rest := h
    rw [parseLoop_property before line _ rest e hopen hind (by decide) (by decide) (by decide) h']
    have := setProperty_source
      { e with lines := e.lines ++ [line], endLine := before.length } rest
    rw [hval, stripDq_quoted] at this
    exact congrArg some this
  · intro h
    have h' : trim line = "type".toList ++ ':' :: rest := h
    rw [parseLoop_property before line _ rest e hopen hind (by decide) (by decide) (by decide) h']
    have := setProperty_type
      { e with lines := e.lines ++ [line], endLine := before.length } rest
    rw [hval] at this
    exact congrArg some this
  · intro h
    have h' : trim line = "category".toList ++ ':' :: rest := h
    rw [parseLoop_property before line _ rest e hopen hind (by decide) (by decide) (by decide) h']
    have := setProperty_category
      { e with lines := e.lines ++ [line], endLine := before.length } rest
    rw [hval] at this
    exact congrArg some this

/-- Example: after `skills:` and `  - name: alpha` the line `    description: "A b"` sets
the description `A b`. -/
theorem double_quotes_stripped_for_description_and_source_example :
    (parseLoop ["skills:".toList, "  - name: alpha".toList] 0 initState).currentEntry =
      some alphaStart ∧
    alphaStart.indent < (leadingWs "    description: \"A b\"".toList).length ∧
    trim " \"A b\"".toList = '"' :: "A b".toList ++ ['"'] ∧
    trim "    description: \"A b\"".toList = "description:".toList ++ " \"A b\"".toList ∧
    (parseLoop (["skills:".toList, "  - name: alpha".toList] ++
        ["    description: \"A b\"".toList]) 0 initState).currentEntry =
      some { alphaStart with
             lines := alphaStart.lines ++ ["    description: \"A b\"".toList],
             endLine := ["skills:".toList, "  - name: alpha".toList].length,
             description := some "A b".toList } :=
  ⟨by decide, by decide, by decide, by decide,
   (double_quotes_stripped_for_description_and_source
      ["skills:".toList, "  - name: alpha".toList] "    description: \"A b\"".toList
      " \"A b\"".toList "A b".toList alphaStart (by decide) (by decide) (by decide)).1
     (by decide)⟩

/-- C21 (the code departs from the claim): on `catalogTwoAnchors` a second run rewrites the
text that the first run wrote.  The first run left a blank line at index 12, inside the
record of `testing-master`, and left the source of `databases` as it was (the misplaced
second insertion and the redirect at unshifted indices); the second run parses the masters
where they now stand, overwrites the blank line with the source line of `testing-master`
and redirects the source of `databases`. -/
theorem c21_second_run_rewrites_the_first_output :
    (splitLines (main catalogTwoAnchors)).length = 24 ∧
    (splitLines (main (main catalogTwoAnchors))).length = 24 ∧
    (splitLines (main catalogTwoAnchors)).getD 12 [] = [] ∧
    (splitLines (main (main catalogTwoAnchors))).getD 12 [] =
      "    source: IDETOOLS/skills/testing-master".toList ∧
    (splitLines (main catalogTwoAnchors)).getD 23 [] =
      "    source: IDETOOLS/skills/databases".toList ∧
    (splitLines (main (main catalogTwoAnchors))).getD 23 [] =
      "    source: IDETOOLS/skills/database-master".toList ∧
    main (main catalogTwoAnchors) ≠ main catalogTwoAnchors := by
  decide

/-- On `catalogOneAnchor`, where one master is inserted and nothing lies below its anchor, a
second run writes the text of the first run. -/
theorem main_twice_catalogOneAnchor :
    main catalogOneAnchor ≠ catalogOneAnchor ∧
    main (main catalogOneAnchor) = main catalogOneAnchor := by
  decide

theorem entryMapGet_mem (es : List Entry) (name : Str) (r : Entry)
    (h : entryMapGet es name = some r) : r ∈ es ∧ r.name = name := by
  unfold entryMapGet at h
  induction es using List.reverseRecOn with
  | nil => cases h
  | append_singleton es e ih =>
    rw [List.foldl_append] at h
    simp only [List.foldl_cons, List.foldl_nil] at h
    split_ifs at h with hn
    · cases h
      exact ⟨by simp, hn⟩
    · obtain ⟨h1, h2⟩ := ih h
      exact ⟨List.mem_append_left _ h1, h2⟩

theorem setProperty_source_some (e : Entry) (t : Str) (s : Str)
    (h : (setProperty e t).source = some s) :
    e.source = some s ∨ startsWith t "source:".toList = true := by
  unfold setProperty at h
  split_ifs at h with h1 h2 h3 h4
  · exact Or.inl h
  · exact Or.inl h
  · exact Or.inl h
  · exact Or.inr h4
  · exact Or.inl h

theorem sourceInv_same (L : List Str) (entries : List Entry) (cur : Option Entry)
    (ci h ci' h' : Nat) (ins ins' : Bool)
    (hinv : SourceInv L ⟨entries, cur, ci, ins, h⟩) :
    SourceInv L ⟨entries, cur, ci', ins', h'⟩ := hinv

theorem sourceInv_close (L : List Str) (entries : List Entry) (e : Entry) (ci h : Nat)
    (ins : Bool) (hinv : SourceInv L ⟨entries, some e, ci, ins, h⟩) :
    SourceInv L ⟨entries ++ [e], none, ci, ins, h⟩ := hinv

theorem sourceInv_extend (L : List Str) (i : Nat) (entries : List Entry) (e e' : Entry)
    (ci h : Nat) (ins : Bool)
    (hinv : SourceInv L ⟨entries, some e, ci, ins, h⟩)
    (hrange : e.startLine ≤ i ∧ e.endLine ≤ i)
    (hs : e'.startLine = e.startLine) (hend : e'.endLine = i)
    (hsrc : ∀ s, e'.source = some s → e.source = some s ∨ isSourceLine (L.getD i []) = true) :
    SourceInv L ⟨entries, some e', ci, ins, h⟩ := by
  intro x hx s hxs
  have hx' : x ∈ entries ++ [e'] := hx
  rcases List.mem_append.1 hx' with h1 | h1
  · exact hinv x (show x ∈ entries ++ [e] from List.mem_append_left _ h1) s hxs
  · rw [List.mem_singleton] at h1
    subst h1
    rcases hsrc s hxs with h2 | h2
    · obtain ⟨j, j1, j2, j3⟩ := hinv e (show e ∈ entries ++ [e] by simp) s h2
      exact ⟨j, by omega, by omega, j3⟩
    · exact ⟨i, by omega, by omega, h2⟩

theorem sourceInv_open (L : List Str) (st : ParseState) (e' : Entry) (ci' h' : Nat)
    (hinv : SourceInv L st) (hsrc : e'.source = none) :
    SourceInv L ⟨pushCurrent st, some e', ci', true, h'⟩ := by
  intro x hx s hxs
  have hx' : x ∈ pushCurrent st ++ [e'] := hx
  rcases List.mem_append.1 hx' with h1 | h1
  · exact hinv x h1 s hxs
  · rw [List.mem_singleton] at h1
    subst h1
    rw [hsrc] at hxs
    cases hxs

/-- One iteration of the loop keeps `SourceInv`. -/
theorem sourceInv_step (L : List Str) (st : ParseState) (i : Nat) (l : Str)
    (hl : L.getD i [] = l) (hp : ParseInv i st) (hinv : SourceInv L st) :
    SourceInv L (parseStep st i l) := by
  obtain ⟨entries, cur, ci, ins, hei⟩ := st
  unfold parseStep
  by_cases hm : trim l = "skills:".toList
  · rw [if_pos hm]
    exact sourceInv_same L entries cur ci hei ci i ins true hinv
  · rw [if_neg hm]
    cases ins with
    | false =>
      simp only [Bool.not_false, if_true]
      exact hinv
    | true =>
      simp only [Bool.not_true, Bool.false_eq_true, if_false]
      by_cases hn : startsWith (trim l) "- name:".toList = true
      · rw [if_pos hn]
        exact sourceInv_open L ⟨entries, cur, ci, true, hei⟩ _ _ _ hinv rfl
      · rw [if_neg hn]
        cases cur with
        | none => exact hinv
        | some e =>
          have hrange : e.startLine ≤ i ∧ e.endLine ≤ i := by
            have := hp.1 e (show e ∈ entries ++ [e] by simp)
            omega
          simp only
          by_cases hpl : isPropertyLine l = true
          · rw [if_pos hpl]
            by_cases hd : ci < (leadingWs l).length
            · rw [if_pos hd]
              obtain ⟨f1, f2, _, _, _⟩ := setProperty_fields
                { e with lines := e.lines ++ [l], endLine := i } (trim l)
              refine sourceInv_extend L i entries e _ ci hei true hinv hrange f1 f2 ?_
              intro s hs
              rcases setProperty_source_some _ _ s hs with h1 | h1
              · exact Or.inl h1
              · right
                rw [hl]
                exact h1
            · rw [if_neg hd]
              exact sourceInv_close L entries e ci hei true hinv
          · rw [if_neg hpl]
            by_cases hb : trim l = []
            · rw [if_pos hb]
              exact sourceInv_extend L i entries e { e with lines := e.lines ++ [l], endLine := i }
                ci hei true hinv hrange rfl rfl (fun s hs => Or.inl hs)
            · rw [if_neg hb]
              by_cases hc : isContinuationLine l = true
              · rw [if_pos hc]
                exact sourceInv_extend L i entries e
                  { e with lines := e.lines ++ [l], endLine := i }
                  ci hei true hinv hrange rfl rfl (fun s hs => Or.inl hs)
              · rw [if_neg hc]
                split_ifs
                · exact sourceInv_close L entries e ci hei true hinv
                · exact hinv

theorem sourceInv_loop (ls : List Str) :
    ∀ (before : List Str) (st : ParseState), ParseInv before.length st →
      SourceInv (before ++ ls) st →
      SourceInv (before ++ ls) (parseLoop ls before.length st) := by
  induction ls with
  | nil => intro before st _ h; exact h
  | cons l ls ih =>
    intro before st hp h
    have hget : (before ++ l :: ls).getD before.length [] = l := by
      rw [List.getD_eq_getElem?_getD, List.getElem?_append_right (le_refl _)]
      simp
    have hstep := sourceInv_step (before ++ l :: ls) st before.length l hget hp h
    have hp' := parseInv_step st before.length l hp
    have := ih (before ++ [l]) (parseStep st before.length l)
      (by rw [List.length_append]; exact hp')
      (by rw [List.append_assoc]; exact hstep)
    rw [List.append_assoc, List.length_append] at this
    exact this

theorem sourceInv_parse (content : Str) :
    SourceInv (splitLines content) (parseLoop (splitLines content) 0 initState) := by
  have := sourceInv_loop (splitLines content) [] initState parseInv_init
    (by intro e he; cases he)
  simpa using this

theorem ranges_disjoint (es : List Entry)
    (hp : es.Pairwise (fun a b : Entry => a.endLine < b.startLine)) (a b : Entry)
    (ha : a ∈ es) (hb : b ∈ es) (hne : a ≠ b) :
    a.endLine < b.startLine ∨ b.endLine < a.startLine := by
  have hp' : es.Pairwise
      (fun a b : Entry => a.endLine < b.startLine ∨ b.endLine < a.startLine) :=
    hp.imp (fun h => Or.inl h)
  exact hp'.forall (fun x y h => h.symm) ha hb hne

/-- C6 (amended): the redirect of the replaced record `r`, run on lines that up to the end of
the record are the lines as parsed, rewrites at most one line, and that line is the first
line of the record's own span whose trimmed text starts with `source:`; the span is disjoint
from the span of every other record, so no line of another record changes.  The new line is
the original leading whitespace followed by `source: IDETOOLS/skills/<master>`, written
without quote characters whatever the quoting was.  Exactly one line is rewritten when the
record has a parsed source other than the target, none when it has the target. -/
theorem c6_redirect_rewrites_source_line_of_own_span (m : Master) (content : Str) (r : Entry)
    (st : MainState)
    (hr : entryMapGet (parseYamlLines content).entries m.replaces = some r)
    (hst : ∀ j, j ≤ r.endLine → st.lines.getD j [] = (splitLines content).getD j []) :
    r ∈ (parseYamlLines content).entries ∧
    (∀ e ∈ (parseYamlLines content).entries, e ≠ r →
      e.endLine < r.startLine ∨ r.endLine < e.startLine) ∧
    (redirectStep (some r) m st).lines.length = st.lines.length ∧
    (∀ e ∈ (parseYamlLines content).entries, e ≠ r → ∀ j, e.startLine ≤ j → j ≤ e.endLine →
      (redirectStep (some r) m st).lines.getD j [] = st.lines.getD j []) ∧
    (r.source = some (targetSource m) → redirectStep (some r) m st = st) ∧
    (∀ s, r.source = some s → s ≠ targetSource m →
      (redirectStep (some r) m st).redirectCount = st.redirectCount + 1) ∧
    (redirectStep (some r) m st = st ∨
      ∃ i, r.startLine ≤ i ∧ i ≤ r.endLine ∧
        isSourceLine ((splitLines content).getD i []) = true ∧
        (∀ j, r.startLine ≤ j → j < i →
          isSourceLine ((splitLines content).getD j []) = false) ∧
        (redirectStep (some r) m st).lines.getD i [] =
          leadingWs ((splitLines content).getD i []) ++ "source: ".toList ++ targetSource m ∧
        leadingWs ((redirectStep (some r) m st).lines.getD i []) =
          leadingWs ((splitLines content).getD i []) ∧
        (∀ j, j ≠ i → (redirectStep (some r) m st).lines.getD j [] = st.lines.getD j []) ∧
        (redirectStep (some r) m st).redirectCount = st.redirectCount + 1) := by
  have hinv := parseInv_loop (splitLines content) 0 initState parseInv_init
  have hsrc := sourceInv_parse content
  have hentries : (parseYamlLines content).entries =
      pushCurrent (parseLoop (splitLines content) 0 initState) := rfl
  obtain ⟨hmem, _⟩ := entryMapGet_mem _ _ _ hr
  rw [hentries] at hmem ⊢
  have hdisj : ∀ e ∈ pushCurrent (parseLoop (splitLines content) 0 initState), e ≠ r →
      e.endLine < r.startLine ∨ r.endLine < e.startLine :=
    fun e he hne => ranges_disjoint _ hinv.2.1 e r he hmem hne
  have hold := redirectStep_rewrites_first_source_line r m st
  have hlen : (redirectStep (some r) m st).lines.length = st.lines.length := by
    rcases hold with ⟨_, h⟩ | ⟨i, h⟩
    · rw [h]
    · exact h.2.2.2.2.2.2.2.2.2.1
  have hframe : ∀ e ∈ pushCurrent (parseLoop (splitLines content) 0 initState), e ≠ r →
      ∀ j, e.startLine ≤ j → j ≤ e.endLine →
      (redirectStep (some r) m st).lines.getD j [] = st.lines.getD j [] := by
    intro e he hne j hj1 hj2
    rcases hold with ⟨_, h⟩ | ⟨i, h⟩
    · rw [h]
    · apply h.2.2.2.2.2.2.2.2.1
      have := hdisj e he hne
      have h1 := h.1
      have h2 := h.2.1
      omega
  refine ⟨hmem, hdisj, hlen, hframe, ?_, ?_, ?_⟩
  · intro h
    simp [redirectStep, h]
  · intro s hs hne
    have hne' : r.source ≠ some (targetSource m) := by
      rw [hs]
      intro h
      exact hne (Option.some.inj h)
    rcases hold with ⟨h0 | h0, _⟩ | ⟨i, h⟩
    · exact absurd h0 hne'
    · obtain ⟨j, j1, j2, j3⟩ := hsrc r hmem s hs
      have := h0 j j1 j2
      rw [hst j j2] at this
      unfold isSourceLine at j3
      rw [j3] at this
      cases this
    · exact h.2.2.2.2.2.2.2.2.2.2.1
  · rcases hold with ⟨_, h⟩ | ⟨i, h1, h2, _, _, h5, h6, h7, h8, h9, _, h11, _, _⟩
    · exact Or.inl h
    · right
      rw [hst i h2] at h5 h7 h8
      refine ⟨i, h1, h2, h5, ?_, h7, h8, h9, h11⟩
      intro j hj1 hj2
      have := h6 j hj1 hj2
      rw [hst j (by omega)] at this
      exact this

/-- C6 witness: on the lines of `catalogQuotedSource` the redirect of `testing-patterns`
rewrites line 4, the source line of the record, which spans the lines 2 to 4. -/
theorem c6_redirect_rewrites_source_line_of_own_span_witness :
    entryMapGet (parseYamlLines catalogQuotedSource).entries testingMaster.replaces =
      some quotedAnchor ∧
    (redirectStep (some quotedAnchor) testingMaster
        { lines := splitLines catalogQuotedSource, addedCount := 0, updatedCount := 0,
          redirectCount := 0 }).lines.getD 4 [] =
      "    source: IDETOOLS/skills/testing-master".toList ∧
    (∀ s, quotedAnchor.source = some s → s ≠ targetSource testingMaster →
      (redirectStep (some quotedAnchor) testingMaster
        { lines := splitLines catalogQuotedSource, addedCount := 0, updatedCount := 0,
          redirectCount := 0 }).redirectCount = 0 + 1) :=
  ⟨by decide, by decide,
   (c6_redirect_rewrites_source_line_of_own_span testingMaster catalogQuotedSource quotedAnchor
      { lines := splitLines catalogQuotedSource, addedCount := 0, updatedCount := 0,
        redirectCount := 0 }
      (by decide) (fun _ _ => rfl)).2.2.2.2.2.1⟩

/-- C15 (the code departs from the claim): in `catalogBannerAfterRecord` the record `alpha`
(line 1, indentation 2) is open when the loop reaches line 3, the comment
`  # --- godmodedev-new (0) ---` of indentation 2, which is no record start.  The line does
not close the record: it is taken by the continuation branch, which stands before the
comment branch and has no indentation test, so it is pushed into the lines of `alpha` and
the record ends at line 3. -/
theorem c15_indented_comment_is_collected :
    (splitLines catalogBannerAfterRecord).getD 3 [] = "  # --- godmodedev-new (0) ---".toList ∧
    (leadingWs "  # --- godmodedev-new (0) ---".toList).length = 2 ∧
    startsWith (trim "  # --- godmodedev-new (0) ---".toList) "- name:".toList = false ∧
    startsWith (trim "  # --- godmodedev-new (0) ---".toList) "#".toList = true ∧
    (parseLoop ((splitLines catalogBannerAfterRecord).take 3) 0 initState).currentEntry.map
        (fun e => (e.name, e.indent, e.endLine)) = some ("alpha".toList, 2, 2) ∧
    (parseLoop ((splitLines catalogBannerAfterRecord).take 4) 0 initState).currentEntry.map
        (fun e => (e.name, e.endLine, e.lines)) =
      some ("alpha".toList, 3,
        ["  - name: alpha".toList, "    type: skill".toList,
         "  # --- godmodedev-new (0) ---".toList]) ∧
    (parseYamlLines catalogBannerAfterRecord).entries.map
        (fun e => (e.name, e.startLine, e.endLine)) =
      [("alpha".toList, 1, 3), ("beta".toList, 4, 5)] := by
  decide

/-- C16 (the code departs from the claim): in `catalogQuotedType` the line `type: "skill"`
gives the type `"skill"` with its quote characters, while the line `source: "skills/alpha"`
of the same record gives the source `skills/alpha` without them.  The count of entries of
type `skill` then misses the record: the header is written as `total_skills: 1` for a text
with two skill records. -/
theorem c16_quoted_type_keeps_its_quotes :
    (parseYamlLines catalogQuotedType).entries.map (fun e => (e.name, e.type, e.source)) =
      [ ("alpha".toList, some "\"skill\"".toList, some "skills/alpha".toList),
        ("beta".toList, some "skill".toList, none) ] ∧
    (parseYamlLines catalogQuotedType).entries.map (fun e => e.type) ≠
      [some "skill".toList, some "skill".toList] ∧
    splitLines (main catalogQuotedType) =
      [ "total_skills: 1".toList, "skills:".toList, "  - name: alpha".toList,
        "    type: \"skill\"".toList, "    source: \"skills/alpha\"".toList,
        "  - name: beta".toList, "    type: skill".toList ] := by
  decide

end AddMasters

namespace Dedup

/-- C2 (the code departs from the claim): on `catalogLastSkillDuplicate` the record
`tdd-workflow` (lines 7 to 9) is marked for removal, and the rebuild loop also drops the
lines 10 to 12 that follow its span: the blank line, the banner `# AGENTS` and the
top-level key `agents:`. -/
theorem c2_removal_drops_lines_after_the_record :
    (runWith CLUSTERS catalogLastSkillDuplicate).toRemove = ["tdd-workflow".toList] ∧
    (splitLines catalogLastSkillDuplicate).drop 10 =
      [ "".toList, "# AGENTS".toList, "agents:".toList,
        "  - name: agent-one".toList, "    type: agent".toList ] ∧
    splitLines (deduplicateIndex catalogLastSkillDuplicate) =
      [ "total_skills: 2".toList,
        "total_agents: 0".toList,
        "# SKILLS".toList,
        "skills:".toList,
        "  - name: testing-patterns".toList,
        "    type: skill".toList,
        "    source: IDETOOLS/skills/testing-patterns".toList,
        "  - name: agent-one".toList,
        "    type: agent".toList ] := by
  decide

/-- C4 (the code departs from the claim): on `catalogAgentsFirst` nothing is removed and the
entry scan classifies one agent and one skill in the output, yet the output says
`total_agents: 2`, because the counting loop keeps `inAgents` set when it reaches
`# SKILLS`.  On `catalogLastSkillDuplicate` the input counters are accurate (2 skills,
1 agent) and one skill is removed, yet the output says `total_skills: 2` and
`total_agents: 0`. -/
theorem c4_counters_differ_from_entry_scan :
    (runWith CLUSTERS catalogAgentsFirst).toRemove = [] ∧
    (splitLines (deduplicateIndex catalogAgentsFirst)).take 2 =
      [ "total_skills: 1".toList, "total_agents: 2".toList ] ∧
    (scanEntries (splitLines (deduplicateIndex catalogAgentsFirst)) 0 none []).map
        (fun e => (e.name, e.type)) =
      [ ("agent-one".toList, some "agent".toList),
        ("testing-patterns".toList, some "skill".toList) ] ∧
    (runWith CLUSTERS catalogLastSkillDuplicate).allEntries.map (fun e => (e.name, e.type)) =
      [ ("testing-patterns".toList, some "skill".toList),
        ("tdd-workflow".toList, some "skill".toList),
        ("agent-one".toList, some "agent".toList) ] ∧
    (splitLines (deduplicateIndex catalogLastSkillDuplicate)).take 2 =
      [ "total_skills: 2".toList, "total_agents: 0".toList ] := by
  decide

theorem bestOf_mem (rest : List Entry) : ∀ first : Entry, bestOf first rest ∈ first :: rest := by
  induction rest with
  | nil => intro first; simp [bestOf]
  | cons e rest ih =>
    intro first
    simp only [bestOf, List.foldl_cons]
    split_ifs
    · have := ih e
      simp only [bestOf] at this
      exact List.mem_cons_of_mem _ this
    · have := ih first
      simp only [bestOf] at this
      rcases List.mem_cons.1 this with h | h
      · rw [h]; simp
      · exact List.mem_cons_of_mem _ (List.mem_cons_of_mem _ h)

theorem bestOf_ge_first (rest : List Entry) :
    ∀ first : Entry, jsLength first.description ≤ jsLength (bestOf first rest).description := by
  induction rest with
  | nil => intro first; simp [bestOf]
  | cons e rest ih =>
    intro first
    simp only [bestOf, List.foldl_cons]
    split_ifs with h
    · have := ih e
      simp only [bestOf] at this
      omega
    · exact ih first

theorem bestOf_longest (rest : List Entry) :
    ∀ first : Entry, ∀ x ∈ first :: rest,
      jsLength x.description ≤ jsLength (bestOf first rest).description := by
  induction rest with
  | nil => intro first x hx; simp at hx; simp [bestOf, hx]
  | cons e rest ih =>
    intro first x hx
    have hstep : bestOf first (e :: rest) =
        bestOf (if jsLength first.description < jsLength e.description then e else first) rest := by
      simp [bestOf]
    rw [hstep]
    rcases List.mem_cons.1 hx with h | h
    · subst h
      split_ifs with hlt
      · have := bestOf_ge_first rest e
        omega
      · exact bestOf_ge_first rest x
    · rcases List.mem_cons.1 h with h2 | h2
      · subst h2
        split_ifs with hlt
        · exact bestOf_ge_first rest x
        · have := bestOf_ge_first rest first
          omega
      · exact ih _ x (List.mem_cons_of_mem _ h2)

theorem map_name_mapSet (acc : List Entry) (e : Entry) :
    (mapSet acc e).map (fun x => x.name) =
      if e.name ∈ acc.map (fun x => x.name) then acc.map (fun x => x.name)
      else acc.map (fun x => x.name) ++ [e.name] := by
  induction acc with
  | nil => simp [mapSet]
  | cons x xs ih =>
    by_cases hx : x.name = e.name
    · simp [mapSet, hx]
    · have hx' : ¬ e.name = x.name := fun h => hx h.symm
      simp only [mapSet, hx, if_false, List.map_cons, ih, List.mem_cons, hx', false_or]
      split_ifs <;> simp

theorem nodup_mapSet (acc : List Entry) (e : Entry)
    (h : (acc.map (fun x => x.name)).Nodup) : ((mapSet acc e).map (fun x => x.name)).Nodup := by
  rw [map_name_mapSet]
  split_ifs with hm
  · exact h
  · exact List.Nodup.append h (List.nodup_singleton _) (by simpa using hm)

theorem nodup_scanEntries (ls : List Str) :
    ∀ (i : Nat) (cur : Option Str) (acc : List Entry),
      (acc.map (fun x => x.name)).Nodup →
      ((scanEntries ls i cur acc).map (fun x => x.name)).Nodup := by
  induction ls with
  | nil => intro i cur acc h; simpa [scanEntries] using h
  | cons l ls ih =>
    intro i cur acc h
    simp only [scanEntries]
    apply ih
    split
    · exact nodup_mapSet _ _ h
    · exact h

theorem mem_foldl_setAdd (names : List Str) :
    ∀ (s : List Str) (n : Str), n ∈ s ∨ n ∈ names → n ∈ names.foldl setAdd s := by
  induction names with
  | nil => intro s n h; simpa using h
  | cons x xs ih =>
    intro s n h
    simp only [List.foldl_cons]
    apply ih
    rcases h with h | h
    · left
      unfold setAdd
      split_ifs
      · exact h
      · exact List.mem_append_left _ h
    · rcases List.mem_cons.1 h with h2 | h2
      · left
        subst h2
        unfold setAdd
        split_ifs with hm
        · exact hm
        · simp
      · right; exact h2

theorem foldl_clusterStep_mono (allEntries : List Entry) (clusters : List (Str × Cluster)) :
    ∀ (acc : List Str × List (Str × ClusterResult)),
      (∀ n ∈ acc.1, n ∈ (clusters.foldl (clusterStep allEntries) acc).1) ∧
      (∀ r ∈ acc.2, r ∈ (clusters.foldl (clusterStep allEntries) acc).2) := by
  induction clusters with
  | nil => intro acc; simp
  | cons c cs ih =>
    intro acc
    simp only [List.foldl_cons]
    obtain ⟨h1, h2⟩ := ih (clusterStep allEntries acc c)
    constructor
    · intro n hn
      exact h1 n (mem_foldl_setAdd _ _ _ (Or.inl hn))
    · intro r hr
      exact h2 r (by simp [clusterStep, hr])

theorem processClusters_spec (allEntries : List Entry) (clusters : List (Str × Cluster)) :
    ∀ (acc : List Str × List (Str × ClusterResult)) (cname : Str) (c : Cluster),
      (cname, c) ∈ clusters →
      (cname, (processCluster allEntries c).1) ∈ (clusters.foldl (clusterStep allEntries) acc).2 ∧
      ∀ n ∈ (processCluster allEntries c).2,
        n ∈ (clusters.foldl (clusterStep allEntries) acc).1 := by
  induction clusters with
  | nil => intro acc cname c h; simp at h
  | cons x xs ih =>
    intro acc cname c h
    simp only [List.foldl_cons]
    rcases List.mem_cons.1 h with h1 | h1
    · obtain ⟨m1, m2⟩ := foldl_clusterStep_mono allEntries xs (clusterStep allEntries acc x)
      subst h1
      constructor
      · exact m2 _ (by simp [clusterStep])
      · intro n hn
        exact m1 n (mem_foldl_setAdd _ _ _ (Or.inr hn))
    · exact ih _ cname c h1

theorem processCluster_fallback (allEntries : List Entry) (c : Cluster)
    (hno : ∀ e ∈ clusterMatches allEntries c, e.name ≠ c.keep) :
    processCluster allEntries c =
      match (clusterMatches allEntries c).filter (fun e => isIdetoolsSource e.source) with
      | first :: rest =>
        ({ kept := some (bestOf first rest).name,
           removed := ((clusterMatches allEntries c).filter
             (fun e => e.name ≠ (bestOf first rest).name)).map (fun e => e.name),
           count := (clusterMatches allEntries c).length },
         ((clusterMatches allEntries c).filter
             (fun e => e.name ≠ (bestOf first rest).name)).map (fun e => e.name))
      | [] =>
        if (clusterMatches allEntries c).length = 0 then
          ({ kept := none, removed := [], count := 0 }, [])
        else ({ kept := none, removed := [], count := (clusterMatches allEntries c).length }, []) := by
  have hfind : (clusterMatches allEntries c).find? (fun e => e.name = c.keep) = none := by
    rw [List.find?_eq_none]
    intro e he
    simpa using hno e he
  unfold processCluster
  simp only [hfind]
  split_ifs with h0
  · have : clusterMatches allEntries c = [] := List.length_eq_zero.1 h0
    simp [this]
  · rfl

/-- C10: for a cluster of the table whose matches contain no record named as its keeper,
a record is kept exactly when some match has a source starting with `IDETOOLS/`; the record
kept is then such a match, its description is at least as long as that of every match with
an `IDETOOLS/` source, every other match of the cluster is in the cluster's `removed` list
and in `toRemove`, and the kept record is not in the cluster's `removed` list. -/
theorem c10_fallback_keeps_longest_idetools (clusters : List (Str × Cluster)) (content : Str)
    (cname : Str) (c : Cluster) (hmem : (cname, c) ∈ clusters)
    (hno : ∀ e ∈ clusterMatches (runWith clusters content).allEntries c, e.name ≠ c.keep) :
    (((processCluster (runWith clusters content).allEntries c).1.kept).isSome = true ↔
      ∃ e ∈ clusterMatches (runWith clusters content).allEntries c,
        isIdetoolsSource e.source = true) ∧
    (cname, (processCluster (runWith clusters content).allEntries c).1) ∈
      (runWith clusters content).clusterResults ∧
    ∀ k, (processCluster (runWith clusters content).allEntries c).1.kept = some k →
      ∃ best ∈ clusterMatches (runWith clusters content).allEntries c,
        best.name = k ∧ isIdetoolsSource best.source = true ∧
        (∀ e ∈ clusterMatches (runWith clusters content).allEntries c,
          isIdetoolsSource e.source = true →
          jsLength e.description ≤ jsLength best.description) ∧
        (∀ e ∈ clusterMatches (runWith clusters content).allEntries c, e ≠ best →
          e.name ∈ (processCluster (runWith clusters content).allEntries c).1.removed ∧
          e.name ∈ (runWith clusters content).toRemove) ∧
        k ∉ (processCluster (runWith clusters content).allEntries c).1.removed := by
  have hall : (runWith clusters content).allEntries =
      scanEntries (splitLines content) 0 none [] := rfl
  have hnodup : ((runWith clusters content).allEntries.map (fun x => x.name)).Nodup := by
    rw [hall]; exact nodup_scanEntries _ _ _ _ (by simp)
  obtain ⟨hres, hrem⟩ := processClusters_spec (runWith clusters content).allEntries clusters
    ([], []) cname c hmem
  have hres' : (cname, (processCluster (runWith clusters content).allEntries c).1) ∈
      (runWith clusters content).clusterResults := hres
  have hrem' : ∀ n ∈ (processCluster (runWith clusters content).allEntries c).2,
      n ∈ (runWith clusters content).toRemove := hrem
  generalize (runWith clusters content).allEntries = all at *
  generalize (runWith clusters content).toRemove = toRemove at *
  generalize (runWith clusters content).clusterResults = results at *
  have hpc := processCluster_fallback all c hno
  have hsub : ∀ e ∈ clusterMatches all c, e ∈ all := fun e he => (List.mem_filter.1 he).1
  cases hids : (clusterMatches all c).filter (fun e => isIdetoolsSource e.source) with
  | nil =>
    rw [hids] at hpc
    have hk : (processCluster all c).1.kept = none := by
      rw [hpc]; split_ifs <;> rfl
    refine ⟨?_, hres', ?_⟩
    · rw [hk]
      simp only [Option.isSome_none, Bool.false_eq_true, false_iff, not_exists, not_and]
      intro e he hi
      have : e ∈ (clusterMatches all c).filter (fun e => isIdetoolsSource e.source) :=
        List.mem_filter.2 ⟨he, hi⟩
      rw [hids] at this
      simp at this
    · intro k hk'
      rw [hk] at hk'
      cases hk'
  | cons first rest =>
    rw [hids] at hpc
    simp only at hpc
    have hbmem : bestOf first rest ∈
        (clusterMatches all c).filter (fun e => isIdetoolsSource e.source) := by
      rw [hids]; exact bestOf_mem rest first
    obtain ⟨hb1, hb2⟩ := List.mem_filter.1 hbmem
    refine ⟨?_, hres', ?_⟩
    · rw [hpc]
      simp only [Option.isSome_some, true_iff]
      exact ⟨_, hb1, hb2⟩
    · intro k hk
      rw [hpc] at hk
      simp only [Option.some.injEq] at hk
      refine ⟨bestOf first rest, hb1, hk, hb2, ?_, ?_, ?_⟩
      · intro e he hi
        apply bestOf_longest rest first e
        rw [← hids]
        exact List.mem_filter.2 ⟨he, hi⟩
      · intro e he hne
        have hname : e.name ≠ (bestOf first rest).name := by
          intro heq
          exact hne (List.inj_on_of_nodup_map hnodup (hsub e he) (hsub _ hb1) heq)
        have hin : e.name ∈ ((clusterMatches all c).filter
            (fun e => e.name ≠ (bestOf first rest).name)).map (fun e => e.name) := by
          apply List.mem_map.2
          exact ⟨e, List.mem_filter.2 ⟨he, by simpa using hname⟩, rfl⟩
        constructor
        · rw [hpc]; exact hin
        · apply hrem'
          rw [hpc]; exact hin
      · rw [hpc]
        simp only [List.mem_map, List.mem_filter, not_exists, not_and, and_imp]
        intro x _ hx hxk
        rw [← hk] at hxk
        simp at hx
        exact hx hxk

/-- C10 witness: on `catalogThreeTdd` the cluster `testing-master` has three matches, none
named `testing-patterns`, all with an `IDETOOLS/` source and with descriptions of length
10, 40 and 25; the record of length 40, `tdd-workflow`, is kept. -/
theorem c10_fallback_keeps_longest_idetools_witness :
    ("testing-master".toList, testingCluster) ∈ CLUSTERS ∧
    (∀ e ∈ clusterMatches (runWith CLUSTERS catalogThreeTdd).allEntries testingCluster,
      e.name ≠ testingCluster.keep) ∧
    (clusterMatches (runWith CLUSTERS catalogThreeTdd).allEntries testingCluster).map
        (fun e => (e.name, jsLength e.description)) =
      [("tdd-basics".toList, 10), ("tdd-workflow".toList, 40), ("tdd-advanced".toList, 25)] ∧
    (processCluster (runWith CLUSTERS catalogThreeTdd).allEntries testingCluster).1.kept =
      some "tdd-workflow".toList ∧
    ((((processCluster (runWith CLUSTERS catalogThreeTdd).allEntries testingCluster).1.kept).isSome
        = true ↔
      ∃ e ∈ clusterMatches (runWith CLUSTERS catalogThreeTdd).allEntries testingCluster,
        isIdetoolsSource e.source = true) ∧
    ("testing-master".toList,
        (processCluster (runWith CLUSTERS catalogThreeTdd).allEntries testingCluster).1) ∈
      (runWith CLUSTERS catalogThreeTdd).clusterResults) :=
  ⟨by decide, by decide, by decide, by decide,
   (c10_fallback_keeps_longest_idetools CLUSTERS catalogThreeTdd "testing-master".toList
      testingCluster (by decide) (by decide)).1,
   (c10_fallback_keeps_longest_idetools CLUSTERS catalogThreeTdd "testing-master".toList
      testingCluster (by decide) (by decide)).2.1⟩

theorem foldl_clusterStep_fst (allEntries : List Entry) (clusters : List (Str × Cluster)) :
    ∀ acc : List Str × List (Str × ClusterResult),
      (clusters.foldl (clusterStep allEntries) acc).1 =
        clusters.foldl (fun s c => (processCluster allEntries c.2).2.foldl setAdd s) acc.1 := by
  induction clusters with
  | nil => intro acc; rfl
  | cons c cs ih => intro acc; simp only [List.foldl_cons]; rw [ih]; rfl

theorem isIdetoolsSource_eq (src : Option Str) :
    isIdetoolsSource src = src.any (fun s => startsWith s "IDETOOLS/".toList) := by
  cases src with
  | none => rfl
  | some s =>
    cases s with
    | nil => rfl
    | cons a t => simp [isIdetoolsSource]

theorem mem_foldl_setAdd_iff (names : List Str) :
    ∀ (s : List Str) (n : Str), n ∈ names.foldl setAdd s ↔ n ∈ s ∨ n ∈ names := by
  induction names with
  | nil => intro s n; simp
  | cons x xs ih =>
    intro s n
    simp only [List.foldl_cons]
    rw [ih]
    have hx : n ∈ setAdd s x ↔ n ∈ s ∨ n = x := by
      unfold setAdd
      split_ifs with hm
      · constructor
        · exact Or.inl
        · rintro (h | h)
          · exact h
          · rw [h]; exact hm
      · simp
    rw [hx, List.mem_cons]
    tauto

/-- C11: a cluster that has matches, none of them named as its keeper and none with a source
that starts with `IDETOOLS/`, passes no name to `toRemove.add`: the set `toRemove` of the run
is the one the table without this cluster gives.  The result recorded for the cluster is
`kept: null`, `removed: []` and `count` the number of its matches. -/
theorem c11_no_keeper_no_idetools_is_reported_noop (content : Str)
    (before after : List (Str × Cluster)) (cname : Str) (c : Cluster)
    (hmatches : clusterMatches (scanEntries (splitLines content) 0 none []) c ≠ [])
    (hno : ∀ e ∈ clusterMatches (scanEntries (splitLines content) 0 none []) c, e.name ≠ c.keep)
    (hsrc : ∀ e ∈ clusterMatches (scanEntries (splitLines content) 0 none []) c,
      e.source.any (fun s => startsWith s "IDETOOLS/".toList) = false) :
    processCluster (runWith (before ++ (cname, c) :: after) content).allEntries c =
      ({ kept := none, removed := [],
         count := (clusterMatches (scanEntries (splitLines content) 0 none []) c).length }, []) ∧
    (cname, { kept := none, removed := [],
              count := (clusterMatches (scanEntries (splitLines content) 0 none []) c).length }) ∈
      (runWith (before ++ (cname, c) :: after) content).clusterResults ∧
    (runWith (before ++ (cname, c) :: after) content).toRemove =
      (runWith (before ++ after) content).toRemove := by
  have hall : ∀ cl, (runWith cl content).allEntries = scanEntries (splitLines content) 0 none [] :=
    fun _ => rfl
  have hres : ∀ cl, (runWith cl content).clusterResults =
      (processClusters (scanEntries (splitLines content) 0 none []) cl).2 := fun _ => rfl
  have htr : ∀ cl, (runWith cl content).toRemove =
      (processClusters (scanEntries (splitLines content) 0 none []) cl).1 := fun _ => rfl
  rw [hall, hres, htr, htr]
  generalize scanEntries (splitLines content) 0 none [] = all at *
  have hpc := processCluster_fallback all c hno
  have hids : (clusterMatches all c).filter (fun e => isIdetoolsSource e.source) = [] := by
    rw [List.filter_eq_nil_iff]
    intro e he
    rw [isIdetoolsSource_eq, hsrc e he]
    simp
  have hlen : ¬ (clusterMatches all c).length = 0 := fun h => hmatches (List.length_eq_zero.1 h)
  rw [hids] at hpc
  simp only [if_neg hlen] at hpc
  refine ⟨hpc, ?_, ?_⟩
  · have := (processClusters_spec all (before ++ (cname, c) :: after) ([], []) cname c
      (by simp)).1
    rw [hpc] at this
    exact this
  · unfold processClusters
    rw [foldl_clusterStep_fst, foldl_clusterStep_fst, List.foldl_append, List.foldl_append,
      List.foldl_cons, hpc]
    rfl

/-- C11 witness: on `catalogNoIdetools` the cluster `testing-master` has two matches, no record
is named `testing-patterns` and no source is under `IDETOOLS/`. -/
theorem c11_no_keeper_no_idetools_is_reported_noop_witness :
    (clusterMatches (scanEntries (splitLines catalogNoIdetools) 0 none []) testingCluster).map
        (fun e => e.name) = ["tdd-basics".toList, "tdd-workflow".toList] ∧
    ([] ++ ("testing-master".toList, testingCluster) :: CLUSTERS.tail) = CLUSTERS ∧
    (processCluster
        (runWith ([] ++ ("testing-master".toList, testingCluster) :: CLUSTERS.tail)
          catalogNoIdetools).allEntries testingCluster =
      (ClusterResult.mk none []
        (clusterMatches (scanEntries (splitLines catalogNoIdetools) 0 none [])
          testingCluster).length, []) ∧
    ("testing-master".toList, ClusterResult.mk none []
        (clusterMatches (scanEntries (splitLines catalogNoIdetools) 0 none [])
          testingCluster).length) ∈
      (runWith ([] ++ ("testing-master".toList, testingCluster) :: CLUSTERS.tail)
        catalogNoIdetools).clusterResults ∧
    (runWith ([] ++ ("testing-master".toList, testingCluster) :: CLUSTERS.tail)
        catalogNoIdetools).toRemove =
      (runWith ([] ++ CLUSTERS.tail) catalogNoIdetools).toRemove) :=
  ⟨by decide, by decide,
   c11_no_keeper_no_idetools_is_reported_noop catalogNoIdetools [] CLUSTERS.tail
     "testing-master".toList testingCluster (by decide) (by decide) (by decide)⟩

theorem processCluster_keeper (allEntries : List Entry) (c : Cluster) (k : Entry)
    (hk : k ∈ clusterMatches allEntries c) (hname : k.name = c.keep) :
    processCluster allEntries c =
      ({ kept := some c.keep,
         removed := ((clusterMatches allEntries c).filter (fun e => e.name ≠ c.keep)).map
           (fun e => e.name),
         count := (clusterMatches allEntries c).length },
       ((clusterMatches allEntries c).filter (fun e => e.name ≠ c.keep)).map (fun e => e.name)) := by
  have hlen : ¬ (clusterMatches allEntries c).length = 0 := by
    intro h
    rw [List.length_eq_zero.1 h] at hk
    simp at hk
  cases hf : (clusterMatches allEntries c).find? (fun e => decide (e.name = c.keep)) with
  | none =>
    rw [List.find?_eq_none] at hf
    have := hf k hk
    simp [hname] at this
  | some keeper =>
    have hkn : keeper.name = c.keep := by
      have := List.find?_some hf
      simpa using this
    unfold processCluster
    simp only [if_neg hlen, hf, hkn]

/-- C12: when the matches of a cluster include the record named as its keeper, the names the
cluster passes to `toRemove.add` are exactly the names of its other matches: a name is passed
if and only if it is the name of a match other than the keeper record, the keeper name is not
passed, the set after the cluster holds what it held before and these names, and all of them
are in `toRemove` at the end of the run.  The result recorded for the cluster keeps the
keeper and lists the same names as removed. -/
theorem c12_keeper_present_removes_exactly_the_others (clusters : List (Str × Cluster))
    (content : Str) (cname : Str) (c : Cluster) (k : Entry)
    (hmem : (cname, c) ∈ clusters)
    (hk : k ∈ clusterMatches (runWith clusters content).allEntries c)
    (hname : k.name = c.keep) :
    (∀ n, n ∈ (processCluster (runWith clusters content).allEntries c).2 ↔
      ∃ e ∈ clusterMatches (runWith clusters content).allEntries c, e ≠ k ∧ e.name = n) ∧
    c.keep ∉ (processCluster (runWith clusters content).allEntries c).2 ∧
    (∀ (acc : List Str × List (Str × ClusterResult)) (n : Str),
      n ∈ (clusterStep (runWith clusters content).allEntries acc (cname, c)).1 ↔
        n ∈ acc.1 ∨
        ∃ e ∈ clusterMatches (runWith clusters content).allEntries c, e ≠ k ∧ e.name = n) ∧
    (∀ e ∈ clusterMatches (runWith clusters content).allEntries c, e ≠ k →
      e.name ∈ (runWith clusters content).toRemove) ∧
    (processCluster (runWith clusters content).allEntries c).1 =
      { kept := some c.keep,
        removed := (processCluster (runWith clusters content).allEntries c).2,
        count := (clusterMatches (runWith clusters content).allEntries c).length } ∧
    (cname, (processCluster (runWith clusters content).allEntries c).1) ∈
      (runWith clusters content).clusterResults := by
  have hall : (runWith clusters content).allEntries =
      scanEntries (splitLines content) 0 none [] := rfl
  have hnodup : ((runWith clusters content).allEntries.map (fun x => x.name)).Nodup := by
    rw [hall]; exact nodup_scanEntries _ _ _ _ (by simp)
  obtain ⟨hres, hrem⟩ := processClusters_spec (runWith clusters content).allEntries clusters
    ([], []) cname c hmem
  have hres' : (cname, (processCluster (runWith clusters content).allEntries c).1) ∈
      (runWith clusters content).clusterResults := hres
  have hrem' : ∀ n ∈ (processCluster (runWith clusters content).allEntries c).2,
      n ∈ (runWith clusters content).toRemove := hrem
  generalize (runWith clusters content).allEntries = all at *
  generalize (runWith clusters content).toRemove = toRemove at *
  generalize (runWith clusters content).clusterResults = results at *
  have hpc := processCluster_keeper all c k hk hname
  have hsub : ∀ e ∈ clusterMatches all c, e ∈ all := fun e he => (List.mem_filter.1 he).1
  have hiff : ∀ n, n ∈ (processCluster all c).2 ↔
      ∃ e ∈ clusterMatches all c, e ≠ k ∧ e.name = n := by
    intro n
    rw [hpc]
    simp only [List.mem_map, List.mem_filter, decide_eq_true_eq]
    constructor
    · rintro ⟨e, ⟨he, hne⟩, rfl⟩
      refine ⟨e, he, ?_, rfl⟩
      intro heq
      rw [heq] at hne
      exact hne hname
    · rintro ⟨e, he, hne, rfl⟩
      refine ⟨e, ⟨he, ?_⟩, rfl⟩
      intro heq
      exact hne (List.inj_on_of_nodup_map hnodup (hsub e he) (hsub k hk) (heq.trans hname.symm))
  refine ⟨hiff, ?_, ?_, ?_, ?_, hres'⟩
  · rw [hiff]
    rintro ⟨e, he, hne, hen⟩
    exact hne (List.inj_on_of_nodup_map hnodup (hsub e he) (hsub k hk) (hen.trans hname.symm))
  · intro acc n
    show n ∈ (processCluster all c).2.foldl setAdd acc.1 ↔ _
    rw [mem_foldl_setAdd_iff, hiff]
  · intro e he hne
    exact hrem' _ ((hiff _).2 ⟨e, he, hne, rfl⟩)
  · rw [hpc]

/-- C12 witness: on `catalogLastSkillDuplicate` the cluster `testing-master` matches its keeper
`testing-patterns` and the record `tdd-workflow`; the only name it passes on is
`tdd-workflow`. -/
theorem c12_keeper_present_removes_exactly_the_others_witness :
    (clusterMatches (runWith CLUSTERS catalogLastSkillDuplicate).allEntries testingCluster).map
        (fun e => e.name) = ["testing-patterns".toList, "tdd-workflow".toList] ∧
    keeperEntry ∈ clusterMatches (runWith CLUSTERS catalogLastSkillDuplicate).allEntries
      testingCluster ∧
    keeperEntry.name = testingCluster.keep ∧
    (processCluster (runWith CLUSTERS catalogLastSkillDuplicate).allEntries testingCluster).2 =
      ["tdd-workflow".toList] ∧
    (∀ n, n ∈ (processCluster (runWith CLUSTERS catalogLastSkillDuplicate).allEntries
          testingCluster).2 ↔
      ∃ e ∈ clusterMatches (runWith CLUSTERS catalogLastSkillDuplicate).allEntries
          testingCluster, e ≠ keeperEntry ∧ e.name = n) :=
  ⟨by decide, by decide, by decide, by decide,
   (c12_keeper_present_removes_exactly_the_others CLUSTERS catalogLastSkillDuplicate
      "testing-master".toList testingCluster keeperEntry (by decide) (by decide)
      (by decide)).1⟩

/-- C13 (counterexample): on `catalogStaleCounter` no record is selected for removal, and the
text written differs from the text read: the line `total_skills: 7` is written as
`total_skills: 1`. -/
theorem c13_zero_removals_rewrite_a_stale_counter :
    (runWith CLUSTERS catalogStaleCounter).toRemove = [] ∧
    deduplicateIndex catalogStaleCounter =
      "total_skills: 1\n# SKILLS\nskills:\n  - name: alpha\n    type: skill\n".toList ∧
    deduplicateIndex catalogStaleCounter ≠ catalogStaleCounter := by
  decide

theorem removeLoop_nil (ls : List Str) :
    ∀ acc : List Str, removeLoop [] ls false acc = acc ++ ls := by
  induction ls with
  | nil => intro acc; simp [removeLoop]
  | cons l ls ih =>
    intro acc
    have hm : markedForRemoval [] l = false := by
      unfold markedForRemoval
      split <;> simp
    rw [removeLoop, hm]
    simp only [Bool.false_eq_true, if_false]
    rw [ih]
    simp

theorem map_counterLine_id (a b : Nat) (ls : List Str)
    (h : ∀ l ∈ ls, counterLine a b l = l) : ls.map (counterLine a b) = ls := by
  induction ls with
  | nil => rfl
  | cons l ls ih =>
    rw [List.map_cons, h l (List.mem_cons_self _ _),
      ih (fun x hx => h x (List.mem_cons_of_mem _ hx))]

/-- C13 (amended): when no record is selected for removal, the rebuild keeps every line, and
the lines written are the lines read with each line that starts with `total_skills:` or
`total_agents:` replaced by the key, one space and the count of the counting loop; every
other line is written as read.  The text written is therefore the text read whenever each
such counter line already reads that way, in particular when there is none. -/
theorem c13_zero_removals_change_only_counter_lines (clusters : List (Str × Cluster))
    (content : Str) (hnone : (runWith clusters content).toRemove = []) :
    (runWith clusters content).newLines = splitLines content ∧
    (runWith clusters content).finalLines =
      (splitLines content).map
        (counterLine (countEntries (splitLines content)).newSkillCount
          (countEntries (splitLines content)).newAgentCount) ∧
    ((∀ l ∈ splitLines content,
        counterLine (countEntries (splitLines content)).newSkillCount
          (countEntries (splitLines content)).newAgentCount l = l) →
      joinLines (runWith clusters content).finalLines = content) := by
  have hnew : (runWith clusters content).newLines = splitLines content := by
    show removeLoop (runWith clusters content).toRemove (splitLines content) false [] = _
    rw [hnone, removeLoop_nil]
    rfl
  have hfin : (runWith clusters content).finalLines =
      (runWith clusters content).newLines.map
        (counterLine (countEntries (runWith clusters content).newLines).newSkillCount
          (countEntries (runWith clusters content).newLines).newAgentCount) := rfl
  rw [hnew] at hfin
  refine ⟨hnew, hfin, ?_⟩
  intro h
  rw [hfin, map_counterLine_id _ _ _ h, joinLines_splitLines]

/-- C13 witness: on `catalogNoIdetools` no record is selected for removal, both counter lines
already read as the counting loop would write them, and the text written is the text read. -/
theorem c13_zero_removals_change_only_counter_lines_witness :
    (runWith CLUSTERS catalogNoIdetools).toRemove = [] ∧
    (splitLines catalogNoIdetools).take 2 = ["total_skills: 2".toList, "total_agents: 0".toList] ∧
    deduplicateIndex catalogNoIdetools = catalogNoIdetools :=
  ⟨by decide, by decide,
   (c13_zero_removals_change_only_counter_lines CLUSTERS catalogNoIdetools (by decide)).2.2
     (by decide)⟩

/-- What a cluster records and passes on, in terms of its matches: `removed` is the list of
names passed on, every name passed on is the name of a match and differs from the name
kept, and the name kept is the name of a match. -/
theorem processCluster_names (allEntries : List Entry) (c : Cluster) :
    (processCluster allEntries c).1.removed = (processCluster allEntries c).2 ∧
    (∀ n ∈ (processCluster allEntries c).2,
      (∃ e ∈ clusterMatches allEntries c, e.name = n) ∧ n ≠ c.keep ∧
      (processCluster allEntries c).1.kept ≠ some n) ∧
    (∀ k, (processCluster allEntries c).1.kept = some k →
      ∃ e ∈ clusterMatches allEntries c, e.name = k) := by
  unfold processCluster
  simp only
  split_ifs with h0
  · exact ⟨rfl, by simp, by simp⟩
  · cases hf : (clusterMatches allEntries c).find? (fun e => decide (e.name = c.keep)) with
    | some keeper =>
      have hkn : keeper.name = c.keep := by
        have := List.find?_some hf
        simpa using this
      have hkm : keeper ∈ clusterMatches allEntries c := List.mem_of_find?_eq_some hf
      simp only
      refine ⟨trivial, ?_, ?_⟩
      · intro n hn
        simp only [List.mem_map, List.mem_filter, decide_eq_true_eq] at hn
        obtain ⟨e, ⟨he, hne⟩, rfl⟩ := hn
        refine ⟨⟨e, he, rfl⟩, by rw [← hkn]; exact hne, ?_⟩
        intro h
        simp only [Option.some.injEq] at h
        exact hne h.symm
      · intro k hk
        simp only [Option.some.injEq] at hk
        exact ⟨keeper, hkm, hk⟩
    | none =>
      have hno : ∀ e ∈ clusterMatches allEntries c, e.name ≠ c.keep := by
        intro e he
        have := (List.find?_eq_none.1 hf) e he
        simpa using this
      simp only
      cases hids : (clusterMatches allEntries c).filter (fun e => isIdetoolsSource e.source) with
      | nil => exact ⟨rfl, by simp, by simp⟩
      | cons first rest =>
        have hbmem : bestOf first rest ∈ clusterMatches allEntries c := by
          have : bestOf first rest ∈
              (clusterMatches allEntries c).filter (fun e => isIdetoolsSource e.source) := by
            rw [hids]; exact bestOf_mem rest first
          exact (List.mem_filter.1 this).1
        simp only
        refine ⟨trivial, ?_, ?_⟩
        · intro n hn
          simp only [List.mem_map, List.mem_filter, decide_eq_true_eq] at hn
          obtain ⟨e, ⟨he, hne⟩, rfl⟩ := hn
          refine ⟨⟨e, he, rfl⟩, hno e he, ?_⟩
          intro h
          simp only [Option.some.injEq] at h
          exact hne h.symm
        · intro k hk
          simp only [Option.some.injEq] at hk
          exact ⟨_, hbmem, hk⟩

/-- C25: for a cluster whose patterns that start with `^` are of literal shape, as all
patterns of the table are, a record whose name matches one of the exclude patterns of the
cluster (a substring match, or the regular-expression match when the pattern starts with
`^`) is not among the matches of that cluster; the cluster neither passes its name to
`toRemove.add` nor lists it as removed nor keeps it.  For such a cluster without an exclude
list no name is excluded: its matches are the entries of its type that match one of its
patterns. -/
theorem c25_excluded_record_is_no_match (allEntries : List Entry) (c : Cluster)
    (pats : List Str) (p name : Str)
    (_hlit : c.literal = true)
    (hex : c.exclude = some pats) (hp : p ∈ pats)
    (hmatch : (if startsWith p "^".toList then regexTest p name else includes name p) = true) :
    (∀ e ∈ clusterMatches allEntries c, e.name ≠ name) ∧
    name ∉ (processCluster allEntries c).2 ∧
    name ∉ (processCluster allEntries c).1.removed ∧
    (processCluster allEntries c).1.kept ≠ some name ∧
    ∀ c0 : Cluster, c0.literal = true → c0.exclude = none →
      (∀ n, shouldExclude n c0.exclude = false) ∧
      clusterMatches allEntries c0 =
        allEntries.filter (fun e => decide (e.type = some c0.type) &&
          c0.patterns.any (fun q => matchesPattern e.name q)) := by
  have hsx : shouldExclude name c.exclude = true := by
    rw [hex]
    unfold shouldExclude
    simp only [List.any_eq_true]
    exact ⟨p, hp, hmatch⟩
  have hnot : ∀ e ∈ clusterMatches allEntries c, e.name ≠ name := by
    intro e he heq
    have := (List.mem_filter.1 he).2
    rw [heq, hsx] at this
    simp at this
  obtain ⟨h1, h2, h3⟩ := processCluster_names allEntries c
  have hn2 : name ∉ (processCluster allEntries c).2 := by
    intro h
    obtain ⟨⟨e, he, hen⟩, _⟩ := h2 name h
    exact hnot e he hen
  refine ⟨hnot, hn2, by rw [h1]; exact hn2, ?_, ?_⟩
  · intro h
    obtain ⟨e, he, hen⟩ := h3 name h
    exact hnot e he hen
  · intro c0 _ h0
    refine ⟨fun n => by rw [h0]; rfl, ?_⟩
    unfold clusterMatches
    rw [h0]
    simp [shouldExclude]

/-- C25 witness: on `catalogExcluded` the name `moodle-api-integration` holds the exclude
pattern `moodle` of the cluster `api-master`; the cluster matches the other two records and
passes on `api-patterns` only. -/
theorem c25_excluded_record_is_no_match_witness :
    ("api-master".toList, apiCluster) ∈ CLUSTERS ∧
    apiCluster.literal = true ∧
    apiCluster.exclude = some ["moodle".toList] ∧
    (clusterMatches (runWith CLUSTERS catalogExcluded).allEntries apiCluster).map
        (fun e => e.name) = ["api-design-principles".toList, "api-patterns".toList] ∧
    (runWith CLUSTERS catalogExcluded).toRemove = ["api-patterns".toList] ∧
    (∀ e ∈ clusterMatches (runWith CLUSTERS catalogExcluded).allEntries apiCluster,
      e.name ≠ "moodle-api-integration".toList) :=
  ⟨by decide, by decide, by decide, by decide, by decide,
   (c25_excluded_record_is_no_match (runWith CLUSTERS catalogExcluded).allEntries apiCluster
      ["moodle".toList] "moodle".toList "moodle-api-integration".toList
      (by decide) (by decide) (by decide) (by decide)).1⟩

/-- C26 (counterexample): on `catalogSharedPattern` the cluster `python-master` has no keeper
and reports `python-performance` as kept, the cluster `performance-master` marks the same
record for removal, and the text written no longer holds it. -/
theorem c26_kept_record_removed_by_other_cluster :
    ((runWith CLUSTERS catalogSharedPattern).clusterResults.filter
        (fun r => r.2.count ≠ 0)) =
      [ ("python-master".toList,
          { kept := some "python-performance".toList, removed := [], count := 1 }),
        ("performance-master".toList,
          { kept := some "performance-analysis".toList,
            removed := ["python-performance".toList], count := 2 }) ] ∧
    (runWith CLUSTERS catalogSharedPattern).toRemove = ["python-performance".toList] ∧
    splitLines (deduplicateIndex catalogSharedPattern) =
      [ "total_skills: 1".toList, "total_agents: 0".toList, "# SKILLS".toList,
        "skills:".toList, "  - name: performance-analysis".toList,
        "    source: IDETOOLS/skills/performance-analysis".toList, "".toList ] := by
  decide

/-- No keeper name of the table passes the pattern and exclude tests of a cluster with a
different keeper. -/
theorem keepers_match_own_cluster_only :
    ∀ x ∈ CLUSTERS, ∀ y ∈ CLUSTERS,
      (y.2.patterns.any (fun p => matchesPattern x.2.keep p) &&
        !shouldExclude x.2.keep y.2.exclude) = true → x.2.keep = y.2.keep := by
  decide

theorem mem_toRemove_iff (allEntries : List Entry) (clusters : List (Str × Cluster)) (n : Str) :
    n ∈ (processClusters allEntries clusters).1 ↔
      ∃ c ∈ clusters, n ∈ (processCluster allEntries c.2).2 := by
  unfold processClusters
  rw [foldl_clusterStep_fst]
  suffices h : ∀ s : List Str,
      n ∈ clusters.foldl (fun s c => (processCluster allEntries c.2).2.foldl setAdd s) s ↔
        n ∈ s ∨ ∃ c ∈ clusters, n ∈ (processCluster allEntries c.2).2 by
    rw [h]
    simp only [List.not_mem_nil, false_or]
  induction clusters with
  | nil =>
    intro s
    simp only [List.foldl_nil, List.not_mem_nil, false_and, exists_false, or_false]
  | cons c cs ih =>
    intro s
    rw [List.foldl_cons, ih, mem_foldl_setAdd_iff]
    simp only [List.mem_cons, exists_eq_or_imp]
    tauto

theorem matchEntryStart_of_truthyName (l n : Str) (h : truthyName l = some n) :
    (matchEntryStart l).isSome = true := by
  unfold truthyName parseEntryName at h
  cases hm : matchEntryStart l with
  | none => rw [hm] at h; cases h
  | some r => rfl

/-- The rebuild loop keeps every line pushed so far and every record start whose name is not
in `toRemove`. -/
theorem removeLoop_keeps (toRemove : List Str) (ls : List Str) :
    ∀ (b : Bool) (acc : List Str),
      (∀ l ∈ acc, l ∈ removeLoop toRemove ls b acc) ∧
      ∀ l ∈ ls, ∀ n, truthyName l = some n → n ∉ toRemove →
        l ∈ removeLoop toRemove ls b acc := by
  induction ls with
  | nil => intro b acc; exact ⟨fun l hl => hl, fun l hl => by cases hl⟩
  | cons x xs ih =>
    intro b acc
    have hstep : ∃ b' acc', removeLoop toRemove (x :: xs) b acc = removeLoop toRemove xs b' acc' ∧
        (∀ l ∈ acc, l ∈ acc') ∧
        ∀ n, truthyName x = some n → n ∉ toRemove → x ∈ acc' := by
      rw [removeLoop]
      by_cases hm : markedForRemoval toRemove x = true
      · rw [if_pos hm]
        refine ⟨true, acc, rfl, fun l hl => hl, ?_⟩
        intro n hn hnot
        unfold markedForRemoval at hm
        rw [hn] at hm
        simp only [decide_eq_true_eq] at hm
        exact absurd hm hnot
      · rw [if_neg hm]
        by_cases hb : b = true
        · rw [if_pos hb]
          by_cases he : ((matchEntryStart x).isSome || isSectionMarker x) = true
          · rw [if_pos he]
            exact ⟨false, acc ++ [x], rfl, fun l hl => List.mem_append_left _ hl,
              fun _ _ _ => by simp⟩
          · rw [if_neg he]
            refine ⟨true, acc, rfl, fun l hl => hl, ?_⟩
            intro n hn _
            have := matchEntryStart_of_truthyName x n hn
            rw [this] at he
            simp at he
        · rw [if_neg hb]
          exact ⟨false, acc ++ [x], rfl, fun l hl => List.mem_append_left _ hl,
            fun _ _ _ => by simp⟩
    obtain ⟨b', acc', heq, hacc, hx⟩ := hstep
    rw [heq]
    obtain ⟨i1, i2⟩ := ih b' acc'
    refine ⟨fun l hl => i1 l (hacc l hl), ?_⟩
    intro l hl n hn hnot
    rcases List.mem_cons.1 hl with h | h
    · rw [h]; exact i1 x (hx n (by rw [← h]; exact hn) hnot)
    · exact i2 l h n hn hnot

theorem mem_mapSet (acc : List Entry) (e x : Entry) (h : x ∈ mapSet acc e) :
    x = e ∨ x ∈ acc := by
  induction acc with
  | nil => simp [mapSet] at h; exact Or.inl h
  | cons a as ih =>
    rw [mapSet] at h
    split_ifs at h
    · rcases List.mem_cons.1 h with h1 | h1
      · exact Or.inl h1
      · exact Or.inr (List.mem_cons_of_mem _ h1)
    · rcases List.mem_cons.1 h with h1 | h1
      · exact Or.inr (by rw [h1]; exact List.mem_cons_self _ _)
      · rcases ih h1 with h2 | h2
        · exact Or.inl h2
        · exact Or.inr (List.mem_cons_of_mem _ h2)

/-- Every entry of the scan bears the name read from one of the lines. -/
theorem scanEntries_from_line (ls : List Str) :
    ∀ (i : Nat) (cur : Option Str) (acc : List Entry),
      ∀ e ∈ scanEntries ls i cur acc, e ∈ acc ∨ ∃ l ∈ ls, truthyName l = some e.name := by
  induction ls with
  | nil => intro i cur acc e he; exact Or.inl he
  | cons l ls ih =>
    intro i cur acc e he
    rw [scanEntries] at he
    rcases ih _ _ _ e he with h | ⟨l', hl', hn⟩
    · cases ht : truthyName l with
      | none =>
        rw [ht] at h
        exact Or.inl h
      | some name =>
        rw [ht] at h
        rcases mem_mapSet _ _ _ h with h1 | h1
        · right
          exact ⟨l, List.mem_cons_self _ _, by rw [h1]; exact ht⟩
        · exact Or.inl h1
    · exact Or.inr ⟨l', List.mem_cons_of_mem _ hl', hn⟩

/-- Every name read from a line is the name of an entry of the scan. -/
theorem scanEntries_has_name (ls : List Str) :
    ∀ (i : Nat) (cur : Option Str) (acc : List Entry) (n : Str),
      (n ∈ acc.map (fun e => e.name) ∨ ∃ l ∈ ls, truthyName l = some n) →
      n ∈ (scanEntries ls i cur acc).map (fun e => e.name) := by
  induction ls with
  | nil =>
    intro i cur acc n h
    rcases h with h | ⟨l, hl, _⟩
    · exact h
    · cases hl
  | cons l ls ih =>
    intro i cur acc n h
    rw [scanEntries]
    apply ih
    rcases h with h | ⟨l', hl', hn⟩
    · left
      cases ht : truthyName l with
      | none => exact h
      | some name =>
        simp only
        rw [map_name_mapSet]
        split_ifs
        · exact h
        · exact List.mem_append_left _ h
    · rcases List.mem_cons.1 hl' with h1 | h1
      · left
        rw [h1] at hn
        rw [hn]
        simp only
        rw [map_name_mapSet]
        split_ifs with hm
        · exact hm
        · simp
      · exact Or.inr ⟨l', h1, hn⟩

/-- The header map leaves a record start as it is. -/
theorem counterLine_of_truthyName (a b : Nat) (l n : Str) (h : truthyName l = some n) :
    counterLine a b l = l := by
  have hm := matchEntryStart_of_truthyName l n h
  have hnot : ∀ ks : Str, startsWith l ('t' :: ks) = false := by
    intro ks
    cases l with
    | nil => rfl
    | cons c t =>
      by_cases hc : c = 't'
      · subst hc
        have : matchEntryStart ('t' :: t) = none := by
          unfold matchEntryStart
          rw [List.dropWhile_cons_of_neg (by decide)]
          simp
        rw [this] at hm
        cases hm
      · simp [startsWith, List.isPrefixOf, hc]
        intro h; exact absurd h.symm hc
  unfold counterLine
  have h1 : startsWith l "total_skills:".toList = false := hnot _
  have h2 : startsWith l "total_agents:".toList = false := hnot _
  rw [h1, h2]
  simp

theorem newline_not_mem_toDigitsCore : ∀ (fuel n : Nat) (ds : Str), '\n' ∉ ds →
    '\n' ∉ Nat.toDigitsCore 10 fuel n ds := by
  intro fuel
  induction fuel with
  | zero => intro n ds h; exact h
  | succ fuel ih =>
    intro n ds h
    have hd : Nat.digitChar (n % 10) ≠ '\n' := by
      have hk : n % 10 < 10 := Nat.mod_lt _ (by decide)
      generalize n % 10 = k at hk
      interval_cases k <;> decide
    have hds : '\n' ∉ Nat.digitChar (n % 10) :: ds := by
      intro hm
      rcases List.mem_cons.1 hm with h1 | h1
      · exact hd h1.symm
      · exact h h1
    unfold Nat.toDigitsCore
    by_cases h0 : n / 10 = 0
    · simp only [h0, if_true]
      exact hds
    · simp only [h0, if_false]
      exact ih _ _ hds

theorem newline_not_mem_natStr (n : Nat) : '\n' ∉ natStr n :=
  newline_not_mem_toDigitsCore _ _ [] (by simp)

theorem newline_not_mem_counterLine (a b : Nat) (l : Str) (h : '\n' ∉ l) :
    '\n' ∉ counterLine a b l := by
  unfold counterLine
  split_ifs
  · intro hm
    rcases List.mem_append.1 hm with h1 | h1
    · exact absurd h1 (by decide)
    · exact newline_not_mem_natStr _ h1
  · intro hm
    rcases List.mem_append.1 hm with h1 | h1
    · exact absurd h1 (by decide)
    · exact newline_not_mem_natStr _ h1
  · exact h

theorem removeLoop_subset (toRemove : List Str) (ls : List Str) :
    ∀ (b : Bool) (acc : List Str), ∀ l ∈ removeLoop toRemove ls b acc, l ∈ acc ∨ l ∈ ls := by
  induction ls with
  | nil => intro b acc l hl; exact Or.inl hl
  | cons x xs ih =>
    intro b acc l hl
    rw [removeLoop] at hl
    split_ifs at hl
    all_goals
      rcases ih _ _ l hl with h | h
      · first
          | exact Or.inl h
          | (rcases List.mem_append.1 h with h1 | h1
             · exact Or.inl h1
             · rw [List.mem_singleton.1 h1]; exact Or.inr (List.mem_cons_self _ _))
      · exact Or.inr (List.mem_cons_of_mem _ h)

/-- C26 (amended): a record that a cluster of the table reports as kept is never marked for
removal by that cluster.  When it bears the keeper name of the cluster, or when no cluster
lists its name as removed, its name is not in `toRemove`, its record start is a line of the
text written, and a scan of the text written finds its name. -/
theorem c26_kept_record_written_unless_another_cluster_removes_it (content : Str)
    (cname : Str) (c : Cluster) (k : Str) (hmem : (cname, c) ∈ CLUSTERS)
    (hk : (processCluster (runWith CLUSTERS content).allEntries c).1.kept = some k) :
    k ∉ (processCluster (runWith CLUSTERS content).allEntries c).1.removed ∧
    ((k = c.keep ∨
        ∀ x ∈ CLUSTERS, k ∉ (processCluster (runWith CLUSTERS content).allEntries x.2).1.removed) →
      k ∉ (runWith CLUSTERS content).toRemove ∧
      ∃ line ∈ splitLines content, truthyName line = some k ∧
        line ∈ splitLines (deduplicateIndex content) ∧
        k ∈ (scanEntries (splitLines (deduplicateIndex content)) 0 none []).map
          (fun e => e.name)) := by
  have hall : (runWith CLUSTERS content).allEntries =
      scanEntries (splitLines content) 0 none [] := rfl
  have htr : (runWith CLUSTERS content).toRemove =
      (processClusters (scanEntries (splitLines content) 0 none []) CLUSTERS).1 := rfl
  have hnew : (runWith CLUSTERS content).newLines =
      removeLoop (runWith CLUSTERS content).toRemove (splitLines content) false [] := rfl
  have hfin : (runWith CLUSTERS content).finalLines =
      (runWith CLUSTERS content).newLines.map
        (counterLine (runWith CLUSTERS content).counts.newSkillCount
          (runWith CLUSTERS content).counts.newAgentCount) := rfl
  have hout : deduplicateIndex content = joinLines (runWith CLUSTERS content).finalLines := rfl
  rw [hall] at hk ⊢
  rw [hout, hfin, hnew, htr]
  generalize (runWith CLUSTERS content).counts.newSkillCount = a
  generalize (runWith CLUSTERS content).counts.newAgentCount = b
  generalize hA : scanEntries (splitLines content) 0 none [] = all at *
  obtain ⟨h1, h2, h3⟩ := processCluster_names all c
  have hown : k ∉ (processCluster all c).1.removed := by
    rw [h1]
    intro h
    exact (h2 k h).2.2 hk
  refine ⟨hown, ?_⟩
  intro hcase
  have hnot : k ∉ (processClusters all CLUSTERS).1 := by
    rw [mem_toRemove_iff]
    rintro ⟨x, hx, hkx⟩
    rcases hcase with hkeep | hnone
    · obtain ⟨⟨e, he, hen⟩, hne, _⟩ := (processCluster_names all x.2).2.1 k hkx
      have hcond := (List.mem_filter.1 he).2
      simp only [Bool.and_eq_true, decide_eq_true_eq] at hcond
      have := keepers_match_own_cluster_only (cname, c) hmem x hx
        (by
          rw [← hkeep, ← hen]
          simp only [Bool.and_eq_true]
          exact ⟨hcond.1.2, hcond.2⟩)
      exact hne (hkeep.trans this)
    · exact hnone x hx (by rw [(processCluster_names all x.2).1]; exact hkx)
  refine ⟨hnot, ?_⟩
  obtain ⟨e, he, hen⟩ := h3 k hk
  have heall : e ∈ all := (List.mem_filter.1 he).1
  rw [← hA] at heall
  rcases scanEntries_from_line _ _ _ _ e heall with h | ⟨line, hline, hname⟩
  · cases h
  · rw [hen] at hname
    have hin : line ∈ removeLoop (processClusters all CLUSTERS).1 (splitLines content) false [] :=
      (removeLoop_keeps _ _ false []).2 line hline k hname hnot
    have hfinal : line ∈ (removeLoop (processClusters all CLUSTERS).1 (splitLines content)
        false []).map (counterLine a b) :=
      List.mem_map.2 ⟨line, hin, counterLine_of_truthyName a b line k hname⟩
    have hsplit : splitLines (joinLines ((removeLoop (processClusters all CLUSTERS).1
        (splitLines content) false []).map (counterLine a b))) =
        (removeLoop (processClusters all CLUSTERS).1 (splitLines content) false []).map
          (counterLine a b) := by
      apply splitLines_joinLines
      · intro h
        rw [h] at hfinal
        cases hfinal
      · intro l hl
        obtain ⟨l0, hl0, rfl⟩ := List.mem_map.1 hl
        apply newline_not_mem_counterLine
        rcases removeLoop_subset _ _ _ _ l0 hl0 with h | h
        · cases h
        · exact splitLines_no_newline content l0 h
    rw [hsplit]
    exact ⟨line, hline, hname, hfinal, scanEntries_has_name _ _ _ _ k (Or.inr ⟨line, hfinal, hname⟩)⟩

/-- C26 witness: on `catalogLastSkillDuplicate` the cluster `testing-master` keeps its keeper
`testing-patterns`, whose record start is a line of the text written. -/
theorem c26_kept_record_written_unless_another_cluster_removes_it_witness :
    ("testing-master".toList, testingCluster) ∈ CLUSTERS ∧
    (processCluster (runWith CLUSTERS catalogLastSkillDuplicate).allEntries testingCluster).1.kept =
      some "testing-patterns".toList ∧
    "testing-patterns".toList ∉ (runWith CLUSTERS catalogLastSkillDuplicate).toRemove ∧
    "  - name: testing-patterns".toList ∈ splitLines (deduplicateIndex catalogLastSkillDuplicate) ∧
    "testing-patterns".toList ∉
      (processCluster (runWith CLUSTERS catalogLastSkillDuplicate).allEntries
        testingCluster).1.removed :=
  ⟨by decide, by decide, by decide, by decide,
   (c26_kept_record_written_unless_another_cluster_removes_it catalogLastSkillDuplicate
      "testing-master".toList testingCluster "testing-patterns".toList (by decide)
      (by decide)).1⟩

/-- Every pattern of the table that starts with `^` is of literal shape, so `regexTest` is
the test of the code on the table. -/
theorem clusters_literal : ∀ x ∈ CLUSTERS, x.2.literal = true := by
  decide

end Dedup

namespace BulkImport

theorem digitChar_spec : ∀ k, k < 10 →
    isDigitChar (Nat.digitChar k) = true ∧ (Nat.digitChar k).toNat - 48 = k := by
  intro k hk
  interval_cases k <;> decide

theorem parseInt_append_singleton (xs : Str) (d : Char) :
    parseInt (xs ++ [d]) = 10 * parseInt xs + (d.toNat - 48) := by
  simp [parseInt, List.foldl_append]

theorem toDigitsCore_spec : ∀ (fuel n : Nat) (ds : Str), n < fuel →
    ∃ xs, Nat.toDigitsCore 10 fuel n ds = xs ++ ds ∧ xs ≠ [] ∧
      (∀ c ∈ xs, isDigitChar c = true) ∧ parseInt xs = n := by
  intro fuel
  induction fuel with
  | zero => intro n ds h; omega
  | succ fuel ih =>
    intro n ds h
    obtain ⟨hd1, hd2⟩ := digitChar_spec (n % 10) (Nat.mod_lt _ (by decide))
    unfold Nat.toDigitsCore
    by_cases h0 : n / 10 = 0
    · refine ⟨[Nat.digitChar (n % 10)], by simp [h0], by simp, by simpa using hd1, ?_⟩
      have : parseInt [Nat.digitChar (n % 10)] = (Nat.digitChar (n % 10)).toNat - 48 := by
        simp [parseInt]
      rw [this, hd2]
      omega
    · have hlt : n / 10 < fuel := by omega
      obtain ⟨xs, h1, h2, h3, h4⟩ := ih (n / 10) (Nat.digitChar (n % 10) :: ds) hlt
      refine ⟨xs ++ [Nat.digitChar (n % 10)], by simp [h0, h1], by simp, ?_, ?_⟩
      · intro c hc
        rcases List.mem_append.1 hc with hc | hc
        · exact h3 c hc
        · simp at hc; rw [hc]; exact hd1
      · rw [parseInt_append_singleton, h4, hd2]
        omega

theorem natStr_spec (n : Nat) :
    natStr n ≠ [] ∧ (∀ c ∈ natStr n, isDigitChar c = true) ∧ parseInt (natStr n) = n := by
  obtain ⟨xs, h1, h2, h3, h4⟩ := toDigitsCore_spec (n + 1) n [] (Nat.lt_succ_self n)
  have : natStr n = xs := by simpa [natStr, Nat.toDigits] using h1
  rw [this]
  exact ⟨h2, h3, h4⟩

theorem flagAfter_cons (c : Char) (p : Str) (b : Bool) :
    flagAfter (c :: p) b = flagAfter p (isLineTerminator c) := by
  cases p with
  | nil => simp [flagAfter]
  | cons d p =>
    cases h : (d :: p).getLast? with
    | none => simp at h
    | some x => simp [flagAfter, List.getLast?_cons_cons, h]

theorem flagAfter_append (p q : Str) (b : Bool) :
    flagAfter (p ++ q) b = flagAfter q (flagAfter p b) := by
  induction p generalizing b with
  | nil => simp [flagAfter]
  | cons c p ih => simp only [List.cons_append, flagAfter_cons, ih]

theorem isPrefixOf_append_cons_of_not_mem (key : Str) (t : Char) (ht : t ∉ key) :
    ∀ (q x : Str), key.isPrefixOf (q ++ t :: x) = key.isPrefixOf q := by
  induction key with
  | nil => intro q x; simp
  | cons k ks ih =>
    intro q x
    have hk : k ≠ t := fun e => ht (by simp [e])
    have hks : t ∉ ks := fun e => ht (by simp [e])
    cases q with
    | nil => simp [List.isPrefixOf, hk]
    | cons c q =>
      show (k == c && ks.isPrefixOf (q ++ t :: x)) = (k == c && ks.isPrefixOf q)
      rw [ih hks]

theorem matchCounter_local (key q x : Str) (hB : Barrier x)
    (hns : key.isPrefixOf (q ++ x) = key.isPrefixOf q) :
    (matchCounter key (q ++ x)).map Prod.fst = (matchCounter key q).map Prod.fst := by
  unfold matchCounter
  rw [hns]
  by_cases hp : key.isPrefixOf q = true
  · simp only [hp, if_true]
    obtain ⟨q', hq'⟩ := List.isPrefixOf_iff_prefix.1 hp
    subst hq'
    simp only [List.append_assoc, List.drop_left]
    by_cases hall : q'.dropWhile isJsSpace = []
    · -- all of q' is whitespace
      have h1 : (q' ++ x).dropWhile isJsSpace = x.dropWhile isJsSpace := by
        rw [List.dropWhile_append, hall]; simp
      simp [h1, hall, hB.2]
    · have h1 : (q' ++ x).dropWhile isJsSpace = q'.dropWhile isJsSpace ++ x := by
        rw [List.dropWhile_append]; simp [hall]
      rw [h1]
      have htake : (q'.dropWhile isJsSpace ++ x).takeWhile isDigitChar =
          (q'.dropWhile isJsSpace).takeWhile isDigitChar := by
        rw [List.takeWhile_append]
        split_ifs with hl
        · rw [hB.1]; simp
          exact (List.takeWhile_eq_self_iff.2 (by
            have := List.takeWhile_eq_self_iff (p := isDigitChar) (l := q'.dropWhile isJsSpace)
            have h2 : (q'.dropWhile isJsSpace).takeWhile isDigitChar = q'.dropWhile isJsSpace :=
              List.IsPrefix.eq_of_length ( List.takeWhile_prefix _) hl
            exact this.1 h2)).symm
        · rfl
      rw [htake]
      simp only [List.length_append]
      by_cases hc : (q'.dropWhile isJsSpace).length < q'.length ∧
          (q'.dropWhile isJsSpace).takeWhile isDigitChar ≠ []
      · have hc' : (q'.dropWhile isJsSpace).length + x.length < q'.length + x.length ∧
            (q'.dropWhile isJsSpace).takeWhile isDigitChar ≠ [] := ⟨by omega, hc.2⟩
        simp [hc, hc']
      · have hc' : ¬ ((q'.dropWhile isJsSpace).length + x.length < q'.length + x.length ∧
            (q'.dropWhile isJsSpace).takeWhile isDigitChar ≠ []) := by
          intro h; exact hc ⟨by omega, h.2⟩
        simp [hc, hc']
  · simp [hp]

theorem isJsSpace_of_isLineTerminator (c : Char) (h : isLineTerminator c = true) :
    isJsSpace c = true := by
  unfold isLineTerminator at h
  unfold isJsSpace
  simp only [Bool.or_eq_true, beq_iff_eq] at h
  rcases h with ((h | h) | h) | h <;> simp [h]

theorem matchCounter_none_of_head (key : Str) (k0 c : Char) (ks cs : Str)
    (hk : key = k0 :: ks) (hc : c ≠ k0) : matchCounter key (c :: cs) = none := by
  subst hk
  have : (k0 :: ks).isPrefixOf (c :: cs) = false := by
    simp [List.isPrefixOf, Ne.symm hc]
  simp [matchCounter, this]

theorem findCounter_cons (key : Str) (c : Char) (cs : Str) (b : Bool) :
    findCounter key (c :: cs) b =
      match (if b then matchCounter key (c :: cs) else none) with
      | some m => some m.1
      | none => findCounter key cs (isLineTerminator c) := rfl

theorem quiet_cons (k c : Char) (cs : Str) (b : Bool) :
    quiet k (c :: cs) b = ((!b || c != k) && quiet k cs (isLineTerminator c)) := rfl

theorem findCounter_append (key x : Str) (hB : Barrier x) :
    ∀ (p : Str) (b : Bool),
      (∀ q, q ≠ [] → q <:+ p → key.isPrefixOf (q ++ x) = key.isPrefixOf q) →
      findCounter key (p ++ x) b =
        match findCounter key p b with
        | some d => some d
        | none => findCounter key x (flagAfter p b) := by
  intro p
  induction p with
  | nil => intro b _; simp [findCounter, flagAfter]
  | cons c p ih =>
    intro b hns
    have hloc := matchCounter_local key (c :: p) x hB (hns _ (by simp) (List.suffix_refl _))
    have ih' := ih (isLineTerminator c) (fun q hq hs =>
      hns q hq (hs.trans (List.suffix_cons c p)))
    rw [List.cons_append, findCounter_cons, findCounter_cons, flagAfter_cons]
    cases b with
    | false => simpa using ih'
    | true =>
      simp only [if_true]
      simp only [List.cons_append] at hloc
      cases h1 : matchCounter key (c :: (p ++ x)) with
      | none =>
        rw [h1] at hloc
        cases h2 : matchCounter key (c :: p) with
        | none => simpa using ih'
        | some m => rw [h2] at hloc; simp at hloc
      | some m =>
        rw [h1] at hloc
        cases h2 : matchCounter key (c :: p) with
        | none => rw [h2] at hloc; simp at hloc
        | some m' =>
          rw [h2] at hloc
          simp only [Option.map_some', Option.some.injEq] at hloc
          simp [hloc]

theorem findCounter_quiet (key : Str) (k0 : Char) (ks : Str) (hk : key = k0 :: ks) (r : Str) :
    ∀ (w : Str) (b : Bool), quiet k0 w b = true →
      findCounter key (w ++ r) b = findCounter key r (flagAfter w b) := by
  intro w
  induction w with
  | nil => intro b _; simp [flagAfter]
  | cons c w ih =>
    intro b hq
    simp only [quiet, Bool.and_eq_true, Bool.or_eq_true, Bool.not_eq_true', bne_iff_ne] at hq
    rw [List.cons_append, findCounter_cons, flagAfter_cons]
    have hnone : (if b = true then matchCounter key (c :: (w ++ r)) else none) = none := by
      cases b with
      | false => simp
      | true =>
        simp only [if_true]
        rcases hq.1 with h | h
        · cases h
        · exact matchCounter_none_of_head key k0 c ks _ hk h
    rw [hnone]
    exact ih _ hq.2

theorem quiet_append (k : Char) : ∀ (w1 w2 : Str) (b : Bool),
    quiet k (w1 ++ w2) b = (quiet k w1 b && quiet k w2 (flagAfter w1 b)) := by
  intro w1
  induction w1 with
  | nil => intro w2 b; simp [quiet, flagAfter]
  | cons c w1 ih =>
    intro w2 b
    rw [List.cons_append, quiet_cons, quiet_cons, ih, flagAfter_cons, Bool.and_assoc]

theorem findCounter_eq_firstMatch (key : Str) : ∀ (t : Str) (b : Bool),
    findCounter key t b = (firstMatch key t b).map (fun r => r.2.1) := by
  intro t
  induction t with
  | nil => intro b; rfl
  | cons c cs ih =>
    intro b
    simp only [findCounter, firstMatch]
    cases h : (if b = true then matchCounter key (c :: cs) else none) with
    | some m => simp
    | none =>
      simp only [ih]
      cases firstMatch key cs (isLineTerminator c) <;> rfl

theorem replaceCounter_eq_firstMatch (key rep : Str) : ∀ (t : Str) (b : Bool),
    replaceCounter key rep t b =
      match firstMatch key t b with
      | some r => r.1 ++ rep ++ r.2.2
      | none => t := by
  intro t
  induction t with
  | nil => intro b; rfl
  | cons c cs ih =>
    intro b
    simp only [replaceCounter, firstMatch]
    cases h : (if b = true then matchCounter key (c :: cs) else none) with
    | some m => simp
    | none =>
      simp only [ih]
      cases h2 : firstMatch key cs (isLineTerminator c) with
      | none => simp
      | some r => simp

theorem takeWhile_dropWhile_self (p : Char → Bool) (l : Str) :
    (l.dropWhile p).takeWhile p = [] := by
  induction l with
  | nil => rfl
  | cons c l ih =>
    by_cases hc : p c = true
    · simpa [List.dropWhile_cons, hc] using ih
    · simp [List.dropWhile_cons, hc, List.takeWhile_cons]

theorem not_space_of_digit (c : Char) (h : isDigitChar c = true) : isJsSpace c = false := by
  unfold isDigitChar at h
  unfold isJsSpace
  simp only [Bool.and_eq_true, decide_eq_true_eq] at h
  simp only [Bool.or_eq_false_iff, beq_eq_false_iff_ne, Bool.and_eq_false_iff,
    decide_eq_false_iff_not]
  omega

theorem not_digit_of_lineTerminator (c : Char) (h : isLineTerminator c = true) :
    isDigitChar c = false := by
  have h1 := isJsSpace_of_isLineTerminator c h
  by_contra hd
  have := not_space_of_digit c (by simpa using hd)
  rw [h1] at this
  cases this

theorem matchCounter_some (key t : Str) (m : Str × Str) (h : matchCounter key t = some m) :
    ∃ w, t = key ++ (w ++ (m.1 ++ m.2)) ∧ w ≠ [] ∧ (∀ c ∈ w, isJsSpace c = true) ∧
      m.1 ≠ [] ∧ (∀ c ∈ m.1, isDigitChar c = true) ∧ m.2.takeWhile isDigitChar = [] := by
  unfold matchCounter at h
  by_cases hp : key.isPrefixOf t = true
  · rw [if_pos hp] at h
    obtain ⟨r, hr⟩ := List.isPrefixOf_iff_prefix.1 hp
    subst hr
    simp only [List.drop_left] at h
    by_cases hc : (r.dropWhile isJsSpace).length < r.length ∧
        (r.dropWhile isJsSpace).takeWhile isDigitChar ≠ []
    · rw [if_pos hc] at h
      cases h
      refine ⟨r.takeWhile isJsSpace, ?_, ?_, ?_, hc.2, ?_, ?_⟩
      · simp only [List.takeWhile_append_dropWhile]
      · intro e
        have h1 := List.takeWhile_append_dropWhile isJsSpace r
        rw [e] at h1
        simp only [List.nil_append] at h1
        have := hc.1
        rw [h1] at this
        exact Nat.lt_irrefl _ this
      · intro c hc'; exact List.mem_takeWhile_imp hc'
      · intro c hc'; exact List.mem_takeWhile_imp hc'
      · exact takeWhile_dropWhile_self _ _
    · rw [if_neg hc] at h; cases h
  · rw [if_neg hp] at h; cases h

theorem matchCounter_intro (key w ds r : Str) (hw : w ≠ []) (hws : ∀ c ∈ w, isJsSpace c = true)
    (hds : ds ≠ []) (hdig : ∀ c ∈ ds, isDigitChar c = true)
    (hr : r.takeWhile isDigitChar = []) :
    matchCounter key (key ++ (w ++ (ds ++ r))) = some (ds, r) := by
  unfold matchCounter
  have hp : key.isPrefixOf (key ++ (w ++ (ds ++ r))) = true :=
    List.isPrefixOf_iff_prefix.2 (List.prefix_append _ _)
  rw [if_pos hp]
  simp only [List.drop_left]
  obtain ⟨d0, ds', hd⟩ := List.exists_cons_of_ne_nil hds
  have hd0 : isJsSpace d0 = false := not_space_of_digit d0 (hdig d0 (by simp [hd]))
  have h1 : (w ++ (ds ++ r)).dropWhile isJsSpace = ds ++ r := by
    rw [List.dropWhile_append_of_pos hws, hd]
    simp [List.dropWhile_cons, hd0]
  have h2 : (ds ++ r).takeWhile isDigitChar = ds := by
    rw [List.takeWhile_append_of_pos hdig, hr]; simp
  have h3 : (ds ++ r).dropWhile isDigitChar = r := by
    rw [List.dropWhile_append_of_pos hdig]
    cases r with
    | nil => rfl
    | cons c r =>
      by_cases hc : isDigitChar c = true
      · simp [List.takeWhile_cons, hc] at hr
      · simp [List.dropWhile_cons, hc]
  rw [h1, h2, h3]
  have hlen : (ds ++ r).length < (w ++ (ds ++ r)).length := by
    have : 0 < w.length := List.length_pos.2 hw
    simp only [List.length_append]; omega
  rw [if_pos ⟨hlen, hds⟩]

theorem barrier_of_head (k0 : Char) (y : Str) (h1 : isJsSpace k0 = false)
    (h2 : isDigitChar k0 = false) : Barrier (k0 :: y) := by
  constructor
  · simp [List.takeWhile_cons, h2]
  · simp [List.dropWhile_cons, h1, List.takeWhile_cons, h2]

theorem isPrefixOf_of_endsWith_lt (key : Str) (hk : ∀ c ∈ key, isJsSpace c = false)
    (q x : Str) (hq : ∃ q0 t0, q = q0 ++ [t0] ∧ isLineTerminator t0 = true) :
    key.isPrefixOf (q ++ x) = key.isPrefixOf q := by
  obtain ⟨q0, t0, rfl, ht⟩ := hq
  have hnm : t0 ∉ key := by
    intro hm
    have := hk t0 hm
    rw [isJsSpace_of_isLineTerminator t0 ht] at this
    cases this
  have e1 : q0 ++ [t0] ++ x = q0 ++ t0 :: x := by simp
  rw [e1, isPrefixOf_append_cons_of_not_mem key t0 hnm q0 x,
    isPrefixOf_append_cons_of_not_mem key t0 hnm q0 []]

theorem endsWith_lt_of_flagAfter (p : Str) (hne : p ≠ []) (b : Bool)
    (h : flagAfter p b = true) : ∃ q0 t0, p = q0 ++ [t0] ∧ isLineTerminator t0 = true := by
  obtain ⟨q0, t0, rfl⟩ : ∃ q0 t0, p = q0 ++ [t0] := by
    rcases List.eq_nil_or_concat p with h | ⟨q0, t0, h⟩
    · exact absurd h hne
    · exact ⟨q0, t0, by simpa using h⟩
  refine ⟨q0, t0, rfl, ?_⟩
  simpa [flagAfter] using h

theorem suffix_endsWith (p q : Str) (hq : q ≠ []) (hs : q <:+ p)
    (hp : ∃ q0 t0, p = q0 ++ [t0] ∧ isLineTerminator t0 = true) :
    ∃ q0 t0, q = q0 ++ [t0] ∧ isLineTerminator t0 = true := by
  obtain ⟨p0, t0, rfl, ht⟩ := hp
  obtain ⟨q1, t1, rfl⟩ : ∃ q1 t1, q = q1 ++ [t1] := by
    rcases List.eq_nil_or_concat q with h | ⟨q0, t0, h⟩
    · exact absurd h hq
    · exact ⟨q0, t0, by simpa using h⟩
  obtain ⟨u, hu⟩ := hs
  have : u ++ q1 ++ [t1] = p0 ++ [t0] := by simpa using hu
  have h2 := List.append_inj' this rfl
  have : t1 = t0 := by simpa using h2.2
  exact ⟨q1, t1, rfl, this ▸ ht⟩

theorem firstMatch_cons (key : Str) (c : Char) (cs : Str) (b : Bool) :
    firstMatch key (c :: cs) b =
      match (if b then matchCounter key (c :: cs) else none) with
      | some m => some ([], m.1, m.2)
      | none => (firstMatch key cs (isLineTerminator c)).map
          (fun r => (c :: r.1, r.2.1, r.2.2)) := rfl

theorem firstMatch_spec (key : Str) : ∀ (t : Str) (b : Bool) (p d r : Str),
    firstMatch key t b = some (p, d, r) →
    ∃ w, t = p ++ (key ++ (w ++ (d ++ r))) ∧ w ≠ [] ∧ (∀ c ∈ w, isJsSpace c = true) ∧
      d ≠ [] ∧ (∀ c ∈ d, isDigitChar c = true) ∧ r.takeWhile isDigitChar = [] ∧
      flagAfter p b = true := by
  intro t
  induction t with
  | nil => intro b p d r h; simp [firstMatch] at h
  | cons c cs ih =>
    intro b p d r h
    rw [firstMatch_cons] at h
    cases hm : (if b = true then matchCounter key (c :: cs) else none) with
    | some m =>
      rw [hm] at h
      simp only [Option.some.injEq, Prod.mk.injEq] at h
      obtain ⟨rfl, rfl, rfl⟩ := h
      cases b with
      | false => simp at hm
      | true =>
        simp only [if_true] at hm
        obtain ⟨w, h1, h2, h3, h4, h5, h6⟩ := matchCounter_some key _ m hm
        exact ⟨w, by simpa using h1, h2, h3, h4, h5, h6, rfl⟩
    | none =>
      rw [hm] at h
      cases hf : firstMatch key cs (isLineTerminator c) with
      | none => rw [hf] at h; simp at h
      | some x =>
        rw [hf] at h
        simp only [Option.map_some', Option.some.injEq, Prod.mk.injEq] at h
        obtain ⟨rfl, rfl, rfl⟩ := h
        obtain ⟨w, h1, h2, h3, h4, h5, h6, h7⟩ := ih _ x.1 x.2.1 x.2.2 hf
        refine ⟨w, by simp [h1], h2, h3, h4, h5, h6, ?_⟩
        rw [flagAfter_cons]; exact h7

theorem firstMatch_prefix_none (key : Str) (hk : KeyOK key) : ∀ (t : Str) (b : Bool)
    (p d r : Str), firstMatch key t b = some (p, d, r) → findCounter key p b = none := by
  intro t
  induction t with
  | nil => intro b p d r h; simp [firstMatch] at h
  | cons c cs ih =>
    intro b p d r h
    obtain ⟨w, ht, -, -, -, -, -, hflag⟩ := firstMatch_spec key _ b p d r h
    rw [firstMatch_cons] at h
    cases hm : (if b = true then matchCounter key (c :: cs) else none) with
    | some m =>
      rw [hm] at h
      simp only [Option.some.injEq, Prod.mk.injEq] at h
      obtain ⟨rfl, -, -⟩ := h
      rfl
    | none =>
      rw [hm] at h
      cases hf : firstMatch key cs (isLineTerminator c) with
      | none => rw [hf] at h; simp at h
      | some x =>
        rw [hf] at h
        simp only [Option.map_some', Option.some.injEq, Prod.mk.injEq] at h
        obtain ⟨rfl, rfl, rfl⟩ := h
        have ih' := ih _ x.1 x.2.1 x.2.2 hf
        rw [findCounter_cons, ih']
        obtain ⟨⟨k0, ks, hkey, hk1, hk2⟩, hk3⟩ := hk
        have hB : Barrier (key ++ (w ++ (x.2.1 ++ x.2.2))) := by
          rw [hkey]; exact barrier_of_head k0 _ hk1 hk2
        have hends := endsWith_lt_of_flagAfter (c :: x.1) (by simp) b hflag
        have hns := isPrefixOf_of_endsWith_lt key hk3 (c :: x.1)
          (key ++ (w ++ (x.2.1 ++ x.2.2))) hends
        have hloc := matchCounter_local key (c :: x.1) _ hB hns
        rw [← ht] at hloc
        cases b with
        | false => simp
        | true =>
          simp only [if_true] at hm ⊢
          rw [hm] at hloc
          cases h2 : matchCounter key (c :: x.1) with
          | none => rfl
          | some m' => rw [h2] at hloc; simp at hloc

/-- The counter found after its own replacement: the digits written. -/
theorem findCounter_replace_same (key : Str) (hk : KeyOK key) (ds : Str) (hds : ds ≠ [])
    (hdig : ∀ c ∈ ds, isDigitChar c = true) (t : Str) (b : Bool) :
    findCounter key (replaceCounter key (key ++ " ".toList ++ ds) t b) b =
      (findCounter key t b).map (fun _ => ds) := by
  rw [replaceCounter_eq_firstMatch, findCounter_eq_firstMatch key t b]
  cases hf : firstMatch key t b with
  | none =>
    simp only [Option.map_none']
    rw [findCounter_eq_firstMatch, hf]; rfl
  | some x =>
    obtain ⟨p, d, r⟩ := x
    obtain ⟨w, ht, hw1, hw2, hd1, hd2, hr, hflag⟩ := firstMatch_spec key t b p d r hf
    have hnone := firstMatch_prefix_none key hk t b p d r hf
    obtain ⟨⟨k0, ks, hkey, hk1, hk2⟩, hk3⟩ := hk
    simp only [Option.map_some']
    have e : p ++ (key ++ " ".toList ++ ds) ++ r = p ++ (key ++ (" ".toList ++ (ds ++ r))) := by
      simp
    rw [e]
    have hB : Barrier (key ++ (" ".toList ++ (ds ++ r))) := by
      rw [hkey]; exact barrier_of_head k0 _ hk1 hk2
    rw [findCounter_append key _ hB p b, hnone, hflag]
    · have hm := matchCounter_intro key " ".toList ds r (by decide) (by decide) hds hdig hr
      have hcons : key ++ (" ".toList ++ (ds ++ r)) = k0 :: (ks ++ (" ".toList ++ (ds ++ r))) := by
        rw [hkey]; rfl
      rw [hcons] at hm ⊢
      rw [findCounter_cons, if_pos rfl, hm]
    · intro q hq hs
      by_cases hp : p = []
      · subst hp
        have := List.eq_nil_of_suffix_nil hs
        exact absurd this hq
      · exact isPrefixOf_of_endsWith_lt key hk3 q _
          (suffix_endsWith p q hq hs (endsWith_lt_of_flagAfter p hp b hflag))

theorem not_lt_of_not_space (c : Char) (h : isJsSpace c = false) :
    isLineTerminator c = false := by
  by_contra hl
  rw [isJsSpace_of_isLineTerminator c (by simpa using hl)] at h
  cases h

theorem quiet_noLT (k : Char) : ∀ s : Str, (∀ c ∈ s, isLineTerminator c = false) →
    quiet k s false = true ∧ flagAfter s false = false := by
  intro s
  induction s with
  | nil => intro _; simp [quiet, flagAfter]
  | cons c s ih =>
    intro h
    have hc := h c (by simp)
    have := ih (fun x hx => h x (by simp [hx]))
    rw [quiet_cons, flagAfter_cons, hc]
    simpa using this

theorem quiet_ne (k : Char) : ∀ (s : Str) (b : Bool), (∀ c ∈ s, c ≠ k) → quiet k s b = true := by
  intro s
  induction s with
  | nil => intro b _; rfl
  | cons c s ih =>
    intro b h
    rw [quiet_cons, ih _ (fun x hx => h x (by simp [hx]))]
    simp [h c (by simp)]

theorem flagAfter_digits (d : Str) (hd : d ≠ []) (hdig : ∀ c ∈ d, isDigitChar c = true)
    (b : Bool) : flagAfter d b = false := by
  obtain ⟨d0, t0, rfl⟩ : ∃ d0 t0, d = d0 ++ [t0] := by
    rcases List.eq_nil_or_concat d with h | ⟨q0, t0, h⟩
    · exact absurd h hd
    · exact ⟨q0, t0, by simpa using h⟩
  have h1 := hdig t0 (by simp)
  simp only [flagAfter, List.getLast?_append, List.getLast?_singleton, Option.or_some]
  by_contra hl
  have := not_digit_of_lineTerminator t0 (by simpa using hl)
  rw [h1] at this; cases this

/-- A search for `key2` passes over a match region of `key`. -/
theorem findCounter_skip_region (key key2 w d r : Str) (hk : KeyOK key) (hk2 : KeyOK key2)
    (hdiff : ∀ y, key2.isPrefixOf (key ++ y) = false)
    (hws : ∀ c ∈ w, isJsSpace c = true) (hd : d ≠ [])
    (hdig : ∀ c ∈ d, isDigitChar c = true) :
    findCounter key2 (key ++ (w ++ (d ++ r))) true = findCounter key2 r false := by
  obtain ⟨⟨k0, ks, hkey, hk1, -⟩, hk3⟩ := hk
  obtain ⟨⟨j0, js, hkey2, hj1, hj2⟩, -⟩ := hk2
  have hm : matchCounter key2 (key ++ (w ++ (d ++ r))) = none := by
    simp [matchCounter, hdiff]
  have e1 : key ++ (w ++ (d ++ r)) = k0 :: ((ks ++ (w ++ d)) ++ r) := by
    rw [hkey]; simp
  rw [e1] at hm ⊢
  rw [findCounter_cons, if_pos rfl, hm]
  simp only
  rw [not_lt_of_not_space k0 hk1]
  have hks : ∀ c ∈ ks, isLineTerminator c = false := fun c hc =>
    not_lt_of_not_space c (hk3 c (by rw [hkey]; simp [hc]))
  obtain ⟨q1, q2⟩ := quiet_noLT j0 ks hks
  have hwd : ∀ c ∈ w ++ d, c ≠ j0 := by
    intro c hc e
    subst e
    rcases List.mem_append.1 hc with h | h
    · rw [hws c h] at hj1; cases hj1
    · rw [hdig c h] at hj2; cases hj2
  have hq : quiet j0 (ks ++ (w ++ d)) false = true := by
    rw [quiet_append, q1, q2, quiet_ne j0 _ _ hwd]; rfl
  rw [findCounter_quiet key2 j0 js hkey2 r _ false hq]
  have : flagAfter (ks ++ (w ++ d)) false = false := by
    rw [flagAfter_append, flagAfter_append, flagAfter_digits d hd hdig]
  rw [this]

/-- Replacing the counter of `key` leaves the counter found for `key2` as it is. -/
theorem findCounter_replace_other (key key2 : Str) (hk : KeyOK key) (hk2 : KeyOK key2)
    (hdiff : ∀ y, key2.isPrefixOf (key ++ y) = false)
    (ds : Str) (hds : ds ≠ []) (hdig : ∀ c ∈ ds, isDigitChar c = true) (t : Str) (b : Bool) :
    findCounter key2 (replaceCounter key (key ++ " ".toList ++ ds) t b) b =
      findCounter key2 t b := by
  rw [replaceCounter_eq_firstMatch]
  cases hf : firstMatch key t b with
  | none => rfl
  | some x =>
    obtain ⟨p, d, r⟩ := x
    obtain ⟨w, ht, hw1, hw2, hd1, hd2, hr, hflag⟩ := firstMatch_spec key t b p d r hf
    have hk' := hk
    obtain ⟨⟨k0, ks, hkey, hk1, hk2'⟩, hk3⟩ := hk'
    simp only
    have e : p ++ (key ++ " ".toList ++ ds) ++ r = p ++ (key ++ (" ".toList ++ (ds ++ r))) := by
      simp
    rw [e, ht]
    have hns : ∀ (x : Str) (q : Str), q ≠ [] → q <:+ p →
        key2.isPrefixOf (q ++ x) = key2.isPrefixOf q := by
      intro x q hq hs
      by_cases hp : p = []
      · subst hp
        exact absurd (List.eq_nil_of_suffix_nil hs) hq
      · exact isPrefixOf_of_endsWith_lt key2 hk2.2 q _
          (suffix_endsWith p q hq hs (endsWith_lt_of_flagAfter p hp b hflag))
    have hB1 : Barrier (key ++ (" ".toList ++ (ds ++ r))) := by
      rw [hkey]; exact barrier_of_head k0 _ hk1 hk2'
    have hB2 : Barrier (key ++ (w ++ (d ++ r))) := by
      rw [hkey]; exact barrier_of_head k0 _ hk1 hk2'
    rw [findCounter_append key2 _ hB1 p b (hns _), findCounter_append key2 _ hB2 p b (hns _),
      hflag, findCounter_skip_region key key2 " ".toList ds r hk hk2 hdiff (by decide) hds hdig,
      findCounter_skip_region key key2 w d r hk hk2 hdiff hw2 hd1 hd2]

theorem noLT_append (a b : Str) : noLT (a ++ b) = (noLT a && noLT b) := by
  simp [noLT]

theorem noLT_iff (s : Str) : noLT s = true ↔ ∀ c ∈ s, isLineTerminator c = false := by
  simp [noLT]

theorem noLT_joinWith (sep : Str) (hsep : noLT sep = true) :
    ∀ xs : List Str, (∀ x ∈ xs, noLT x = true) → noLT (joinWith sep xs) = true := by
  intro xs
  induction xs with
  | nil => intro _; rfl
  | cons x xs ih =>
    intro h
    cases xs with
    | nil => simpa [joinWith] using h x (by simp)
    | cons y ys =>
      have h1 := h x (by simp)
      have h2 := ih (fun z hz => h z (by simp [hz]))
      simp only [joinWith, noLT_append, h1, hsep, h2, Bool.and_self]

theorem noLT_filter (s : Str) (f : Char → Bool) (h : ∀ c, f c = true → isLineTerminator c = false) :
    noLT (s.filter f) = true := by
  rw [noLT_iff]
  intro c hc
  exact h c (List.mem_filter.1 hc).2

theorem noLT_filter_of_noLT (s : Str) (f : Char → Bool) (h : noLT s = true) :
    noLT (s.filter f) = true := by
  rw [noLT_iff] at h ⊢
  intro c hc
  exact h c (List.mem_filter.1 hc).1

theorem alnum_dash_not_lt (c : Char)
    (h : ((97 ≤ c.toNat && c.toNat ≤ 122) || (48 ≤ c.toNat && c.toNat ≤ 57) || c == '-') = true) :
    isLineTerminator c = false := by
  unfold isLineTerminator
  simp only [Bool.or_eq_true, Bool.and_eq_true, decide_eq_true_eq, beq_iff_eq] at h
  simp only [Bool.or_eq_false_iff, beq_eq_false_iff_ne]
  rcases h with (h | h) | h
  · omega
  · omega
  · subst h; decide

theorem alnum_not_lt (c : Char)
    (h : ((97 ≤ c.toNat && c.toNat ≤ 122) || (48 ≤ c.toNat && c.toNat ≤ 57)) = true) :
    isLineTerminator c = false :=
  alnum_dash_not_lt c (by simp only [Bool.or_eq_true] at h ⊢; exact Or.inl h)

theorem noLT_derivedAt (lower : Str → Str) (parts : List Str) (i : Nat) (d : Str)
    (h : derivedAt lower parts i = some d) : noLT d = true := by
  unfold derivedAt at h
  by_cases h1 : lower (parts.getD i []) ∈ skippedDirs
  · rw [if_pos h1] at h; cases h
  · rw [if_neg h1] at h
    simp only at h
    split_ifs at h
    all_goals first
      | (cases h; done)
      | (cases h; exact noLT_filter _ _ alnum_dash_not_lt)

theorem noLT_fixGenericName (lower : Str → Str) (item : Item) (h : noLT item.name = true) :
    noLT (fixGenericName lower item) = true := by
  unfold fixGenericName
  simp only
  split_ifs with h1
  · split
    · rename_i d hd
      obtain ⟨i, -, hi⟩ := List.exists_of_findSome?_eq_some hd
      exact noLT_derivedAt lower _ i d hi
    · split
      · split_ifs with h2
        · apply noLT_joinWith _ (by decide)
          intro w hw
          unfold descriptionWords at hw
          obtain ⟨hw1, -⟩ := List.mem_filter.1 hw
          obtain ⟨w0, -, rfl⟩ := List.mem_map.1 hw1
          exact noLT_filter _ _ alnum_not_lt
        · exact h
      · exact h
  · exact h

theorem noLT_categorizeItem (lower : Str → Str) (name description type : Str) :
    noLT (categorizeItem lower name description type) = true := by
  unfold categorizeItem
  simp only
  split
  · rename_i row hrow
    have hmem := List.mem_of_find?_eq_some hrow
    have hall : ∀ r ∈ AGENT_CATEGORIES ++ SKILL_CATEGORIES, noLT r.1 = true := by decide
    apply hall
    split_ifs at hmem
    · exact List.mem_append_left _ hmem
    · exact List.mem_append_right _ hmem
  · decide

theorem noLT_substringTo : ∀ (n : Nat) (s : Str), noLT s = true → noLT (substringTo n s) = true := by
  intro n
  induction n using Nat.strong_induction_on with
  | _ n ih =>
    intro s hs
    cases n with
    | zero => cases s <;> rfl
    | succ n =>
      cases s with
      | nil => rfl
      | cons c cs =>
        have hc : isLineTerminator c = false := (noLT_iff _).1 hs c (by simp)
        have hcs : noLT cs = true := by
          rw [noLT_iff] at hs ⊢
          exact fun x hx => hs x (by simp [hx])
        unfold substringTo
        split_ifs
        · have := ih n (Nat.lt_succ_self n) cs hcs
          simp [noLT, hc] at this ⊢
          exact this
        · cases n with
          | zero => show noLT [Char.ofNat 65533] = true; decide
          | succ m =>
            have := ih m (by omega) cs hcs
            simp [noLT, hc] at this ⊢
            exact this

theorem noLT_truncateDescription (d : Str) (n : Nat) (h : noLT d = true) :
    noLT (truncateDescription d n) = true := by
  unfold truncateDescription
  split_ifs
  · exact h
  · rw [noLT_append, noLT_substringTo _ _ h]; rfl

theorem singleLine_makeEntry (lower : Str → Str) (item : Item)
    (h : item.singleLine = true) :
    (makeEntry lower (fixGenericName lower item) item).singleLine := by
  unfold Item.singleLine at h
  simp only [Bool.and_eq_true] at h
  obtain ⟨⟨h1, h2⟩, h3⟩ := h
  have hn := noLT_fixGenericName lower item h1
  refine ⟨hn, h2, noLT_categorizeItem _ _ _ _, ?_, ?_, ?_⟩
  · apply noLT_truncateDescription
    cases hd : item.description with
    | none => decide
    | some d =>
      rw [hd] at h3
      simp only
      split_ifs
      · decide
      · exact h3
  · show noLT ("PENDING/".toList ++ _) = true
    rw [noLT_append, hn]; rfl
  · show (if item.type = "agent".toList then some "sonnet".toList else none) = none ∨
      (if item.type = "agent".toList then some "sonnet".toList else none) = some "sonnet".toList
    split_ifs
    · right; rfl
    · left; rfl

theorem singleLine_sortItems (lower : Str → Str) (existing : List Str) (items : List Item)
    (h : ∀ it ∈ items, it.singleLine = true) :
    (∀ e ∈ (sortItems lower existing items).newSkills, e.singleLine) ∧
    (∀ e ∈ (sortItems lower existing items).newAgents, e.singleLine) := by
  unfold sortItems
  have key : ∀ (items : List Item) (acc : Sorted),
      (∀ it ∈ items, it.singleLine = true) →
      ((∀ e ∈ acc.newSkills, e.singleLine) ∧ (∀ e ∈ acc.newAgents, e.singleLine)) →
      (∀ e ∈ (items.foldl (sortStep lower existing) acc).newSkills, e.singleLine) ∧
      (∀ e ∈ (items.foldl (sortStep lower existing) acc).newAgents, e.singleLine) := by
    intro items
    induction items with
    | nil => intro acc _ hacc; exact hacc
    | cons it items ih =>
      intro acc hit hacc
      simp only [List.foldl_cons]
      apply ih _ (fun x hx => hit x (by simp [hx]))
      have hs := singleLine_makeEntry lower it (hit it (by simp))
      unfold sortStep
      simp only
      split_ifs
      · exact hacc
      · refine ⟨hacc.1, ?_⟩
        intro e he
        rcases List.mem_append.1 he with h1 | h1
        · exact hacc.2 e h1
        · simp at h1; rw [h1]; exact hs
      · refine ⟨?_, hacc.2⟩
        intro e he
        rcases List.mem_append.1 he with h1 | h1
        · exact hacc.1 e h1
        · simp at h1; rw [h1]; exact hs
  exact key items _ h ⟨by simp, by simp⟩

theorem quiet_indented (k : Char) (hk : k ≠ ' ') (l : Str) (hl : Indented l) (b : Bool) :
    quiet k l b = true ∧ flagAfter l b = false := by
  obtain ⟨l', rfl, h⟩ := hl
  obtain ⟨h1, h2⟩ := quiet_noLT k l' ((noLT_iff l').1 h)
  rw [quiet_cons, flagAfter_cons]
  have e : isLineTerminator ' ' = false := by decide
  rw [e, h1, h2]
  simp [Ne.symm hk]

theorem quiet_joinLines (k : Char) (hk : k ≠ ' ') :
    ∀ (ls : List Str), (∀ l ∈ ls, Indented l) → ∀ b, quiet k (joinLines ls) b = true := by
  intro ls
  induction ls with
  | nil => intro _ b; rfl
  | cons l ls ih =>
    intro h b
    obtain ⟨h1, h2⟩ := quiet_indented k hk l (h l (by simp)) b
    cases ls with
    | nil => simpa [joinLines] using h1
    | cons l2 ls2 =>
      show quiet k (l ++ '\n' :: joinLines (l2 :: ls2)) b = true
      rw [quiet_append, h1, h2, quiet_cons]
      have := ih (fun x hx => h x (by simp [hx])) (isLineTerminator '\n')
      simp [this]

theorem quiet_joinWith (k : Char) (sep : Str) (hsep : ∀ b, quiet k sep b = true) :
    ∀ (xs : List Str), (∀ x ∈ xs, ∀ b, quiet k x b = true) →
      ∀ b, quiet k (joinWith sep xs) b = true := by
  intro xs
  induction xs with
  | nil => intro _ b; rfl
  | cons x xs ih =>
    intro h b
    cases xs with
    | nil => simpa [joinWith] using h x (by simp) b
    | cons y ys =>
      show quiet k (x ++ sep ++ joinWith sep (y :: ys)) b = true
      rw [quiet_append, quiet_append, h x (by simp), hsep,
        ih (fun z hz => h z (by simp [hz]))]
      rfl

theorem joinWith_mem (sep : Str) : ∀ (xs : List Str) (x : Str), x ∈ xs →
    ∃ a b, joinWith sep xs = a ++ x ++ b ∧ (a = [] ∨ ∃ a', a = a' ++ sep) := by
  intro xs
  induction xs with
  | nil => intro x hx; simp at hx
  | cons y ys ih =>
    intro x hx
    cases ys with
    | nil =>
      simp at hx
      subst hx
      exact ⟨[], [], by simp [joinWith], Or.inl rfl⟩
    | cons z zs =>
      rcases List.mem_cons.1 hx with h | h
      · subst h
        exact ⟨[], sep ++ joinWith sep (z :: zs), by simp [joinWith], Or.inl rfl⟩
      · obtain ⟨a, b, hab, ha⟩ := ih x h
        refine ⟨x.take 0 ++ (y ++ sep ++ a), b, ?_, Or.inr ?_⟩
        · show y ++ sep ++ joinWith sep (z :: zs) = _
          rw [hab]; simp
        · rcases ha with rfl | ⟨a', rfl⟩
          · exact ⟨y, by simp⟩
          · exact ⟨y ++ sep ++ a', by simp⟩

theorem generateYAMLEntry_eq (item : Entry) :
    generateYAMLEntry item = joinLines (entryLines item) := rfl

theorem generateYAMLEntry_head (item : Entry) :
    ∃ rest, generateYAMLEntry item = ("  - name: ".toList ++ item.name) ++ '\n' :: rest :=
  ⟨joinLines (entryLines item).tail, rfl⟩

theorem indented_entryLines (item : Entry) (h : item.singleLine) :
    ∀ l ∈ entryLines item, Indented l := by
  obtain ⟨h1, h2, h3, h4, h5, h6⟩ := h
  have hq : noLT [Char.ofNat 34] = true := by decide
  intro l hl
  unfold entryLines at hl
  simp only [List.mem_append, List.mem_cons, List.mem_singleton, List.not_mem_nil, or_false] at hl
  rcases hl with ((hl | hl | hl) | hl) | (hl | hl)
  · exact ⟨" - name: ".toList ++ item.name, by rw [hl]; rfl, by rw [noLT_append, h1]; rfl⟩
  · exact ⟨"   type: ".toList ++ item.type, by rw [hl]; rfl, by rw [noLT_append, h2]; rfl⟩
  · exact ⟨"   category: ".toList ++ item.category, by rw [hl]; rfl,
      by rw [noLT_append, h3]; rfl⟩
  · rcases h6 with h6 | h6
    · rw [h6] at hl; simp at hl
    · rw [h6] at hl
      simp only [List.mem_ite_nil_left, List.mem_singleton] at hl
      exact ⟨"   model: sonnet".toList, by rw [hl.2]; rfl, by decide⟩
  · refine ⟨"   description: ".toList ++ [Char.ofNat 34] ++ item.description ++ [Char.ofNat 34],
      by rw [hl]; rfl, ?_⟩
    rw [noLT_append, noLT_append, h4]; rfl
  · exact ⟨"   source: ".toList ++ item.source, by rw [hl]; rfl, by rw [noLT_append, h5]; rfl⟩

theorem quiet_generateYAMLEntry (k : Char) (hk : k ≠ ' ') (item : Entry)
    (h : item.singleLine) (b : Bool) : quiet k (generateYAMLEntry item) b = true := by
  rw [generateYAMLEntry_eq]
  exact quiet_joinLines k hk _ (indented_entryLines item h) b

theorem noLT_natStr (n : Nat) : noLT (natStr n) = true := by
  rw [noLT_iff]
  intro c hc
  by_contra hl
  have h1 := (natStr_spec n).2.1 c hc
  have := not_digit_of_lineTerminator c (by simpa using hl)
  rw [h1] at this; cases this

theorem indented_bannerLine (count : Nat) (date : Str) (hd : noLT date = true) :
    Indented (bannerLine count date) := by
  refine ⟨" # --- pending-imports (".toList ++ natStr count ++ ") --- Imported ".toList ++ date,
    rfl, ?_⟩
  rw [noLT_append, noLT_append, noLT_append, noLT_natStr, hd]; rfl

theorem mem_splitLines_of_hasLine (t l : Str) (h : HasLine t l) (hl : '\n' ∉ l) :
    l ∈ splitLines t := by
  obtain ⟨a, b, rfl⟩ := h
  apply List.mem_of_mem_tail
  apply mem_tail_splitLines_append
  rw [splitLines_append_newline l b hl]
  simp

theorem hasLine_append_left (x t l : Str) (h : HasLine t l) : HasLine (x ++ t) l := by
  obtain ⟨a, b, rfl⟩ := h
  exact ⟨x ++ a, b, by simp⟩

theorem hasLine_append_right (t y l : Str) (h : HasLine t l) : HasLine (t ++ y) l := by
  obtain ⟨a, b, rfl⟩ := h
  exact ⟨a, b ++ y, by simp⟩

theorem hasLine_cons (c : Char) (t l : Str) (h : HasLine t l) : HasLine (c :: t) l :=
  hasLine_append_left [c] t l h

theorem replaceCounter_cons (key rep : Str) (c : Char) (cs : Str) (b : Bool) :
    replaceCounter key rep (c :: cs) b =
      match (if b then matchCounter key (c :: cs) else none) with
      | some m => rep ++ m.2
      | none => c :: replaceCounter key rep cs (isLineTerminator c) := rfl

theorem replaceCounter_quiet (key rep : Str) (k0 : Char) (ks : Str) (hk : key = k0 :: ks)
    (y : Str) : ∀ (w : Str) (b : Bool), quiet k0 w b = true →
      replaceCounter key rep (w ++ y) b = w ++ replaceCounter key rep y (flagAfter w b) := by
  intro w
  induction w with
  | nil => intro b _; simp [flagAfter]
  | cons c w ih =>
    intro b hq
    simp only [quiet, Bool.and_eq_true, Bool.or_eq_true, Bool.not_eq_true', bne_iff_ne] at hq
    rw [List.cons_append, replaceCounter_cons, flagAfter_cons]
    have hnone : (if b = true then matchCounter key (c :: (w ++ y)) else none) = none := by
      cases b with
      | false => simp
      | true =>
        simp only [if_true]
        rcases hq.1 with h | h
        · cases h
        · exact matchCounter_none_of_head key k0 c ks _ hk h
    rw [hnone]
    simp only [List.cons_append, List.cons.injEq, true_and]
    exact ih _ hq.2

theorem matchCounter_keeps_line (key : Str) (hk : KeyOK key) (a l b : Str) (m : Str × Str)
    (hl : ∃ c0 y, l.dropWhile isJsSpace = c0 :: y ∧ isDigitChar c0 = false)
    (h : matchCounter key (a ++ '\n' :: (l ++ '\n' :: b)) = some m) :
    ∃ a2, m.2 = a2 ++ '\n' :: (l ++ '\n' :: b) := by
  obtain ⟨-, hk3⟩ := hk
  have hnl : '\n' ∉ key := by
    intro hm
    have := hk3 _ hm
    revert this; decide
  unfold matchCounter at h
  rw [isPrefixOf_append_cons_of_not_mem key '\n' hnl a _] at h
  by_cases hp : key.isPrefixOf a = true
  · rw [if_pos hp] at h
    obtain ⟨a', rfl⟩ := List.isPrefixOf_iff_prefix.1 hp
    simp only [List.append_assoc, List.drop_left] at h
    obtain ⟨c0, y, hc0, hc0d⟩ := hl
    by_cases hall : a'.dropWhile isJsSpace = []
    · -- the whitespace runs into the line
      exfalso
      have hsp : isJsSpace '\n' = true := by decide
      have h1 : (a' ++ '\n' :: (l ++ '\n' :: b)).dropWhile isJsSpace =
          c0 :: (y ++ '\n' :: b) := by
        rw [List.dropWhile_append, hall]
        simp only [List.isEmpty_nil, if_true, List.dropWhile_cons, hsp]
        rw [List.dropWhile_append, hc0]
        simp
      rw [h1] at h
      simp [List.takeWhile_cons, hc0d] at h
    · have h1 : (a' ++ '\n' :: (l ++ '\n' :: b)).dropWhile isJsSpace =
          a'.dropWhile isJsSpace ++ '\n' :: (l ++ '\n' :: b) := by
        rw [List.dropWhile_append]; simp [hall]
      rw [h1] at h
      split_ifs at h
      cases h
      simp only
      have hnd : isDigitChar '\n' = false := by decide
      rw [List.dropWhile_append]
      split_ifs
      · exact ⟨[], by simp [List.dropWhile_cons, hnd]⟩
      · exact ⟨_, rfl⟩
  · rw [if_neg hp] at h; cases h

/-- A replaced counter leaves a complete record-start line in the text. -/
theorem hasLine_replaceCounter (key rep : Str) (hk : KeyOK key) (l : Str)
    (hl1 : noLT l = true)
    (hl2 : ∃ c0 y, l.dropWhile isJsSpace = c0 :: y ∧ isDigitChar c0 = false)
    (hl3 : ∃ l', l = ' ' :: l') (b0 : Str) :
    ∀ (a : Str) (b : Bool),
      HasLine (replaceCounter key rep (a ++ '\n' :: (l ++ '\n' :: b0)) b) l := by
  have hk' := hk
  obtain ⟨⟨k0, ks, hkey, hk1, hk2⟩, hk3⟩ := hk'
  have hk0 : k0 ≠ ' ' := by
    intro e; rw [e] at hk1; revert hk1; decide
  have hk0n : k0 ≠ '\n' := by
    intro e; rw [e] at hk1; revert hk1; decide
  intro a
  induction a with
  | nil =>
    intro b
    obtain ⟨l', hl'⟩ := hl3
    have hq : quiet k0 ('\n' :: l) b = true := by
      rw [quiet_cons]
      have h1 := (quiet_indented k0 hk0 l ⟨l', hl', by
        rw [hl'] at hl1
        simp only [noLT, List.all_cons, Bool.and_eq_true] at hl1
        exact hl1.2⟩ (isLineTerminator '\n')).1
      rw [h1]
      simp [Ne.symm hk0n]
    have e : [] ++ '\n' :: (l ++ '\n' :: b0) = ('\n' :: l) ++ '\n' :: b0 := by simp
    rw [e, replaceCounter_quiet key rep k0 ks hkey _ _ b hq, replaceCounter_cons]
    have hnone : (if flagAfter ('\n' :: l) b = true then matchCounter key ('\n' :: b0) else none)
        = none := by
      split_ifs
      · exact matchCounter_none_of_head key k0 '\n' ks _ hkey (Ne.symm hk0n)
      · rfl
    rw [hnone]
    exact ⟨[], replaceCounter key rep b0 (isLineTerminator '\n'), by simp⟩
  | cons c a ih =>
    intro b
    rw [List.cons_append, replaceCounter_cons]
    cases hm : (if b = true then matchCounter key (c :: (a ++ '\n' :: (l ++ '\n' :: b0)))
        else none) with
    | none => exact hasLine_cons _ _ _ (ih _)
    | some m =>
      cases b with
      | false => simp at hm
      | true =>
        simp only [if_true] at hm
        obtain ⟨a2, ha2⟩ := matchCounter_keeps_line key hk (c :: a) l b0 m hl2 hm
        simp only
        rw [ha2]
        exact ⟨rep ++ a2, b0, by simp⟩

theorem insertBefore_spec (marker ins : Str) : ∀ (t c : Str),
    insertBefore marker ins t = some c →
    ∃ u post, t = u ++ post ∧ c = u ++ (ins ++ post) ∧ marker.isPrefixOf post = true := by
  intro t
  induction t with
  | nil =>
    intro c h
    unfold insertBefore at h
    split_ifs at h with h1
    cases h
    refine ⟨[], [], rfl, by simp, ?_⟩
    cases marker with
    | nil => rfl
    | cons m ms => simp at h1
  | cons x t ih =>
    intro c h
    unfold insertBefore at h
    by_cases hp : marker.isPrefixOf (x :: t) = true
    · rw [if_pos hp] at h
      cases h
      exact ⟨[], x :: t, rfl, by simp, hp⟩
    · rw [if_neg hp] at h
      cases hr : insertBefore marker ins t with
      | none => rw [hr] at h; simp at h
      | some r =>
        rw [hr] at h
        simp only [Option.map_some', Option.some.injEq] at h
        obtain ⟨u, post, h1, h2, h3⟩ := ih r hr
        exact ⟨x :: u, post, by rw [h1]; rfl, by rw [← h, h2]; rfl, h3⟩

theorem insertBefore_isSome_of_includes (marker ins : Str) : ∀ t : Str,
    includes t marker = true → ∃ c, insertBefore marker ins t = some c := by
  intro t
  induction t with
  | nil =>
    intro h
    simp only [includes] at h
    exact ⟨ins, by simp [insertBefore, h]⟩
  | cons x t ih =>
    intro h
    simp only [includes, Bool.or_eq_true] at h
    unfold insertBefore
    by_cases hp : marker.isPrefixOf (x :: t) = true
    · exact ⟨_, by rw [if_pos hp]⟩
    · rw [if_neg hp]
      rcases h with h | h
      · exact absurd h hp
      · obtain ⟨c, hc⟩ := ih h
        exact ⟨x :: c, by rw [hc]; rfl⟩

theorem trimEnd_decomp (t : Str) :
    ∃ tail, t = trimEnd t ++ tail ∧ ∀ c ∈ tail, isJsSpace c = true := by
  unfold trimEnd
  induction t using List.reverseRecOn with
  | nil => exact ⟨[], by simp [List.rdropWhile_nil], by simp⟩
  | append_singleton t x ih =>
    by_cases hx : isJsSpace x = true
    · obtain ⟨tail, h1, h2⟩ := ih
      refine ⟨tail ++ [x], ?_, ?_⟩
      · rw [List.rdropWhile_concat_pos _ _ _ hx, ← List.append_assoc, ← h1]
      · intro c hc
        rcases List.mem_append.1 hc with h | h
        · exact h2 c h
        · simp at h; rw [h]; exact hx
    · exact ⟨[], by rw [List.rdropWhile_concat_neg _ _ _ hx]; simp, by simp⟩

theorem marker_shape (post : Str) (h : skillMarker.isPrefixOf post = true) :
    ∃ y, post = ' ' :: ' ' :: '#' :: y := by
  obtain ⟨r, hr⟩ := List.isPrefixOf_iff_prefix.1 h
  exact ⟨" --- godmodedev-new".toList ++ r, by rw [← hr]; rfl⟩

theorem trimEnd_before_marker (x y : Str) :
    ∃ z, trimEnd (x ++ ' ' :: ' ' :: '#' :: y) = x ++ ' ' :: ' ' :: '#' :: z := by
  obtain ⟨z, hz⟩ := rdropWhile_append_cons_of_neg (p := isJsSpace) (x ++ [' ', ' ']) y '#'
    (by decide)
  refine ⟨z, ?_⟩
  unfold trimEnd
  simpa using hz

theorem barrier_of_spaces_hash (y : Str) : Barrier (' ' :: ' ' :: '#' :: y) := by
  constructor
  · rw [List.takeWhile_cons]; rfl
  · have : (' ' :: ' ' :: '#' :: y).dropWhile isJsSpace = '#' :: y := by
      simp [List.dropWhile_cons, isJsSpace]
    rw [this, List.takeWhile_cons]; rfl

theorem barrier_of_all_space (w : Str) (h : ∀ c ∈ w, isJsSpace c = true) : Barrier w := by
  constructor
  · cases w with
    | nil => rfl
    | cons c w =>
      have hc := h c (by simp)
      have : isDigitChar c = false := by
        by_contra hd
        have := not_space_of_digit c (by simpa using hd)
        rw [hc] at this; cases this
      simp [List.takeWhile_cons, this]
  · have : w.dropWhile isJsSpace = [] := by
      rw [List.dropWhile_eq_nil_iff]; exact h
    rw [this]; rfl

theorem bannerLine_head (count : Nat) (date : Str) :
    ∃ y, bannerLine count date = ' ' :: ' ' :: '#' :: y :=
  ⟨" --- pending-imports (".toList ++ natStr count ++ ") --- Imported ".toList ++ date, rfl⟩

theorem skillsSection_head (s : List Entry) (date : Str) :
    ∃ y, skillsSection s date = ' ' :: ' ' :: '#' :: y := by
  obtain ⟨y, hy⟩ := bannerLine_head s.length date
  exact ⟨y ++ "\n".toList ++ joinWith "\n\n".toList (s.map generateYAMLEntry) ++ "\n\n".toList,
    by unfold skillsSection; rw [hy]; simp⟩

theorem agentsSection_head (s : List Entry) (date : Str) :
    ∃ y, agentsSection s date = '\n' :: ' ' :: ' ' :: '#' :: y := by
  obtain ⟨y, hy⟩ := bannerLine_head s.length date
  exact ⟨y ++ "\n".toList ++ joinWith "\n\n".toList (s.map generateYAMLEntry) ++ "\n".toList,
    by unfold agentsSection; rw [hy]; simp⟩

theorem quiet_entries (k : Char) (hk1 : k ≠ ' ') (hk2 : k ≠ '\n') (s : List Entry)
    (hs : ∀ e ∈ s, e.singleLine) (b : Bool) :
    quiet k (joinWith "\n\n".toList (s.map generateYAMLEntry)) b = true := by
  apply quiet_joinWith
  · intro b'
    apply quiet_ne
    intro c hc
    simp at hc
    rw [hc]; exact Ne.symm hk2
  · intro x hx b'
    obtain ⟨e, he, rfl⟩ := List.mem_map.1 hx
    exact quiet_generateYAMLEntry k hk1 e (hs e he) b'

theorem quiet_newlines (k : Char) (hk2 : k ≠ '\n') (s : Str) (hs : ∀ c ∈ s, c = '\n')
    (b : Bool) : quiet k s b = true :=
  quiet_ne k s b (fun c hc => by rw [hs c hc]; exact Ne.symm hk2)

theorem quiet_skillsSection (k : Char) (hk1 : k ≠ ' ') (hk2 : k ≠ '\n') (s : List Entry)
    (date : Str) (hd : noLT date = true) (hs : ∀ e ∈ s, e.singleLine) (b : Bool) :
    quiet k (skillsSection s date) b = true := by
  unfold skillsSection
  rw [quiet_append, quiet_append, quiet_append,
    (quiet_indented k hk1 _ (indented_bannerLine s.length date hd) b).1,
    quiet_newlines k hk2 "\n".toList (by simp), quiet_entries k hk1 hk2 s hs,
    quiet_newlines k hk2 "\n\n".toList (by simp)]
  rfl

theorem quiet_agentsSection (k : Char) (hk1 : k ≠ ' ') (hk2 : k ≠ '\n') (s : List Entry)
    (date : Str) (hd : noLT date = true) (hs : ∀ e ∈ s, e.singleLine) (b : Bool) :
    quiet k (agentsSection s date) b = true := by
  unfold agentsSection
  rw [quiet_append, quiet_append, quiet_append, quiet_append,
    quiet_newlines k hk2 "\n".toList (by simp),
    (quiet_indented k hk1 _ (indented_bannerLine s.length date hd) _).1,
    quiet_newlines k hk2 "\n".toList (by simp), quiet_entries k hk1 hk2 s hs,
    quiet_newlines k hk2 "\n".toList (by simp)]
  rfl

theorem hasLine_entries (pre : Str) (s : List Entry) (e : Entry) (he : e ∈ s) :
    HasLine ((pre ++ "\n".toList) ++ joinWith "\n\n".toList (s.map generateYAMLEntry))
      (nameLine e) := by
  obtain ⟨a, b, hab, ha⟩ := joinWith_mem "\n\n".toList (s.map generateYAMLEntry)
    (generateYAMLEntry e) (List.mem_map.2 ⟨e, he, rfl⟩)
  obtain ⟨rest, hrest⟩ := generateYAMLEntry_head e
  rw [hab, hrest]
  rcases ha with rfl | ⟨a', rfl⟩
  · exact ⟨pre, rest ++ b, by simp [nameLine]⟩
  · exact ⟨pre ++ "\n".toList ++ a' ++ "\n".toList, rest ++ b, by simp [nameLine]⟩

theorem hasLine_skillsSection (s : List Entry) (date : Str) (e : Entry) (he : e ∈ s) :
    HasLine (skillsSection s date) (nameLine e) := by
  unfold skillsSection
  exact hasLine_append_right _ _ _ (hasLine_entries _ s e he)

theorem hasLine_agentsSection (s : List Entry) (date : Str) (e : Entry) (he : e ∈ s) :
    HasLine (agentsSection s date) (nameLine e) := by
  unfold agentsSection
  exact hasLine_append_right _ _ _ (hasLine_entries _ s e he)

theorem keyOK_keyS : KeyOK keyS :=
  ⟨⟨'t', "otal_skills:".toList, rfl, by decide, by decide⟩, by decide⟩

theorem keyOK_keyA : KeyOK keyA :=
  ⟨⟨'t', "otal_agents:".toList, rfl, by decide, by decide⟩, by decide⟩

theorem keyA_differs (y : Str) : keyA.isPrefixOf (keyS ++ y) = false := by
  simp [keyA, keyS, List.isPrefixOf]

theorem keyS_differs (y : Str) : keyS.isPrefixOf (keyA ++ y) = false := by
  simp [keyA, keyS, List.isPrefixOf]

theorem findCounter_flag_irrelevant (key : Str) (k0 : Char) (ks : Str) (hk : key = k0 :: ks)
    (c : Char) (hc : c ≠ k0) (cs : Str) (b1 b2 : Bool) :
    findCounter key (c :: cs) b1 = findCounter key (c :: cs) b2 := by
  have h := matchCounter_none_of_head key k0 c ks cs hk hc
  rw [findCounter_cons, findCounter_cons, h]
  simp

theorem findCounter_quiet_nil (key : Str) (k0 : Char) (ks : Str) (hk : key = k0 :: ks)
    (w : Str) (b : Bool) (hq : quiet k0 w b = true) : findCounter key w b = none := by
  have := findCounter_quiet key k0 ks hk [] w b hq
  simpa [findCounter] using this

/-- The counter found is the same after the skills section is inserted before the marker. -/
theorem findCounter_insert (key : Str) (hk : KeyOK key) (u sec y : Str)
    (hsec : ∃ y2, sec = ' ' :: ' ' :: '#' :: y2)
    (hq : ∀ k, k ≠ ' ' → k ≠ '\n' → ∀ b, quiet k sec b = true) (b : Bool) :
    findCounter key (u ++ (sec ++ ' ' :: ' ' :: '#' :: y)) b =
      findCounter key (u ++ ' ' :: ' ' :: '#' :: y) b := by
  obtain ⟨⟨k0, ks, hkey, hk1, hk2⟩, hk3⟩ := hk
  have hk0 : k0 ≠ ' ' := by
    intro e; rw [e] at hk1; revert hk1; decide
  have hk0n : k0 ≠ '\n' := by
    intro e; rw [e] at hk1; revert hk1; decide
  have hsp : ' ' ∉ key := by
    intro hm
    have := hk3 _ hm
    revert this; decide
  obtain ⟨y2, rfl⟩ := hsec
  have hB1 : Barrier ((' ' :: ' ' :: '#' :: y2) ++ ' ' :: ' ' :: '#' :: y) :=
    barrier_of_spaces_hash _
  have hB2 : Barrier (' ' :: ' ' :: '#' :: y) := barrier_of_spaces_hash _
  rw [findCounter_append key _ hB1 u b
      (fun q _ _ => isPrefixOf_append_cons_of_not_mem key ' ' hsp q _),
    findCounter_append key _ hB2 u b
      (fun q _ _ => isPrefixOf_append_cons_of_not_mem key ' ' hsp q _)]
  cases findCounter key u b with
  | some d => rfl
  | none =>
    simp only
    rw [findCounter_quiet key k0 ks hkey _ _ _ (hq k0 hk0 hk0n _)]
    exact findCounter_flag_irrelevant key k0 ks hkey ' ' (Ne.symm hk0) _ _ _

/-- The counter found is the same after the text is trimmed at its end and the agents
section is appended. -/
theorem findCounter_trimEnd_append (key : Str) (hk : KeyOK key) (t ag : Str)
    (hag : ∃ y, ag = '\n' :: ' ' :: ' ' :: '#' :: y)
    (hq : ∀ k, k ≠ ' ' → k ≠ '\n' → ∀ b, quiet k ag b = true) (b : Bool) :
    findCounter key (trimEnd t ++ ag) b = findCounter key t b := by
  obtain ⟨⟨k0, ks, hkey, hk1, hk2⟩, hk3⟩ := hk
  have hk0 : k0 ≠ ' ' := by
    intro e; rw [e] at hk1; revert hk1; decide
  have hk0n : k0 ≠ '\n' := by
    intro e; rw [e] at hk1; revert hk1; decide
  have hnl : '\n' ∉ key := by
    intro hm
    have := hk3 _ hm
    revert this; decide
  obtain ⟨tail, ht, htail⟩ := trimEnd_decomp t
  obtain ⟨y, rfl⟩ := hag
  have hB1 : Barrier ('\n' :: ' ' :: ' ' :: '#' :: y) := by
    constructor
    · rw [List.takeWhile_cons]; rfl
    · have : ('\n' :: ' ' :: ' ' :: '#' :: y).dropWhile isJsSpace = '#' :: y := by
        simp [List.dropWhile_cons, isJsSpace]
      rw [this, List.takeWhile_cons]; rfl
  have hB2 : Barrier tail := barrier_of_all_space tail htail
  have hns2 : ∀ q : Str, key.isPrefixOf (q ++ tail) = key.isPrefixOf q := by
    intro q
    cases tail with
    | nil => simp
    | cons c tl =>
      have hc : c ∉ key := by
        intro hm
        have h1 := hk3 c hm
        rw [htail c (by simp)] at h1
        cases h1
      exact isPrefixOf_append_cons_of_not_mem key c hc q tl
  have htq : quiet k0 tail (flagAfter (trimEnd t) b) = true := by
    apply quiet_ne
    intro c hc e
    rw [e] at hc
    rw [htail k0 hc] at hk1
    cases hk1
  conv_rhs => rw [ht]
  rw [findCounter_append key _ hB1 _ b
      (fun q _ _ => isPrefixOf_append_cons_of_not_mem key '\n' hnl q _),
    findCounter_append key _ hB2 _ b (fun q _ _ => hns2 q)]
  cases findCounter key (trimEnd t) b with
  | some d => rfl
  | none =>
    simp only
    rw [findCounter_quiet_nil key k0 ks hkey _ _ (hq k0 hk0 hk0n _),
      findCounter_quiet_nil key k0 ks hkey _ _ htq]

theorem nameLine_facts (e : Entry) (h : e.singleLine) :
    noLT (nameLine e) = true ∧
    (∃ c0 y, (nameLine e).dropWhile isJsSpace = c0 :: y ∧ isDigitChar c0 = false) ∧
    (∃ l', nameLine e = ' ' :: l') ∧ '\n' ∉ nameLine e := by
  have h1 : noLT (nameLine e) = true := by
    unfold nameLine; rw [noLT_append, h.1]; rfl
  refine ⟨h1, ⟨'-', " name: ".toList ++ e.name, ?_, by decide⟩,
    ⟨" - name: ".toList ++ e.name, rfl⟩, ?_⟩
  · simp [nameLine, List.dropWhile_cons, isJsSpace]
  · intro hm
    have := (noLT_iff _).1 h1 _ hm
    revert this; decide

theorem hasLine_bumpCounter (key : Str) (hk : KeyOK key) (found : Option Str) (added : Nat)
    (t : Str) (e : Entry) (he : e.singleLine) (h : HasLine t (nameLine e)) :
    HasLine (bumpCounter key found added t) (nameLine e) := by
  unfold bumpCounter
  cases found with
  | none => exact h
  | some d =>
    obtain ⟨a, b, rfl⟩ := h
    obtain ⟨h1, h2, h3, -⟩ := nameLine_facts e he
    exact hasLine_replaceCounter key _ hk (nameLine e) h1 h2 h3 b a true

theorem findCounter_bump_same (key : Str) (hk : KeyOK key) (added : Nat) (t : Str) :
    (findCounter key (bumpCounter key (findCounter key t true) added t) true).map parseInt =
      ((findCounter key t true).map parseInt).map (fun v => v + added) := by
  unfold bumpCounter
  cases hf : findCounter key t true with
  | none => simp [hf]
  | some d =>
    obtain ⟨n1, n2, n3⟩ := natStr_spec (parseInt d + added)
    simp only
    rw [findCounter_replace_same key hk _ n1 n2, hf]
    simp [n3]

theorem findCounter_bump_other (key key2 : Str) (hk : KeyOK key) (hk2 : KeyOK key2)
    (hdiff : ∀ y, key2.isPrefixOf (key ++ y) = false) (found : Option Str) (added : Nat)
    (t : Str) :
    findCounter key2 (bumpCounter key found added t) true = findCounter key2 t true := by
  unfold bumpCounter
  cases found with
  | none => rfl
  | some d =>
    obtain ⟨n1, n2, -⟩ := natStr_spec (parseInt d + added)
    exact findCounter_replace_other key key2 hk hk2 hdiff _ n1 n2 t true

theorem insertSkills_spec (idx : Str) (s : Sorted) (date : Str) (hd : noLT date = true)
    (hs : ∀ e ∈ s.newSkills, e.singleLine)
    (hmarker : s.newSkills = [] ∨ includes idx skillMarker = true) :
    (∀ key, KeyOK key →
      findCounter key (insertSkills idx s date) true = findCounter key idx true) ∧
    (∀ e ∈ s.newSkills, HasLine (insertSkills idx s date) (nameLine e) ∧
      HasLine (trimEnd (insertSkills idx s date)) (nameLine e)) := by
  by_cases hnil : s.newSkills = []
  · have e1 : insertSkills idx s date = idx := by simp [insertSkills, hnil]
    rw [e1, hnil]
    exact ⟨fun _ _ => rfl, by simp⟩
  · have hinc : includes idx skillMarker = true := by
      rcases hmarker with h | h
      · exact absurd h hnil
      · exact h
    have hpos : 0 < s.newSkills.length := List.length_pos.2 hnil
    obtain ⟨c, hc⟩ := insertBefore_isSome_of_includes skillMarker
      (skillsSection s.newSkills date) idx hinc
    have e1 : insertSkills idx s date = c := by simp [insertSkills, hpos, hc]
    obtain ⟨u, post, h1, h2, h3⟩ := insertBefore_spec _ _ _ _ hc
    obtain ⟨y, rfl⟩ := marker_shape post h3
    rw [e1, h2, h1]
    constructor
    · intro key hk
      exact findCounter_insert key hk u _ y (skillsSection_head _ _)
        (fun k hk1 hk2 b => quiet_skillsSection k hk1 hk2 _ date hd hs b) true
    · intro e he
      have hl := hasLine_skillsSection s.newSkills date e he
      constructor
      · exact hasLine_append_left u _ _ (hasLine_append_right _ _ _ hl)
      · obtain ⟨z, hz⟩ := trimEnd_before_marker (u ++ skillsSection s.newSkills date) y
        have e2 : u ++ (skillsSection s.newSkills date ++ ' ' :: ' ' :: '#' :: y) =
            (u ++ skillsSection s.newSkills date) ++ ' ' :: ' ' :: '#' :: y := by simp
        rw [e2, hz]
        exact hasLine_append_right _ _ _ (hasLine_append_left u _ _ hl)

theorem appendAgents_spec (c1 : Str) (s : Sorted) (date : Str) (hd : noLT date = true)
    (hs : ∀ e ∈ s.newAgents, e.singleLine) :
    (∀ key, KeyOK key →
      findCounter key (appendAgents c1 s date) true = findCounter key c1 true) ∧
    (∀ e ∈ s.newAgents, HasLine (appendAgents c1 s date) (nameLine e)) ∧
    (∀ l, HasLine c1 l → HasLine (trimEnd c1) l → HasLine (appendAgents c1 s date) l) := by
  by_cases hnil : s.newAgents = []
  · have e1 : appendAgents c1 s date = c1 := by simp [appendAgents, hnil]
    rw [e1, hnil]
    exact ⟨fun _ _ => rfl, by simp, fun _ h _ => h⟩
  · have hpos : 0 < s.newAgents.length := List.length_pos.2 hnil
    have e1 : appendAgents c1 s date = trimEnd c1 ++ agentsSection s.newAgents date := by
      simp [appendAgents, hpos]
    rw [e1]
    refine ⟨?_, ?_, ?_⟩
    · intro key hk
      exact findCounter_trimEnd_append key hk c1 _ (agentsSection_head _ _)
        (fun k hk1 hk2 b => quiet_agentsSection k hk1 hk2 _ date hd hs b) true
    · intro e he
      exact hasLine_append_left _ _ _ (hasLine_agentsSection _ date e he)
    · intro l _ h2
      exact hasLine_append_right _ _ _ h2

theorem updateCounters_spec (c2 : Str) (s : Sorted) :
    counterValue keyS (updateCounters c2 s) =
      (counterValue keyS c2).map (fun v => v + s.newSkills.length) ∧
    counterValue keyA (updateCounters c2 s) =
      (counterValue keyA c2).map (fun v => v + s.newAgents.length) ∧
    (∀ e : Entry, e.singleLine → HasLine c2 (nameLine e) →
      HasLine (updateCounters c2 s) (nameLine e)) := by
  have hA3 : findCounter keyA
      (bumpCounter keyS (findCounter keyS c2 true) s.newSkills.length c2) true =
      findCounter keyA c2 true :=
    findCounter_bump_other keyS keyA keyOK_keyS keyOK_keyA keyA_differs _ _ _
  refine ⟨?_, ?_, ?_⟩
  · show (findCounter keyS (bumpCounter keyA (findCounter keyA c2 true) s.newAgents.length
        (bumpCounter keyS (findCounter keyS c2 true) s.newSkills.length c2)) true).map parseInt = _
    rw [findCounter_bump_other keyA keyS keyOK_keyA keyOK_keyS keyS_differs]
    exact findCounter_bump_same keyS keyOK_keyS _ _
  · show (findCounter keyA (bumpCounter keyA (findCounter keyA c2 true) s.newAgents.length
        (bumpCounter keyS (findCounter keyS c2 true) s.newSkills.length c2)) true).map parseInt = _
    rw [← hA3]
    rw [findCounter_bump_same keyA keyOK_keyA, hA3]
    rfl
  · intro e he h
    exact hasLine_bumpCounter keyA keyOK_keyA _ _ _ e he
      (hasLine_bumpCounter keyS keyOK_keyS _ _ _ e he h)

/-- C5 (the code departs from the claim): `indexWithoutMarker` lacks the marker
`  # --- godmodedev-new`.  The item `beta` is counted as a new skill, the script inserts no
record (no line of the written text holds the name), and step 7 still raises `total_skills`
from 1 to 2. -/
theorem c5_counted_skill_not_inserted :
    (sortItems asciiLower (existingNames (stripBOM indexWithoutMarker)) pendingOne).newSkills.map
        (fun e => e.name) = ["beta".toList] ∧
    includes indexWithoutMarker skillMarker = false ∧
    counterValue keyS indexWithoutMarker = some 1 ∧
    (importWith asciiLower "2026-01-01".toList indexWithoutMarker pendingOne).map
      (counterValue keyS) = some (some 2) ∧
    importWith asciiLower "2026-01-01".toList indexWithoutMarker pendingOne =
      some ("total_skills: 2\ntotal_agents: 0\nskills:\n" ++
        "  - name: alpha\n    type: skill\n").toList ∧
    "  - name: beta".toList ∉
      splitLines (("total_skills: 2\ntotal_agents: 0\nskills:\n" ++
        "  - name: alpha\n    type: skill\n").toList) := by
  decide

/-- Why `import_inserts_and_counts` asks for fields without line terminators: on
`indexWithoutCounters`
the type of the pending item holds a carriage return, the inserted text then holds a line
start followed by `total_skills: 5`, and step 7 rewrites it, so the written text has a
counter where the index had none. -/
theorem import_field_with_line_terminator_adds_counter :
    counterValue keyS indexWithoutCounters = none ∧
    (importWith asciiLower "2026-01-01".toList indexWithoutCounters pendingWithReturn).map
      (counterValue keyS) = some (some 6) := by
  decide

theorem insertBefore_none_of_not_includes (marker ins : Str) : ∀ t : Str,
    includes t marker = false → insertBefore marker ins t = none := by
  intro t
  induction t with
  | nil =>
    intro h
    simp only [includes] at h
    simp [insertBefore, h]
  | cons x t ih =>
    intro h
    simp only [includes, Bool.or_eq_false_iff] at h
    unfold insertBefore
    rw [if_neg (by rw [h.1]; simp), ih h.2]
    rfl

theorem insertSkills_without_marker (idx : Str) (s : Sorted) (date : Str)
    (h : ¬ (s.newSkills = [] ∨ includes idx skillMarker = true)) :
    insertSkills idx s date = idx := by
  have h2 : includes idx skillMarker = false := by
    cases hi : includes idx skillMarker with
    | false => rfl
    | true => exact absurd (Or.inr hi) h
  unfold insertSkills
  rw [insertBefore_none_of_not_includes _ _ _ h2]
  split_ifs <;> rfl

/-- For pending items and a date whose fields hold no line terminator, every
item counted as a new agent has the line `  - name: <name>` in the written text, and the
first `total_agents:` counter of the text after the byte-order mark rises by exactly the
number of new agents, all of which were inserted.  When the index text holds the marker
`  # --- godmodedev-new`, or no new skill is counted, the same holds for the new skills and
the first `total_skills:` counter.  The two bounds keep the numbers in the range where
JavaScript numbers are exact. -/
theorem import_inserts_and_counts (lower : Str → Str) (date raw : Str)
    (items : List Item) (out : Str)
    (hout : importWith lower date raw items = some out)
    (hsingle : ∀ it ∈ items, it.singleLine = true)
    (hdate : noLT date = true)
    (_hsafeS : (counterValue keyS (stripBOM raw)).getD 0 +
      (sortItems lower (existingNames (stripBOM raw)) items).newSkills.length < 2 ^ 53)
    (_hsafeA : (counterValue keyA (stripBOM raw)).getD 0 +
      (sortItems lower (existingNames (stripBOM raw)) items).newAgents.length < 2 ^ 53) :
    ∃ body, out = (if raw.head? = some (Char.ofNat 65279) then [Char.ofNat 65279] else []) ++ body ∧
      (∀ e ∈ (sortItems lower (existingNames (stripBOM raw)) items).newAgents,
        nameLine e ∈ splitLines out) ∧
      counterValue keyA body = (counterValue keyA (stripBOM raw)).map
        (fun v => v + (sortItems lower (existingNames (stripBOM raw)) items).newAgents.length) ∧
      ((sortItems lower (existingNames (stripBOM raw)) items).newSkills = [] ∨
          includes (stripBOM raw) skillMarker = true →
        (∀ e ∈ (sortItems lower (existingNames (stripBOM raw)) items).newSkills,
          nameLine e ∈ splitLines out) ∧
        counterValue keyS body = (counterValue keyS (stripBOM raw)).map
          (fun v => v + (sortItems lower (existingNames (stripBOM raw)) items).newSkills.length)) := by
  obtain ⟨hS, hA⟩ := singleLine_sortItems lower (existingNames (stripBOM raw)) items hsingle
  generalize hs : sortItems lower (existingNames (stripBOM raw)) items = s at *
  have hbody : out = (if raw.head? = some (Char.ofNat 65279) then [Char.ofNat 65279] else []) ++
      updateContent (stripBOM raw) s date := by
    unfold importWith at hout
    simp only [hs] at hout
    split_ifs at hout with h1 h2
    · simp only [Option.some.injEq] at hout
      rw [← hout]; simp [h2]
    · simp only [Option.some.injEq] at hout
      rw [← hout]; simp [h2]
  obtain ⟨b1, b2, b3⟩ := appendAgents_spec (insertSkills (stripBOM raw) s date) s date hdate hA
  obtain ⟨c1, c2, c3⟩ := updateCounters_spec
    (appendAgents (insertSkills (stripBOM raw) s date) s date) s
  have hmem : ∀ e : Entry, e.singleLine →
      HasLine (appendAgents (insertSkills (stripBOM raw) s date) s date) (nameLine e) →
      nameLine e ∈ splitLines out := by
    intro e hsl hline
    rw [hbody]
    exact mem_splitLines_of_hasLine _ _ (hasLine_append_left _ _ _ (c3 e hsl hline))
      (nameLine_facts e hsl).2.2.2
  have hAcount : findCounter keyA (insertSkills (stripBOM raw) s date) true =
      findCounter keyA (stripBOM raw) true := by
    by_cases hm : s.newSkills = [] ∨ includes (stripBOM raw) skillMarker = true
    · exact (insertSkills_spec (stripBOM raw) s date hdate hS hm).1 keyA keyOK_keyA
    · rw [insertSkills_without_marker _ _ _ hm]
  refine ⟨updateContent (stripBOM raw) s date, hbody, ?_, ?_, ?_⟩
  · intro e he
    exact hmem e (hA e he) (b2 e he)
  · show counterValue keyA (updateCounters _ s) = _
    rw [c2]
    unfold counterValue
    rw [b1 keyA keyOK_keyA, hAcount]
  · intro hmarker
    obtain ⟨a1, a2⟩ := insertSkills_spec (stripBOM raw) s date hdate hS hmarker
    constructor
    · intro e he
      exact hmem e (hS e he) (b3 _ (a2 e he).1 (a2 e he).2)
    · show counterValue keyS (updateCounters _ s) = _
      rw [c1]
      unfold counterValue
      rw [b1 keyS keyOK_keyS, a1 keyS keyOK_keyS]

/-- Example: `indexWithMarker` with the new skill `beta` and the new agent `gamma`. -/
theorem import_inserts_and_counts_example :
    importWith asciiLower "2026-01-01".toList indexWithMarker pendingTwo =
      some ("total_skills: 2\ntotal_agents: 2\nskills:\n  - name: alpha\n    type: skill\n\n" ++
        "  # --- pending-imports (1) --- Imported 2026-01-01\n" ++
        "  - name: beta\n    type: skill\n    category: general\n" ++
        "    description: \"A helper\"\n    source: PENDING/beta\n\n" ++
        "  # --- godmodedev-new (0) ---\n\nagents:\n  - name: omega\n    type: agent\n" ++
        "  # --- pending-imports (1) --- Imported 2026-01-01\n" ++
        "  - name: gamma\n    type: agent\n    category: general\n    model: sonnet\n" ++
        "    description: \"No description available\"\n    source: PENDING/gamma\n").toList ∧
    (∀ it ∈ pendingTwo, it.singleLine = true) ∧
    noLT "2026-01-01".toList = true ∧
    includes (stripBOM indexWithMarker) skillMarker = true ∧
    counterValue keyS (stripBOM indexWithMarker) = some 1 ∧
    counterValue keyA (stripBOM indexWithMarker) = some 1 ∧
    (sortItems asciiLower (existingNames (stripBOM indexWithMarker)) pendingTwo).newSkills.map
      (fun e => e.name) = ["beta".toList] ∧
    (sortItems asciiLower (existingNames (stripBOM indexWithMarker)) pendingTwo).newAgents.map
      (fun e => e.name) = ["gamma".toList] ∧
    ∃ body, ("total_skills: 2\ntotal_agents: 2\nskills:\n  - name: alpha\n    type: skill\n\n" ++
        "  # --- pending-imports (1) --- Imported 2026-01-01\n" ++
        "  - name: beta\n    type: skill\n    category: general\n" ++
        "    description: \"A helper\"\n    source: PENDING/beta\n\n" ++
        "  # --- godmodedev-new (0) ---\n\nagents:\n  - name: omega\n    type: agent\n" ++
        "  # --- pending-imports (1) --- Imported 2026-01-01\n" ++
        "  - name: gamma\n    type: agent\n    category: general\n    model: sonnet\n" ++
        "    description: \"No description available\"\n    source: PENDING/gamma\n").toList =
        (if indexWithMarker.head? = some (Char.ofNat 65279) then [Char.ofNat 65279] else []) ++
          body ∧
      counterValue keyA body = (counterValue keyA (stripBOM indexWithMarker)).map
        (fun v => v +
          (sortItems asciiLower (existingNames (stripBOM indexWithMarker))
            pendingTwo).newAgents.length) :=
  ⟨by decide, by decide, by decide, by decide, by decide, by decide, by decide, by decide,
   (import_inserts_and_counts asciiLower "2026-01-01".toList indexWithMarker pendingTwo _
      (by decide) (by decide) (by decide) (by decide) (by decide)).imp
      (fun _ h => ⟨h.1, h.2.2.1⟩)⟩

theorem head_insertBefore (marker ins : Str) (a : Char) (t : Str) (hins : ins = a :: t)
    (content c : Str) (h : insertBefore marker ins content = some c) :
    c.head? = some a ∨ c.head? = content.head? := by
  cases content with
  | nil =>
    unfold insertBefore at h
    split_ifs at h
    cases h
    left; rw [hins]; rfl
  | cons c0 cs =>
    rw [insertBefore] at h
    split_ifs at h
    · cases h
      left; rw [hins]; rfl
    · cases hr : insertBefore marker ins cs with
      | none => rw [hr] at h; cases h
      | some r =>
        rw [hr] at h
        cases h
        right; rfl

theorem head_insertSkills (content : Str) (s : Sorted) (date : Str) :
    (insertSkills content s date).head? = some ' ' ∨
      (insertSkills content s date).head? = content.head? := by
  unfold insertSkills
  split_ifs
  · cases h : insertBefore skillMarker (skillsSection s.newSkills date) content with
    | none => right; rfl
    | some c =>
      obtain ⟨y, hy⟩ := skillsSection_head s.newSkills date
      exact head_insertBefore _ _ ' ' _ hy content c h
  · right; rfl

theorem head_appendAgents (content : Str) (s : Sorted) (date : Str) :
    (appendAgents content s date).head? = some '\n' ∨
      (appendAgents content s date).head? = content.head? := by
  unfold appendAgents
  split_ifs
  · obtain ⟨tail, h1, _⟩ := trimEnd_decomp content
    obtain ⟨y, hy⟩ := agentsSection_head s.newAgents date
    cases ht : trimEnd content with
    | nil => left; rw [hy]; rfl
    | cons d t =>
      right
      rw [ht] at h1
      rw [h1]
      rfl
  · right; rfl

theorem head_replaceCounter (key rep : Str) (a : Char) (t : Str) (hrep : rep = a :: t)
    (content : Str) (b : Bool) :
    (replaceCounter key rep content b).head? = some a ∨
      (replaceCounter key rep content b).head? = content.head? := by
  cases content with
  | nil => right; rfl
  | cons c cs =>
    rw [replaceCounter_cons]
    cases (if b then matchCounter key (c :: cs) else none) with
    | none => right; rfl
    | some m => left; rw [hrep]; rfl

theorem head_bumpCounter (ks : Str) (found : Option Str) (added : Nat) (content : Str) :
    (bumpCounter ('t' :: ks) found added content).head? = some 't' ∨
      (bumpCounter ('t' :: ks) found added content).head? = content.head? := by
  unfold bumpCounter
  cases found with
  | none => right; rfl
  | some digits => exact head_replaceCounter _ _ 't' _ rfl content true

/-- The first character of `updatedContent` at the write is the first character of the index
text, a space, a line feed or the letter `t`. -/
theorem head_updateContent (content : Str) (s : Sorted) (date : Str) :
    (updateContent content s date).head? = content.head? ∨
      ∃ a, (updateContent content s date).head? = some a ∧ (a = ' ' ∨ a = '\n' ∨ a = 't') := by
  unfold updateContent updateCounters
  have h4 := head_bumpCounter "otal_agents:".toList
    (findCounter "total_agents:".toList (appendAgents (insertSkills content s date) s date) true)
    s.newAgents.length
    (bumpCounter "total_skills:".toList
      (findCounter "total_skills:".toList (appendAgents (insertSkills content s date) s date) true)
      s.newSkills.length (appendAgents (insertSkills content s date) s date))
  have h3 := head_bumpCounter "otal_skills:".toList
    (findCounter "total_skills:".toList (appendAgents (insertSkills content s date) s date) true)
    s.newSkills.length (appendAgents (insertSkills content s date) s date)
  have h2 := head_appendAgents (insertSkills content s date) s date
  have h1 := head_insertSkills content s date
  rcases h4 with h4 | h4
  · exact Or.inr ⟨'t', h4, Or.inr (Or.inr rfl)⟩
  · rcases h3 with h3 | h3
    · exact Or.inr ⟨'t', h4.trans h3, Or.inr (Or.inr rfl)⟩
    · rcases h2 with h2 | h2
      · exact Or.inr ⟨'\n', (h4.trans h3).trans h2, Or.inr (Or.inl rfl)⟩
      · rcases h1 with h1 | h1
        · exact Or.inr ⟨' ', ((h4.trans h3).trans h2).trans h1, Or.inl rfl⟩
        · exact Or.inl (((h4.trans h3).trans h2).trans h1)

/-- C18: whenever the script writes, the text written begins with the byte-order mark U+FEFF
if and only if the text read did. -/
theorem c18_bom_written_iff_read (lower : Str → Str) (date raw : Str) (items : List Item)
    (out : Str) (hout : importWith lower date raw items = some out) :
    out.head? = some (Char.ofNat 65279) ↔ raw.head? = some (Char.ofNat 65279) := by
  unfold importWith at hout
  simp only at hout
  split_ifs at hout with h0 hb
  · cases hout
    constructor
    · intro _; exact hb
    · intro _; rfl
  · cases hout
    have hstrip : stripBOM raw = raw := by
      unfold stripBOM
      rw [if_neg hb]
    rw [hstrip, List.nil_append]
    constructor
    · intro h
      rcases head_updateContent raw
          (sortItems lower (existingNames raw) items) date with h1 | ⟨a, h1, h2⟩
      · rw [← h1]; exact h
      · rw [h1] at h
        simp only [Option.some.injEq] at h
        rw [h] at h2
        exact absurd h2 (by decide)
    · intro h
      exact absurd h hb

/-- C18 witness: for `indexWithBOM`, which begins with U+FEFF, and `pendingTwo` the script
writes `importedWithBOM`, which begins with U+FEFF. -/
theorem c18_bom_written_iff_read_witness :
    importWith asciiLower "2026-01-01".toList indexWithBOM pendingTwo = some importedWithBOM ∧
    importedWithBOM.head? = some (Char.ofNat 65279) ∧
    (importedWithBOM.head? = some (Char.ofNat 65279) ↔
      indexWithBOM.head? = some (Char.ofNat 65279)) :=
  ⟨by decide, by decide,
   c18_bom_written_iff_read asciiLower "2026-01-01".toList indexWithBOM pendingTwo
     importedWithBOM (by decide)⟩

/-- An item whose name is in `existingNames` only adds its name to `skipped`. -/
theorem sortStep_existing (lower : Str → Str) (existing : List Str) (acc : Sorted) (item : Item)
    (h : fixGenericName lower item ∈ existing) :
    sortStep lower existing acc item =
      { acc with skipped := acc.skipped ++ [fixGenericName lower item] } := by
  unfold sortStep
  simp only [if_pos h]

theorem sortStep_fields (lower : Str → Str) (existing : List Str) (acc : Sorted) (item : Item) :
    (∀ n ∈ acc.skipped, n ∈ (sortStep lower existing acc item).skipped) ∧
    (∀ e ∈ (sortStep lower existing acc item).newSkills ++
        (sortStep lower existing acc item).newAgents,
      e ∈ acc.newSkills ++ acc.newAgents ∨ e.name = fixGenericName lower item ∧
        fixGenericName lower item ∉ existing) := by
  unfold sortStep
  simp only
  split_ifs with h1 h2
  · exact ⟨fun n hn => List.mem_append_left _ hn, fun e he => Or.inl he⟩
  · refine ⟨fun n hn => hn, fun e he => ?_⟩
    simp only [List.mem_append, List.mem_singleton] at he ⊢
    rcases he with he | he | he
    · exact Or.inl (Or.inl he)
    · exact Or.inl (Or.inr he)
    · right; rw [he]; exact ⟨rfl, h1⟩
  · refine ⟨fun n hn => hn, fun e he => ?_⟩
    simp only [List.mem_append, List.mem_singleton] at he ⊢
    rcases he with (he | he) | he
    · exact Or.inl (Or.inl he)
    · right; rw [he]; exact ⟨rfl, h1⟩
    · exact Or.inl (Or.inr he)

/-- The loop over the pending items, started from any lists: skipped names stay, and every
new entry bears a name outside `existingNames`. -/
theorem foldl_sortStep_fields (lower : Str → Str) (existing : List Str) (items : List Item) :
    ∀ acc : Sorted,
      (∀ n ∈ acc.skipped, n ∈ (items.foldl (sortStep lower existing) acc).skipped) ∧
      (∀ e ∈ (items.foldl (sortStep lower existing) acc).newSkills ++
          (items.foldl (sortStep lower existing) acc).newAgents,
        e ∈ acc.newSkills ++ acc.newAgents ∨ e.name ∉ existing) := by
  induction items with
  | nil => intro acc; exact ⟨fun n hn => hn, fun e he => Or.inl he⟩
  | cons it items ih =>
    intro acc
    obtain ⟨h1, h2⟩ := ih (sortStep lower existing acc it)
    obtain ⟨g1, g2⟩ := sortStep_fields lower existing acc it
    refine ⟨fun n hn => h1 n (g1 n hn), fun e he => ?_⟩
    rcases h2 e he with h | h
    · rcases g2 e h with g | ⟨g, g'⟩
      · exact Or.inl g
      · right; rw [g]; exact g'
    · exact Or.inr h

/-- The loop over the pending items depends on the lists of new entries only through the
new entries: a different `skipped` list gives the same new entries. -/
theorem foldl_sortStep_skipped (lower : Str → Str) (existing : List Str) (items : List Item) :
    ∀ (acc : Sorted) (sk : List Str),
      (items.foldl (sortStep lower existing) { acc with skipped := sk }).newSkills =
        (items.foldl (sortStep lower existing) acc).newSkills ∧
      (items.foldl (sortStep lower existing) { acc with skipped := sk }).newAgents =
        (items.foldl (sortStep lower existing) acc).newAgents := by
  induction items with
  | nil => intro acc sk; exact ⟨rfl, rfl⟩
  | cons it items ih =>
    intro acc sk
    simp only [List.foldl_cons]
    have hstep : sortStep lower existing { acc with skipped := sk } it =
        { sortStep lower existing acc it with
          skipped := (sortStep lower existing { acc with skipped := sk } it).skipped } := by
      unfold sortStep
      simp only
      split_ifs <;> rfl
    rw [hstep]
    exact ih _ _

/-- C19: a pending item whose name after `fixGenericName` is among the record names the
script collected from the index is not imported: its name goes to `skipped`, no entry of
`newSkills` or `newAgents` bears its name, both lists are what they are without the item,
and the script writes what it writes without the item (the same lines, the same counters),
or writes nothing in both cases. -/
theorem c19_existing_name_is_skipped (lower : Str → Str) (date raw : Str)
    (before after : List Item) (item : Item)
    (hex : fixGenericName lower item ∈ existingNames (stripBOM raw)) :
    fixGenericName lower item ∈
      (sortItems lower (existingNames (stripBOM raw)) (before ++ item :: after)).skipped ∧
    (∀ e ∈ (sortItems lower (existingNames (stripBOM raw)) (before ++ item :: after)).newSkills ++
        (sortItems lower (existingNames (stripBOM raw)) (before ++ item :: after)).newAgents,
      e.name ≠ fixGenericName lower item) ∧
    (sortItems lower (existingNames (stripBOM raw)) (before ++ item :: after)).newSkills =
      (sortItems lower (existingNames (stripBOM raw)) (before ++ after)).newSkills ∧
    (sortItems lower (existingNames (stripBOM raw)) (before ++ item :: after)).newAgents =
      (sortItems lower (existingNames (stripBOM raw)) (before ++ after)).newAgents ∧
    importWith lower date raw (before ++ item :: after) =
      importWith lower date raw (before ++ after) := by
  generalize hE : existingNames (stripBOM raw) = existing at hex
  have hsk : fixGenericName lower item ∈
      (sortItems lower existing (before ++ item :: after)).skipped := by
    unfold sortItems
    rw [List.foldl_append, List.foldl_cons, sortStep_existing _ _ _ _ hex]
    exact (foldl_sortStep_fields lower existing after _).1 _ (by simp)
  have hnot : ∀ e ∈ (sortItems lower existing (before ++ item :: after)).newSkills ++
      (sortItems lower existing (before ++ item :: after)).newAgents,
      e.name ≠ fixGenericName lower item := by
    intro e he heq
    rcases (foldl_sortStep_fields lower existing (before ++ item :: after) _).2 e he with h | h
    · simp at h
    · rw [heq] at h
      exact h hex
  have hsame : (sortItems lower existing (before ++ item :: after)).newSkills =
        (sortItems lower existing (before ++ after)).newSkills ∧
      (sortItems lower existing (before ++ item :: after)).newAgents =
        (sortItems lower existing (before ++ after)).newAgents := by
    unfold sortItems
    rw [List.foldl_append, List.foldl_cons, sortStep_existing _ _ _ _ hex, List.foldl_append]
    exact foldl_sortStep_skipped lower existing after _ _
  refine ⟨hsk, hnot, hsame.1, hsame.2, ?_⟩
  unfold importWith
  simp only [hE]
  rcases hs : sortItems lower existing (before ++ item :: after) with ⟨s1, a1, k1⟩
  rcases hs' : sortItems lower existing (before ++ after) with ⟨s2, a2, k2⟩
  rw [hs, hs'] at hsame
  obtain ⟨e1, e2⟩ := hsame
  simp only at e1 e2
  subst e1 e2
  rfl

/-- C19 witness: `alpha` is a record name of `indexWithMarker`; the pending item `alpha` is
skipped and the script writes what it writes for the other two items. -/
theorem c19_existing_name_is_skipped_witness :
    fixGenericName asciiLower
        { name := "alpha".toList, type := "skill".toList,
          description := some "Already there".toList, source_path := none } ∈
      existingNames (stripBOM indexWithMarker) ∧
    (sortItems asciiLower (existingNames (stripBOM indexWithMarker))
        pendingWithExisting).skipped = ["alpha".toList] ∧
    importWith asciiLower "2026-01-01".toList indexWithMarker
        ([] ++ { name := "alpha".toList, type := "skill".toList,
                 description := some "Already there".toList, source_path := none } ::
          pendingTwo) =
      importWith asciiLower "2026-01-01".toList indexWithMarker ([] ++ pendingTwo) :=
  ⟨by decide, by decide,
   (c19_existing_name_is_skipped asciiLower "2026-01-01".toList indexWithMarker [] pendingTwo
      { name := "alpha".toList, type := "skill".toList,
        description := some "Already there".toList, source_path := none }
      (by decide)).2.2.2.2⟩

theorem jsLength_cons (c : Char) (s : Str) :
    jsLength (c :: s) = (if c.toNat < 65536 then 1 else 2) + jsLength s := by
  simp [jsLength]

theorem jsLength_append (a b : Str) : jsLength (a ++ b) = jsLength a + jsLength b := by
  simp [jsLength]

theorem substringTo_succ_cons (n : Nat) (c : Char) (cs : Str) :
    substringTo (n + 1) (c :: cs) =
      if c.toNat < 65536 then c :: substringTo n cs
      else match n with
        | 0 => [Char.ofNat 65533]
        | m + 1 => c :: substringTo m cs := by
  cases n <;> rfl

/-- The text `substringTo n s` has `min n (s.length)` UTF-16 units. -/
theorem jsLength_substringTo (s : Str) :
    ∀ n, jsLength (substringTo n s) = min n (jsLength s) := by
  induction s with
  | nil =>
    intro n
    cases n <;> simp [substringTo, jsLength]
  | cons c cs ih =>
    intro n
    cases n with
    | zero => simp [substringTo, jsLength]
    | succ n =>
      by_cases hc : c.toNat < 65536
      · rw [substringTo_succ_cons, if_pos hc, jsLength_cons, jsLength_cons, if_pos hc, ih]
        omega
      · rw [substringTo_succ_cons, if_neg hc]
        cases n with
        | zero =>
          have h1 : jsLength [Char.ofNat 65533] = 1 := by decide
          have h2 := jsLength_cons c cs
          rw [if_neg hc] at h2
          show jsLength [Char.ofNat 65533] = _
          rw [h1, h2]
          omega
        | succ m =>
          simp only
          rw [jsLength_cons, jsLength_cons, if_neg hc, ih]
          omega

/-- On a text of characters below U+10000 `substringTo n` takes the first `n` characters. -/
theorem substringTo_eq_take (s : Str) (h : ∀ c ∈ s, c.toNat < 65536) :
    ∀ n, substringTo n s = s.take n := by
  induction s with
  | nil => intro n; cases n <;> rfl
  | cons c cs ih =>
    intro n
    cases n with
    | zero => rfl
    | succ n =>
      rw [substringTo_succ_cons, if_pos (h c (List.mem_cons_self _ _)),
        ih (fun d hd => h d (List.mem_cons_of_mem _ hd)), List.take_succ_cons]

/-- C20: with the default limit, `truncateDescription` returns at most 200 UTF-16 units: the
description itself when it has at most 200, and otherwise its first 197 units followed by
`...`, which makes exactly 200; truncating the result again returns it unchanged.  (A
surrogate pair cut by the limit appears in the model as U+FFFD, one unit; on a description of
characters below U+10000 the first 197 units are the first 197 characters.) -/
theorem c20_truncateDescription_default (desc : Str) :
    jsLength (truncateDescription desc 200) ≤ 200 ∧
    (jsLength desc ≤ 200 → truncateDescription desc 200 = desc) ∧
    (200 < jsLength desc →
      truncateDescription desc 200 = substringTo 197 desc ++ "...".toList ∧
      jsLength (substringTo 197 desc) = 197 ∧
      jsLength (truncateDescription desc 200) = 200) ∧
    ((∀ c ∈ desc, c.toNat < 65536) → substringTo 197 desc = desc.take 197) ∧
    truncateDescription (truncateDescription desc 200) 200 = truncateDescription desc 200 := by
  have hdots : jsLength "...".toList = 3 := by decide
  have hlong : 200 < jsLength desc →
      truncateDescription desc 200 = substringTo 197 desc ++ "...".toList ∧
      jsLength (substringTo 197 desc) = 197 ∧
      jsLength (truncateDescription desc 200) = 200 := by
    intro h
    have h1 : truncateDescription desc 200 = substringTo 197 desc ++ "...".toList := by
      unfold truncateDescription
      rw [if_neg (by omega)]
    have h2 : jsLength (substringTo 197 desc) = 197 := by
      rw [jsLength_substringTo]; omega
    exact ⟨h1, h2, by rw [h1, jsLength_append, h2, hdots]⟩
  have hshort : jsLength desc ≤ 200 → truncateDescription desc 200 = desc := by
    intro h
    unfold truncateDescription
    rw [if_pos h]
  have hle : jsLength (truncateDescription desc 200) ≤ 200 := by
    by_cases h : jsLength desc ≤ 200
    · rw [hshort h]; exact h
    · rw [(hlong (by omega)).2.2]
  refine ⟨hle, hshort, hlong, fun h => substringTo_eq_take desc h 197, ?_⟩
  unfold truncateDescription at hle ⊢
  rw [if_pos hle]

/-- C27 (the code departs from the claim): with `indexWithMarker` and two pending items both
named `beta`, neither is skipped, since `existingNames` holds the names of the index only;
`newSkills` holds the name `beta` twice and the text written has two record starts
`  - name: beta`. -/
theorem c27_same_name_imported_twice :
    "beta".toList ∉ existingNames (stripBOM indexWithMarker) ∧
    (sortItems asciiLower (existingNames (stripBOM indexWithMarker)) pendingSameName).skipped =
      [] ∧
    (sortItems asciiLower (existingNames (stripBOM indexWithMarker))
        pendingSameName).newSkills.map (fun e => e.name) = ["beta".toList, "beta".toList] ∧
    ((importWith asciiLower "2026-01-01".toList indexWithMarker pendingSameName).map
        (fun out => (splitLines out).count "  - name: beta".toList)) = some 2 := by
  decide

/-- C23 (the code departs from the claim): for the item `SKILL` under `main/` and the item
`readme` under `agents/index/`, both generic names, `fixGenericName` derives the names
`main` and `index` from the paths, and both are generic names themselves. -/
theorem c23_derived_name_is_generic :
    trim (asciiLower itemInMain.name) ∈ genericNames ∧
    fixGenericName asciiLower itemInMain = "main".toList ∧
    fixGenericName asciiLower itemInMain ≠ itemInMain.name ∧
    fixGenericName asciiLower itemInMain ∈ genericNames ∧
    trim (asciiLower itemInIndex.name) ∈ genericNames ∧
    fixGenericName asciiLower itemInIndex = "index".toList ∧
    fixGenericName asciiLower itemInIndex ∈ genericNames := by
  decide

theorem dash_mem_joinWith (w1 w2 : Str) (ws : List Str) :
    '-' ∈ joinWith "-".toList (w1 :: w2 :: ws) := by
  show '-' ∈ w1 ++ "-".toList ++ joinWith "-".toList (w2 :: ws)
  simp

/-- A name that `fixGenericName` builds from the words of a description holds a dash and is
therefore none of the generic names. -/
theorem descriptionName_not_generic (lower : Str → Str) (d : Str)
    (h : 2 ≤ (descriptionWords lower d).length) :
    joinWith "-".toList (descriptionWords lower d) ∉ genericNames := by
  cases hw : descriptionWords lower d with
  | nil => rw [hw] at h; simp at h
  | cons w1 r =>
    cases r with
    | nil => rw [hw] at h; simp at h
    | cons w2 ws =>
      intro hg
      have hd := dash_mem_joinWith w1 w2 ws
      generalize joinWith "-".toList (w1 :: w2 :: ws) = x at hg hd
      have : ∀ g ∈ genericNames, '-' ∉ g := by decide
      exact this x hg hd

theorem find?_append_of_none {α : Type} (p : α → Bool) (before : List α) (x : α) (after : List α)
    (hb : ∀ y ∈ before, p y = false) (hx : p x = true) :
    (before ++ x :: after).find? p = some x := by
  induction before with
  | nil => simp [List.find?, hx]
  | cons y ys ih =>
    rw [List.cons_append, List.find?_cons_of_neg _ (by rw [hb y (List.mem_cons_self _ _)]; simp)]
    exact ih (fun z hz => hb z (List.mem_cons_of_mem _ hz))

/-- C22: `categorizeItem` returns the first category, in the order of the table for the type
(the agent table for the type `agent`, the skill table otherwise), one of whose keywords
occurs in the lower-cased text `name description`, and `general` when no keyword of the table
occurs.  The result depends on name and description through that lower-cased text only, so
it is the same for names and descriptions that differ in letter case alone. -/
theorem c22_categorizeItem_first_keyword_category (lower : Str → Str)
    (name description type : Str) :
    (tableFor type = if type = "agent".toList then AGENT_CATEGORIES else SKILL_CATEGORIES) ∧
    (∀ (before after : List (Str × List Str)) (category : Str) (keywords : List Str),
      tableFor type = before ++ (category, keywords) :: after →
      (∀ row ∈ before, ∀ kw ∈ row.2, includes (searchText lower name description) kw = false) →
      (∃ kw ∈ keywords, includes (searchText lower name description) kw = true) →
      categorizeItem lower name description type = category) ∧
    ((∀ row ∈ tableFor type, ∀ kw ∈ row.2,
        includes (searchText lower name description) kw = false) →
      categorizeItem lower name description type = "general".toList) ∧
    (∀ name2 description2 : Str,
      searchText lower name2 description2 = searchText lower name description →
      categorizeItem lower name2 description2 type =
        categorizeItem lower name description type) ∧
    ((∀ a b : Str, lower (a ++ b) = lower a ++ lower b) →
      ∀ name2 description2 : Str, lower name2 = lower name →
        lower description2 = lower description →
        categorizeItem lower name2 description2 type =
          categorizeItem lower name description type) := by
  have hdef : ∀ n d : Str, categorizeItem lower n d type =
      match (tableFor type).find?
          (fun row => row.2.any (fun kw => includes (searchText lower n d) kw)) with
      | some row => row.1
      | none => "general".toList := fun _ _ => rfl
  have hsame : ∀ name2 description2 : Str,
      searchText lower name2 description2 = searchText lower name description →
      categorizeItem lower name2 description2 type =
        categorizeItem lower name description type := by
    intro n2 d2 h
    rw [hdef, hdef, h]
  refine ⟨rfl, ?_, ?_, hsame, ?_⟩
  · intro before after category keywords htab hbefore hkw
    rw [hdef, htab, find?_append_of_none]
    · intro row hrow
      rw [List.any_eq_false]
      intro kw hk
      rw [hbefore row hrow kw hk]
      simp
    · rw [List.any_eq_true]
      exact hkw
  · intro hnone
    rw [hdef]
    have : (tableFor type).find?
        (fun row => row.2.any (fun kw => includes (searchText lower name description) kw)) =
        none := by
      rw [List.find?_eq_none]
      intro row hrow
      simp only [List.any_eq_true, not_exists, not_and]
      intro kw hk
      rw [hnone row hrow kw hk]
      simp
    rw [this]
  · intro hmap n2 d2 hn hd
    apply hsame
    unfold searchText
    rw [hmap, hmap, hmap, hmap, hn, hd]

/-- On the name `React-Hooks` with the description `Testing UI` the skill table gives
`testing`, the first category with a keyword in `react-hooks testing ui`, and the agent table
gives `quality-security`; the name `plain` with an empty description gives `general`. -/
theorem categorizeItem_examples :
    categorizeItem asciiLower "React-Hooks".toList "Testing UI".toList "skill".toList =
      "testing".toList ∧
    categorizeItem asciiLower "react-hooks".toList "testing ui".toList "skill".toList =
      "testing".toList ∧
    categorizeItem asciiLower "React-Hooks".toList "Testing UI".toList "agent".toList =
      "quality-security".toList ∧
    categorizeItem asciiLower "plain".toList [] "skill".toList = "general".toList := by
  decide

/-- C24 (the code departs from the claim): in `pendingOpenQuote` the trimmed value of the
line `description: "` is the one character `"`, which begins and ends with a double quote;
the value stored is that character, not the value without its first and last character.
The call `substring(1, 0)` swaps its arguments and returns the first character.  The same
holds for a lone single quote. -/
theorem c24_lone_quote_is_stored_as_value :
    lineEntry "description: \"".toList = some ("description".toList, "\"".toList) ∧
    parseSimpleYAML pendingOpenQuote =
      [ ("name".toList, "beta".toList), ("type".toList, "skill".toList),
        ("description".toList, "\"".toList) ] ∧
    objGet (parseSimpleYAML pendingOpenQuote) "description".toList = some "\"".toList ∧
    substring 1 0 "\"".toList = "\"".toList ∧
    unquote "'".toList = "'".toList := by
  decide

theorem substringTo_jsLength_append (a b : Str) : substringTo (jsLength a) (a ++ b) = a := by
  induction a with
  | nil => cases b <;> rfl
  | cons c a ih =>
    rw [jsLength_cons, List.cons_append]
    by_cases hc : c.toNat < 65536
    · rw [if_pos hc, show 1 + jsLength a = jsLength a + 1 by omega, substringTo_succ_cons,
        if_pos hc, ih]
    · rw [if_neg hc, show 2 + jsLength a = (jsLength a + 1) + 1 by omega, substringTo_succ_cons,
        if_neg hc]
      simp only
      rw [ih]

theorem dropUnits_one_cons (c : Char) (s : Str) (hc : c.toNat < 65536) :
    dropUnits 1 (c :: s) = s := by
  show (if c.toNat < 65536 then dropUnits 0 s else Char.ofNat 65533 :: s) = s
  rw [if_pos hc]
  cases s <;> rfl

/-- The quote removal on a value of at least two characters that starts and ends with the
same quote character `q`: the value without its first and last character. -/
theorem unquote_quoted (q : Char) (mid : Str) (hq : q = Char.ofNat 34 ∨ q = Char.ofNat 39) :
    unquote (q :: (mid ++ [q])) = mid := by
  have hbmp : q.toNat < 65536 := by rcases hq with h | h <;> rw [h] <;> decide
  have hcond : ((startsWith (q :: (mid ++ [q])) [Char.ofNat 34] &&
        endsWithChar (q :: (mid ++ [q])) (Char.ofNat 34)) ||
      (startsWith (q :: (mid ++ [q])) [Char.ofNat 39] &&
        endsWithChar (q :: (mid ++ [q])) (Char.ofNat 39))) = true := by
    have hlast : (q :: (mid ++ [q])).getLast? = some q := by
      rw [← List.cons_append, List.getLast?_append]
      simp
    unfold endsWithChar startsWith
    rw [hlast]
    rcases hq with h | h <;> rw [h] <;> simp [List.isPrefixOf]
  have hlen : jsLength (q :: (mid ++ [q])) - 1 = jsLength (q :: mid) := by
    rw [jsLength_cons, jsLength_append, jsLength_cons, jsLength_cons, if_pos hbmp]
    simp [jsLength]
    omega
  unfold unquote
  rw [if_pos hcond, hlen]
  unfold substring
  have h1 : 1 ≤ jsLength (q :: mid) := by
    rw [jsLength_cons, if_pos hbmp]; omega
  rw [Nat.min_eq_left h1, Nat.max_eq_right h1, ← List.cons_append,
    substringTo_jsLength_append, dropUnits_one_cons q mid hbmp]

theorem objGet_objPut (key value : Str) (obj : Obj) (k : Str) :
    objGet (objPut key value obj) k = if k = key then some value else objGet obj k := by
  induction obj with
  | nil =>
    by_cases h : k = key
    · simp [objPut, objGet, h]
    · have h' : ¬ key = k := fun e => h e.symm
      simp [objPut, objGet, h, h']
  | cons kv rest ih =>
    unfold objGet at ih ⊢
    rw [objPut]
    by_cases h1 : kv.1 = key
    · rw [if_pos h1]
      by_cases h : k = key
      · simp [h, h1]
      · have h' : ¬ kv.1 = k := fun e => h (e.symm.trans h1)
        rw [if_neg h, List.find?_cons_of_neg _ (by simpa using h'),
          List.find?_cons_of_neg _ (by simpa using h')]
    · rw [if_neg h1]
      by_cases h2 : kv.1 = k
      · have h : ¬ k = key := fun e => h1 (h2.trans e)
        simp [h2, h]
      · rw [List.find?_cons_of_neg _ (by simpa using h2),
          List.find?_cons_of_neg _ (by simpa using h2)]
        exact ih

/-- What the loop of `parseSimpleYAML` stores under a key other than `__proto__`: the value
of the last line that assigns the key, and what the object held before when no line does. -/
theorem foldl_yamlStep_lookup (k : Str) (hk : k ≠ "__proto__".toList) (lines : List Str) :
    ∀ obj : Obj, objGet (lines.foldl yamlStep obj) k =
      match (lines.reverse.filterMap lineEntry).find? (fun kv => kv.1 = k) with
      | some kv => some kv.2
      | none => objGet obj k := by
  induction lines with
  | nil => intro obj; rfl
  | cons l ls ih =>
    intro obj
    rw [List.foldl_cons, ih, List.reverse_cons, List.filterMap_append, List.find?_append]
    cases hf : (ls.reverse.filterMap lineEntry).find? (fun kv => decide (kv.1 = k)) with
    | some kv => rfl
    | none =>
      simp only [Option.none_or, List.filterMap_cons, List.filterMap_nil]
      unfold yamlStep
      cases hl : lineEntry l with
      | none => rfl
      | some kv =>
        simp only
        by_cases hkv : kv.1 = k
        · have hne : ¬ kv.1 = "__proto__".toList := by rw [hkv]; exact hk
          rw [List.find?_cons_of_pos _ (by simpa using hkv)]
          unfold objSet
          rw [if_neg hne, objGet_objPut, if_pos hkv.symm]
        · rw [List.find?_cons_of_neg _ (by simpa using hkv)]
          simp only [List.find?_nil]
          unfold objSet
          split_ifs
          · rfl
          · rw [objGet_objPut, if_neg (fun e => hkv e.symm)]

end BulkImport

end ProdDevIQ
